import Mathlib

/-!
# Ordered, rank-indexed skip list (`skiplist.go`, `set.go`)

A shallow embedding of the two Go types `SkipList[V]` and `Set` and a
verification of their contract.

Modelling conventions.
* A Go pointer `*Node` is an `Option Nat`: `none` is `nil`, `some a` is the
  address `a` of a node in the heap `Nat → Node V`.  `NewNode` takes the next
  unused address `alloc`.
* `uint32` values (spans, ranks, the length of a `Set`) are natural numbers kept
  below `2^32`; every `uint32` addition and subtraction is written with an
  explicit reduction modulo `2^32`.
* The `int` length of a `SkipList` counts live heap nodes and is kept as an
  exact integer.
* A run-time panic (index out of range, nil dereference) and an exhausted loop
  fuel are the result `none`.
-/

namespace skiplist

/-! ## Data model -/

/-- The modulus of `uint32` arithmetic. -/
def M32 : Nat := 4294967296

/-- The Go constant `maxLevel` (`SKIPLIST_MAXLEVEL` in `set.go`). -/
def maxLevel : Nat := 32

/-- Addition of two `uint32` values. -/
def add32 (a b : Nat) : Nat := (a + b) % M32

/-- Subtraction of two `uint32` values (wraps around below zero). -/
def sub32 (a b : Nat) : Nat := (a + (M32 - b % M32)) % M32

/-- The interface `Valuer`: a key and a score, both `uint64`. -/
class Valuer (V : Type) where
  /-- The method `Key()`. -/
  Key : V → Nat
  /-- The method `Score()`. -/
  Score : V → Nat

/-- The interface `Valuer` of `set.go`, which adds `ReCalcScore()`.  The method
mutates its receiver; here it returns the receiver after the call.  The key of
an element is stable. -/
class ReValuer (V : Type) extends Valuer V where
  /-- The method `ReCalcScore()`. -/
  ReCalcScore : V → V
  /-- The key does not change when the score is recomputed. -/
  Key_ReCalcScore : ∀ v, Key (ReCalcScore v) = Key v

/-- The interface `Comparator[V]` (`Comparatorer` in `set.go`). -/
structure Comparator (V : Type) where
  /-- The method `CmpScore`. -/
  CmpScore : V → V → Int
  /-- The method `CmpKey`. -/
  CmpKey : V → V → Int

/-- The comparator `cmp` of the tests: three-way comparison of the scores and of
the keys. -/
def cmp (V : Type) [Valuer V] : Comparator V where
  CmpScore v1 v2 :=
    if Valuer.Score v1 < Valuer.Score v2 then -1
    else if Valuer.Score v1 = Valuer.Score v2 then 0 else 1
  CmpKey v1 v2 :=
    if Valuer.Key v1 < Valuer.Key v2 then -1
    else if Valuer.Key v1 = Valuer.Key v2 then 0 else 1

/-- The struct `Level`: a forward pointer and a span. -/
structure Level where
  /-- The field `forward`. -/
  forward : Option Nat
  /-- The field `span`. -/
  span : Nat
deriving DecidableEq, Repr

/-- The struct `Node`. -/
structure Node (V : Type) where
  /-- The field `value`. -/
  value : V
  /-- The field `backward`. -/
  backward : Option Nat
  /-- The field `level`, a slice of `Level`. -/
  level : List Level

/-- The heap of nodes, by address. -/
abbrev Heap (V : Type) := Nat → Node V

/-- The struct `SkipList[V]` (and `Set`), together with the heap its pointers
refer to. -/
structure SkipList (V : Type) where
  /-- The heap holding the nodes. -/
  heap : Heap V
  /-- The next unused heap address. -/
  alloc : Nat
  /-- The field `head`. -/
  head : Nat
  /-- The field `tail`. -/
  tail : Option Nat
  /-- The field `level`. -/
  level : Nat
  /-- The field `length`. -/
  length : Int
  /-- The field `cmp`. -/
  cmp : Comparator V
  /-- The field `index`, a map from keys to values. -/
  index : Nat → Option V

/-- The type `Set` of `set.go` has the fields of `SkipList`; its `length` is a
`uint32`. -/
abbrev Set (V : Type) := SkipList V

variable {V : Type}

/-- The entry `n.level[i]`; `none` when `i` is out of range. -/
def Node.lvl (n : Node V) (i : Nat) : Option Level := n.level[i]?

/-- The method `Next`. -/
def Node.Next (n : Node V) (i : Nat) : Option (Option Nat) :=
  (n.lvl i).map Level.forward

/-- The method `Span`. -/
def Node.Span (n : Node V) (i : Nat) : Option Nat :=
  (n.lvl i).map Level.span

/-- The method `SetNext`. -/
def Node.SetNext (n : Node V) (i : Nat) (next : Option Nat) : Option (Node V) :=
  (n.lvl i).map fun lv => { n with level := n.level.set i { lv with forward := next } }

/-- The method `SetSpan`. -/
def Node.SetSpan (n : Node V) (i : Nat) (span : Nat) : Option (Node V) :=
  (n.lvl i).map fun lv => { n with level := n.level.set i { lv with span := span } }

/-- The function `NewNode`: a node with `level` zeroed tower entries. -/
def NewNode (level : Nat) (value : V) : Node V :=
  { value := value, backward := none, level := List.replicate level ⟨none, 0⟩ }

/-- The call `x.Next(i)` on the node at address `x`. -/
def Heap.Next (h : Heap V) (x i : Nat) : Option (Option Nat) := (h x).Next i

/-- The call `x.Span(i)` on the node at address `x`. -/
def Heap.Span (h : Heap V) (x i : Nat) : Option Nat := (h x).Span i

/-- The call `x.SetNext(i, next)` on the node at address `x`. -/
def Heap.SetNext (h : Heap V) (x i : Nat) (next : Option Nat) : Option (Heap V) :=
  ((h x).SetNext i next).map fun n => Function.update h x n

/-- The call `x.SetSpan(i, span)` on the node at address `x`. -/
def Heap.SetSpan (h : Heap V) (x i : Nat) (span : Nat) : Option (Heap V) :=
  ((h x).SetSpan i span).map fun n => Function.update h x n

/-- The assignment `x.backward = b` on the node at address `x`. -/
def Heap.setBackward (h : Heap V) (x : Nat) (b : Option Nat) : Heap V :=
  Function.update h x { h x with backward := b }

/-- The function `NewSkipList` (`NewSet`): the head sentinel sits at address 0
and holds the zero value of `V`. -/
def NewSkipList [Inhabited V] (c : Comparator V) : SkipList V where
  heap := fun _ => NewNode maxLevel default
  alloc := 1
  head := 0
  tail := none
  level := 1
  length := 0
  cmp := c
  index := fun _ => none

/-- The function `NewSet`. -/
def NewSet [Inhabited V] (c : Comparator V) : Set V := NewSkipList c

/-- The loop `for rand.Uint32()&0xFFFF < uint32(P*0xFFFF) && level < maxLevel`
of `randomLevel`: `rand k` is the `k`-th value drawn from `rand.Uint32()`;
`uint32(P*0xFFFF)` is 16383.  The loop stops after at most `maxLevel` draws. -/
def randomLevelLoop (rand : Nat → Nat) : Nat → Nat → Nat → Nat
  | 0, _, level => level
  | fuel + 1, k, level =>
    if rand k % 65536 < 16383 ∧ level < maxLevel then
      randomLevelLoop rand fuel (k + 1) (level + 1)
    else level

/-- The method `randomLevel`. -/
def randomLevel (rand : Nat → Nat) : Nat := randomLevelLoop rand maxLevel 0 1

/-- The order test shared by the searches of `Insert` and `Delete`:
`CmpScore(next, value) < 0 || (CmpScore(next, value) == 0 && CmpKey(next, value) < 0)`. -/
def Comparator.before (c : Comparator V) (next value : V) : Bool :=
  decide (c.CmpScore next value < 0) ||
    (decide (c.CmpScore next value = 0) && decide (c.CmpKey next value < 0))

/-- The order test of `GetRank`:
`CmpScore(next, value) < 0 || (CmpScore(next, value) == 0 && CmpKey(next, value) <= 0)`. -/
def Comparator.upto (c : Comparator V) (next value : V) : Bool :=
  decide (c.CmpScore next value < 0) ||
    (decide (c.CmpScore next value = 0) && decide (c.CmpKey next value ≤ 0))

/-- The inner loop that every search runs at level `i`:
`for next := x.Next(i); next != nil && cond; next = x.Next(i) { acc += x.Span(i); x = next }`.
The condition may read the next node's value and the `uint32` sum
`acc + x.Span(i)`.  Searches that keep no rank ignore `acc`. -/
def advance (h : Heap V) (cond : Nat → V → Bool) (i : Nat) : Nat → Nat → Nat → Option (Nat × Nat)
  | 0, _, _ => none
  | fuel + 1, x, acc =>
    match (h x).lvl i with
    | none => none
    | some lv =>
      match lv.forward with
      | none => some (x, acc)
      | some next =>
        if cond (add32 acc lv.span) (h next).value then
          advance h cond i fuel next (add32 acc lv.span)
        else some (x, acc)

/-- The outer loop `for i := int(l.level - 1); i >= 0; i--` of `Insert`,
`Delete` and the range deletions, for the levels below `n`: it records
`update[i]` and `rank[i]`; `rank[i]` starts from `rank[i+1]` (from 0 at the
top level).  The result holds the final `x` and the two arrays. -/
def search (h : Heap V) (cond : Nat → V → Bool) (fuel : Nat) :
    Nat → Nat → Nat → (Nat → Option Nat) → (Nat → Nat) →
      Option (Nat × (Nat → Option Nat) × (Nat → Nat))
  | 0, x, _, update, rank => some (x, update, rank)
  | n + 1, x, acc, update, rank =>
    match advance h cond n fuel x acc with
    | none => none
    | some (x1, acc1) =>
      search h cond fuel n x1 acc1 (Function.update update n (some x1))
        (Function.update rank n acc1)

/-! ## Insertion -/

/-- The loop of `Insert` that runs when the new height exceeds the current one:
`for i := l.level; i < level; i++ { rank[i] = 0; update[i] = l.head;
update[i].SetSpan(int(i), uint32(l.length)) }`, for `k` further levels from `i`. -/
def growLoop (head len32 : Nat) :
    Nat → Nat → Heap V → (Nat → Option Nat) → (Nat → Nat) →
      Option (Heap V × (Nat → Option Nat) × (Nat → Nat))
  | 0, _, h, update, rank => some (h, update, rank)
  | k + 1, i, h, update, rank =>
    match h.SetSpan head i len32 with
    | none => none
    | some h1 =>
      growLoop head len32 k (i + 1) h1 (Function.update update i (some head))
        (Function.update rank i 0)

/-- The loop of `Insert` that links the new node `x` into the levels below its
height: `x.SetNext(i, update[i].Next(i)); update[i].SetNext(i, x);
x.SetSpan(i, update[i].Span(i)-(rank[0]-rank[i]));
update[i].SetSpan(i, rank[0]-rank[i]+1)`, for `k` levels from `i`. -/
def spliceLoop (x : Nat) (update : Nat → Option Nat) (rank : Nat → Nat) :
    Nat → Nat → Heap V → Option (Heap V)
  | 0, _, h => some h
  | k + 1, i, h => do
    let u ← update i
    let nx ← h.Next u i
    let h1 ← h.SetNext x i nx
    let h2 ← h1.SetNext u i (some x)
    let sp ← h2.Span u i
    let h3 ← h2.SetSpan x i (sub32 sp (sub32 (rank 0) (rank i)))
    let h4 ← h3.SetSpan u i (add32 (sub32 (rank 0) (rank i)) 1)
    spliceLoop x update rank k (i + 1) h4

/-- The loop of `Insert` over the levels above the new node:
`for i := level; i < l.level; i++ { update[i].SetSpan(int(i), update[i].Span(int(i))+1) }`,
for `k` levels from `i`. -/
def bumpLoop (update : Nat → Option Nat) : Nat → Nat → Heap V → Option (Heap V)
  | 0, _, h => some h
  | k + 1, i, h => do
    let u ← update i
    let sp ← h.Span u i
    let h1 ← h.SetSpan u i (add32 sp 1)
    bumpLoop update k (i + 1) h1

/-- The body that `SkipList.Insert` (lines 117-171) and `Set.Insert` (lines
118-172) share word for word: the search for the insertion point, the new node
of height `level`, its linking into the tower levels, and the backward and tail
pointers.  The result is the new node `x` and the list before `length++`. -/
def insertNode (l : SkipList V) (value : V) (level : Nat) : Option (Nat × SkipList V) := do
  let (_, update, rank) ←
    search l.heap (fun _ next => l.cmp.before next value) l.alloc l.level l.head 0
      (fun _ => none) (fun _ => 0)
  let (h1, update, rank) ←
    growLoop l.head (l.length % (M32 : Int)).toNat (level - l.level) l.level l.heap update rank
  let level1 := if level > l.level then level else l.level
  let x := l.alloc
  let h2 := Function.update h1 x (NewNode level value)
  let h3 ← spliceLoop x update rank level 0 h2
  let h4 ← bumpLoop update (level1 - level) level h3
  let u0 ← update 0
  let h5 := if u0 = l.head then h4.setBackward x none else h4.setBackward x (some u0)
  let nx ← h5.Next x 0
  match nx with
  | some y =>
    some (x, { l with heap := h5.setBackward y (some x), alloc := l.alloc + 1, level := level1 })
  | none =>
    some (x, { l with heap := h5, alloc := l.alloc + 1, level := level1, tail := some x })

/-- The error value `RepeatedKey`. -/
inductive Error where
  | RepeatedKey
deriving DecidableEq, Repr

/-- The method `SkipList.Insert`; `rand` is the stream of values that
`randomLevel` draws.  `.error RepeatedKey` is the result `(nil, RepeatedKey)`
and `.ok x` the result `(x, nil)`. -/
def SkipList.Insert [Valuer V] (l : SkipList V) (value : V) (rand : Nat → Nat) :
    Option (Except Error Nat × SkipList V) :=
  match l.index (Valuer.Key value) with
  | some _ => some (.error .RepeatedKey, l)
  | none =>
    match insertNode l value (randomLevel rand) with
    | none => none
    | some (x, l1) =>
      some (.ok x, { l1 with
        length := l1.length + 1
        index := Function.update l1.index (Valuer.Key value) (some value) })

/-! ## Deletion -/

/-- The first loop of `deleteNode`, for `k` levels from `i`:
`if update[i].Next(i) == x { update[i].SetSpan(i, update[i].Span(i)+x.Span(i)-1);
update[i].SetNext(i, x.Next(i)) } else { update[i].SetSpan(i, update[i].Span(i)-1) }`. -/
def unlinkLoop (x : Nat) (update : Nat → Option Nat) : Nat → Nat → Heap V → Option (Heap V)
  | 0, _, h => some h
  | k + 1, i, h => do
    let u ← update i
    let nx ← h.Next u i
    if nx = some x then
      let su ← h.Span u i
      let sx ← h.Span x i
      let h1 ← h.SetSpan u i (sub32 (add32 su sx) 1)
      let xn ← h1.Next x i
      let h2 ← h1.SetNext u i xn
      unlinkLoop x update k (i + 1) h2
    else
      let su ← h.Span u i
      let h1 ← h.SetSpan u i (sub32 su 1)
      unlinkLoop x update k (i + 1) h1

/-- The loop `for l.level > 1 && l.head.Next(int(l.level-1)) == nil { l.level-- }`
of `deleteNode`, started at the level given; the result is the final level. -/
def shrinkLevel (h : Heap V) (head : Nat) : Nat → Option Nat
  | 0 => some 0
  | 1 => some 1
  | n + 2 =>
    match h.Next head (n + 1) with
    | none => none
    | some none => shrinkLevel h head (n + 1)
    | some (some _) => some (n + 2)

/-- The method `deleteNode` up to, and without, its last statement `length--`
(which differs between the `int` of `SkipList` and the `uint32` of `Set`). -/
def unlink (l : SkipList V) (x : Nat) (update : Nat → Option Nat) : Option (SkipList V) := do
  let h1 ← unlinkLoop x update l.level 0 l.heap
  let nx ← h1.Next x 0
  let (h2, tail) :=
    match nx with
    | some y => (h1.setBackward y (h1 x).backward, l.tail)
    | none => (h1, (h1 x).backward)
  let level ← shrinkLevel h2 l.head l.level
  some { l with heap := h2, tail := tail, level := level }

/-- The method `SkipList.deleteNode`. -/
def SkipList.deleteNode (l : SkipList V) (x : Nat) (update : Nat → Option Nat) :
    Option (SkipList V) :=
  (unlink l x update).map fun l1 => { l1 with length := l1.length - 1 }

/-- The method `SkipList.Delete`. -/
def SkipList.Delete [Valuer V] (l : SkipList V) (key : Nat) : Option (Int × SkipList V) :=
  match l.index key with
  | none => some (0, l)
  | some value => do
    let (x, update, _) ←
      search l.heap (fun _ next => l.cmp.before next value) l.alloc l.level l.head 0
        (fun _ => none) (fun _ => 0)
    let nx ← l.heap.Next x 0
    match nx with
    | none => some (0, l)
    | some y =>
      if l.cmp.CmpKey (l.heap y).value value = 0 ∧ l.cmp.CmpScore (l.heap y).value value = 0 then
        (l.deleteNode y update).map fun l1 =>
          (1, { l1 with index := Function.update l1.index (Valuer.Key value) none })
      else some (0, l)

/-! ## Queries -/

/-- The outer loop of `GetRank` for the levels below `n`; after the inner loop
of a level it returns `rank` when `x != l.head && CmpKey(x.value, value) == 0`,
and 0 when the levels are exhausted. -/
def getRankLoop (h : Heap V) (c : Comparator V) (head : Nat) (value : V) (fuel : Nat) :
    Nat → Nat → Nat → Option Nat
  | 0, _, _ => some 0
  | n + 1, x, rank =>
    match advance h (fun _ next => c.upto next value) n fuel x rank with
    | none => none
    | some (x1, rank1) =>
      if x1 ≠ head ∧ c.CmpKey (h x1).value value = 0 then some rank1
      else getRankLoop h c head value fuel n x1 rank1

/-- The method `SkipList.GetRank`. -/
def SkipList.GetRank (l : SkipList V) (value : V) : Option Nat :=
  getRankLoop l.heap l.cmp l.head value l.alloc l.level l.head 0

/-- The outer loop of `GetNodeByRank` for the levels below `n`; the inner loop
runs while `traversed+x.Span(i) <= rank`, and the search returns `x` as soon as
`traversed == rank`, and `nil` when the levels are exhausted. -/
def getNodeByRankLoop (h : Heap V) (rank : Nat) (fuel : Nat) :
    Nat → Nat → Nat → Option (Option Nat)
  | 0, _, _ => some none
  | n + 1, x, traversed =>
    match advance h (fun t _ => decide (t ≤ rank)) n fuel x traversed with
    | none => none
    | some (x1, traversed1) =>
      if traversed1 = rank then some (some x1)
      else getNodeByRankLoop h rank fuel n x1 traversed1

/-- The method `GetNodeByRank` (the same text in `skiplist.go` and `set.go`). -/
def SkipList.GetNodeByRank (l : SkipList V) (rank : Nat) : Option (Option Nat) :=
  getNodeByRankLoop l.heap rank l.alloc l.level l.head 0

/-- The loop of `Range` from the node `e`: the values handed to `fun`, in
order; the loop stops after the first value on which `fun` returns false. -/
def rangeLoop (h : Heap V) (f : V → Bool) : Nat → Option Nat → Option (List V)
  | 0, _ => none
  | _ + 1, none => some []
  | fuel + 1, some e =>
    if f (h e).value then
      match h.Next e 0 with
      | none => none
      | some next => (rangeLoop h f fuel next).map fun vs => (h e).value :: vs
    else some [(h e).value]

/-- The method `SkipList.Range`: the sequence of values on which the callback
is called. -/
def SkipList.Range (l : SkipList V) (f : V → Bool) : Option (List V) :=
  match l.heap.Next l.head 0 with
  | none => none
  | some e => rangeLoop l.heap f l.alloc e

/-- The full ascending traversal: `Range` with a callback that never stops. -/
def SkipList.traversal (l : SkipList V) : Option (List V) := l.Range fun _ => true

/-- The method `SkipList.Length`. -/
def SkipList.Length (l : SkipList V) : Int := l.length

/-- The method `SkipList.Level` (and `Set.Level`). -/
def SkipList.Level (l : SkipList V) : Nat := l.level

/-- The inner loop of `Dump` (and `DumpString`) at level `i`, from the node `x`:
`for x != nil { ... x.Span(i) ...; x = x.Next(i) }`.  The result lists the nodes
visited, each with the span printed for it. -/
def dumpLevel (h : Heap V) (i : Nat) : Nat → Option Nat → Option (List (Nat × Nat))
  | 0, _ => none
  | _ + 1, none => some []
  | fuel + 1, some x => do
    let span ← h.Span x i
    let next ← h.Next x i
    let rest ← dumpLevel h i fuel next
    some ((x, span) :: rest)

/-- The nodes and spans that `Dump` prints for level `i`: the forward chain of
that level, from the head sentinel to the last node. -/
def SkipList.dumpLevel (l : SkipList V) (i : Nat) : Option (List (Nat × Nat)) :=
  skiplist.dumpLevel l.heap i (l.alloc + 1) (some l.head)

/-! ## The type `Set` of `set.go` -/

/-- The method `Set.deleteNode`: the text of `SkipList.deleteNode`, with a
`uint32` length. -/
def Set.deleteNode (l : Set V) (x : Nat) (update : Nat → Option Nat) : Option (Set V) :=
  (unlink l x update).map fun l1 => { l1 with length := (l1.length - 1) % (M32 : Int) }

/-- The method `Set.Delete`.  The argument is shadowed by the value stored under
its key, and the key leaves the index before the search. -/
def Set.Delete [Valuer V] (l : Set V) (value : V) : Option (Int × Set V) :=
  match l.index (Valuer.Key value) with
  | none => some (0, l)
  | some value => do
    let l0 : Set V := { l with index := Function.update l.index (Valuer.Key value) none }
    let (x, update, _) ←
      search l0.heap (fun _ next => l0.cmp.before next value) l0.alloc l0.level l0.head 0
        (fun _ => none) (fun _ => 0)
    let nx ← l0.heap.Next x 0
    match nx with
    | none => some (0, l0)
    | some y =>
      if l0.cmp.CmpKey (l0.heap y).value value = 0 ∧
          l0.cmp.CmpScore (l0.heap y).value value = 0 then
        (Set.deleteNode l0 y update).map fun l1 => (1, l1)
      else some (0, l0)

/-- The method `Set.Insert`: `this.Delete(value)`, `value.ReCalcScore()`, the
insertion proper, `this.length++` and the index update. -/
def Set.Insert [ReValuer V] (l : Set V) (value : V) (rand : Nat → Nat) : Option (Set V) := do
  let (_, l1) ← Set.Delete l value
  let value := ReValuer.ReCalcScore value
  let (_, l2) ← insertNode l1 value (randomLevel rand)
  some { l2 with
    length := (l2.length + 1) % (M32 : Int)
    index := Function.update l2.index (Valuer.Key value) (some value) }

/-- The method `Set.GetElement`. -/
def Set.GetElement (l : Set V) (key : Nat) : Option V := l.index key

/-- The method `Set.DeleteElement`. -/
def Set.DeleteElement [Valuer V] (l : Set V) (key : Nat) : Option (Set V) :=
  match l.index key with
  | some value => (Set.Delete l value).map Prod.snd
  | none => some l

/-- The method `Set.Length`, a `uint32`. -/
def Set.Length (l : Set V) : Nat := l.length.toNat

/-- The method `Set.GetRank`. -/
def Set.GetRank (l : Set V) (key : Nat) : Option Nat :=
  match l.index key with
  | some value => getRankLoop l.heap l.cmp l.head value l.alloc l.level l.head 0
  | none => some 0

/-- The method `Set.GetNodeByRank`. -/
def Set.GetNodeByRank (l : Set V) (rank : Nat) : Option (Option Nat) :=
  SkipList.GetNodeByRank l rank

/-- The removal loop of `DeleteRangeByRank` and `DeleteRangeByScore`:
`for x != nil && cond { next := x.Next(0); this.deleteNode(x, update);
delete(this.index, x.Value().(Valuer).Key()); removed++; traversed++; x = next }`.
The condition of the first is `traversed <= end`, that of the second reads the
score of `x` (and the second keeps no `traversed`). -/
def Set.removeLoop [Valuer V] (cond : Nat → V → Bool) (update : Nat → Option Nat) :
    Nat → Set V → Option Nat → Nat → Nat → Option (Nat × Set V)
  | 0, _, _, _, _ => none
  | _ + 1, l, none, _, removed => some (removed, l)
  | fuel + 1, l, some x, traversed, removed =>
    if cond traversed (l.heap x).value then do
      let next ← l.heap.Next x 0
      let l1 ← Set.deleteNode l x update
      let l2 : Set V :=
        { l1 with index := Function.update l1.index (Valuer.Key (l1.heap x).value) none }
      Set.removeLoop cond update fuel l2 next (add32 traversed 1) (add32 removed 1)
    else some (removed, l)

/-- The method `Set.DeleteRangeByRank`.  The single counter `traversed` of the
search is what the search leaves in `rank[0]`; the statement `traversed++`
precedes the removal loop. -/
def Set.DeleteRangeByRank [Valuer V] (l : Set V) (start stop : Nat) : Option (Nat × Set V) := do
  let (x, update, rank) ←
    search l.heap (fun t _ => decide (t < start)) l.alloc l.level l.head 0
      (fun _ => none) (fun _ => 0)
  let nx ← l.heap.Next x 0
  Set.removeLoop (fun t _ => decide (t ≤ stop)) update l.alloc l nx (add32 (rank 0) 1) 0

/-- The struct `RangeSpec`. -/
structure RangeSpec where
  /-- The field `MinEx`. -/
  MinEx : Bool
  /-- The field `MaxEx`. -/
  MaxEx : Bool
  /-- The field `Min`. -/
  Min : Nat
  /-- The field `Max`. -/
  Max : Nat
deriving DecidableEq, Repr

/-- The method `ValueGteMin`. -/
def ValueGteMin (value : Nat) (spec : RangeSpec) : Bool :=
  if spec.MinEx then decide (value > spec.Min) else decide (value ≥ spec.Min)

/-- The method `ValueLteMax`. -/
def ValueLteMax (value : Nat) (spec : RangeSpec) : Bool :=
  if spec.MaxEx then decide (value < spec.Max) else decide (value ≤ spec.Max)

/-- The method `Set.DeleteRangeByScore`. -/
def Set.DeleteRangeByScore [Valuer V] (l : Set V) (rg : RangeSpec) : Option (Nat × Set V) := do
  let (x, update, _) ←
    search l.heap
      (fun _ next => (rg.MinEx && decide (Valuer.Score next ≤ rg.Min)) ||
        (!rg.MinEx && decide (Valuer.Score next < rg.Min)))
      l.alloc l.level l.head 0 (fun _ => none) (fun _ => 0)
  let nx ← l.heap.Next x 0
  Set.removeLoop
    (fun _ v => (rg.MaxEx && decide (Valuer.Score v < rg.Max)) ||
      (!rg.MaxEx && decide (Valuer.Score v ≤ rg.Max)))
    update l.alloc l nx 0 0

/-- The two loops of `GetRange`: `k` times `out = append(out, node.Value())`
followed by `node = node.level[0].forward` (or `node = node.backward` when
`reverse` is set). -/
def walkLoop (h : Heap V) (reverse : Bool) : Nat → Option Nat → Option (List V)
  | 0, _ => some []
  | _ + 1, none => none
  | k + 1, some p =>
    match (if reverse then some (h p).backward else h.Next p 0) with
    | none => none
    | some next => (walkLoop h reverse k next).map fun vs => (h p).value :: vs

/-- The method `Set.GetRange`; `start` and `stop` are `uint32` arguments. -/
def Set.GetRange (l : Set V) (start stop : Nat) (reverse : Bool) : Option (List V) :=
  let start := if start = 0 then 1 else start
  let stop := if stop = 0 then Set.Length l else stop
  if start > stop ∨ start > Set.Length l then some []
  else
    let stop := if stop > Set.Length l then Set.Length l else stop
    let rangeLen := add32 (sub32 stop start) 1
    if reverse then
      match Set.GetNodeByRank l (add32 (sub32 (Set.Length l) start) 1) with
      | none => none
      | some node => walkLoop l.heap true rangeLen node
    else
      match Set.GetNodeByRank l start with
      | none => none
      | some node => walkLoop l.heap false rangeLen node

/-- The method `Set.Range`: the sequence of values handed to the callback. -/
def Set.Range (l : Set V) : Option (List V) := SkipList.traversal l

/-- The method `Set.Head`. -/
def Set.Head (l : Set V) : Nat := l.head

/-- The method `Set.Tail`. -/
def Set.Tail (l : Set V) : Option Nat := l.tail

/-- The method `Set.First`. -/
def Set.First (l : Set V) : Option (Option Nat) := l.heap.Next l.head 0

/-- The expression `x.Value().(Valuer).Score()` on a node pointer `x`: a nil
pointer panics, and so does the type assertion on the head sentinel, whose value
is the nil interface. -/
def Set.score [Valuer V] (l : Set V) : Option Nat → Option Nat
  | none => none
  | some x => if x = l.head then none else some (Valuer.Score (l.heap x).value)

/-- The method `Set.IsInRange`. -/
def Set.IsInRange [Valuer V] (l : Set V) (rg : RangeSpec) : Option Bool :=
  if rg.Min > rg.Max ∨ (rg.Min = rg.Max ∧ (rg.MinEx || rg.MaxEx) = true) then some false
  else
    match Set.Tail l with
    | none => some false
    | some x => do
      let s ← Set.score l (some x)
      if !ValueGteMin s rg then some false
      else do
        let first ← Set.First l
        match first with
        | none => some false
        | some y => do
          let s1 ← Set.score l (some y)
          if !ValueLteMax s1 rg then some false else some true

/-- The method `Set.FirstInRange`; its search keeps neither `update` nor a
rank. -/
def Set.FirstInRange [Valuer V] (l : Set V) (rg : RangeSpec) : Option (Option Nat) := do
  let ok ← Set.IsInRange l rg
  if !ok then some none
  else do
    let (x, _, _) ←
      search l.heap (fun _ next => !ValueGteMin (Valuer.Score next) rg) l.alloc
        (SkipList.Level l) (Set.Head l) 0 (fun _ => none) (fun _ => 0)
    let x ← l.heap.Next x 0
    let s ← Set.score l x
    if !ValueLteMax s rg then some none else some x

/-- The method `Set.LastInRange`; its search keeps neither `update` nor a
rank. -/
def Set.LastInRange [Valuer V] (l : Set V) (rg : RangeSpec) : Option (Option Nat) := do
  let ok ← Set.IsInRange l rg
  if !ok then some none
  else do
    let (x, _, _) ←
      search l.heap (fun _ next => ValueLteMax (Valuer.Score next) rg) l.alloc
        (SkipList.Level l) (Set.Head l) 0 (fun _ => none) (fun _ => 0)
    let s ← Set.score l (some x)
    if !ValueGteMin s rg then some none else some (some x)

/-- The loop of `GetRangeByScore` from the node `x`:
`for x != nil { if !this.ValueLteMax(x.Value().(Valuer).Score(), rg) { break };
values = append(values, x.value); x = x.Next(0) }`. -/
def Set.collectLoop [Valuer V] (l : Set V) (rg : RangeSpec) : Nat → Option Nat → Option (List V)
  | 0, _ => none
  | _ + 1, none => some []
  | fuel + 1, some x => do
    let s ← Set.score l (some x)
    if !ValueLteMax s rg then some []
    else do
      let next ← l.heap.Next x 0
      let values ← Set.collectLoop l rg fuel next
      some ((l.heap x).value :: values)

/-- The method `Set.GetRangeByScore`. -/
def Set.GetRangeByScore [Valuer V] (l : Set V) (rg : RangeSpec) : Option (List V) := do
  let x ← Set.FirstInRange l rg
  Set.collectLoop l rg l.alloc x

/-- The struct `value` of the tests: a key and a score. -/
structure value where
  /-- The field `key`. -/
  key : Nat
  /-- The field `score`. -/
  score : Nat
deriving DecidableEq, Repr, Inhabited

/-- The methods `Key`, `Score` and (in `set_test.go`) the empty `ReCalcScore` of
the struct `value`. -/
instance : ReValuer value where
  Key := value.key
  Score := value.score
  ReCalcScore := id
  Key_ReCalcScore := fun _ => rfl

/-! ## Specification vocabulary

The definitions below are not part of the program: they describe the shape of a
well-formed heap in terms of the sequence `ps` of node addresses on the level-0
chain. -/

/-- The height of the tower of the node at address `p`. -/
def Heap.height (h : Heap V) (p : Nat) : Nat := (h p).level.length

/-- The value held by the node at address `p`. -/
def Heap.val (h : Heap V) (p : Nat) : V := (h p).value

/-- The heap `h` with the tower entry `i` of the node at `x` replaced by `e`. -/
def Heap.setEntry (h : Heap V) (x i : Nat) (e : Level) : Heap V :=
  Function.update h x { h x with level := (h x).level.set i e }

/-- The first address of the list whose tower reaches level `i`. -/
def nextAt (ht : Nat → Nat) (i : Nat) : List Nat → Option Nat
  | [] => none
  | q :: rest => if i < ht q then some q else nextAt ht i rest

/-- The number of level-0 steps to the first address of the list whose tower
reaches level `i`, or the length of the list when there is none. -/
def gap (ht : Nat → Nat) (i : Nat) : List Nat → Nat
  | [] => 0
  | q :: rest => if i < ht q then 1 else gap ht i rest + 1

/-- Level `i` of the heap is linked along the sequence of addresses: every node
of the sequence whose tower reaches level `i` points to the next such node (or
to `nil`), and its span is the distance to it (to the end of the sequence),
as a `uint32`. -/
def Links (h : Heap V) (i : Nat) : List Nat → Prop
  | [] => True
  | p :: rest =>
    (i < h.height p →
      (h p).lvl i = some ⟨nextAt h.height i rest, gap h.height i rest % M32⟩) ∧
    Links h i rest

/-- The backward pointers along the sequence: each node points back to `prev`,
the node before it (`nil` for the first). -/
def Back (h : Heap V) : Option Nat → List Nat → Prop
  | _, [] => True
  | prev, p :: rest => (h p).backward = prev ∧ Back h (some p) rest

/-- The last address of the list, or `prev` when the list is empty. -/
def lastOr (prev : Option Nat) : List Nat → Option Nat
  | [] => prev
  | p :: rest => lastOr (some p) rest

/-- The values that a callback `f` is called on when a traversal offers it the
values of the list in order and stops at the first on which `f` returns false. -/
def visit (f : V → Bool) : List V → List V
  | [] => []
  | v :: vs => if f v then v :: visit f vs else [v]

/-- The number of leading values that the removal loop of `DeleteRangeByRank`
and `DeleteRangeByScore` removes: it stops at the first value on which the
condition fails, and `traversed` grows by one with each removal. -/
def removeRun (cond : Nat → V → Bool) : Nat → List V → Nat
  | _, [] => 0
  | t, v :: vs => if cond t v then removeRun cond (add32 t 1) vs + 1 else 0

/-- The score of the value lies within the range: it passes `ValueGteMin` and
`ValueLteMax`. -/
def InRange [Valuer V] (rg : RangeSpec) (v : V) : Bool :=
  ValueGteMin (Valuer.Score v) rg && ValueLteMax (Valuer.Score v) rg

/-- The strict order of the list: score ascending, ties broken by key. -/
def Before [Valuer V] (a b : V) : Prop :=
  Valuer.Score a < Valuer.Score b ∨
    (Valuer.Score a = Valuer.Score b ∧ Valuer.Key a < Valuer.Key b)

/-- The lexicographic order `(a.Score, a.Key) <= (b.Score, b.Key)`. -/
def LexLE [Valuer V] (a b : V) : Prop :=
  Valuer.Score a < Valuer.Score b ∨
    (Valuer.Score a = Valuer.Score b ∧ Valuer.Key a ≤ Valuer.Key b)

/-- The shape of the linked structure: the list `l` holds the nodes at the
addresses `ps`, in this order.  The fields `index` and `length` play no part. -/
structure Shape [Valuer V] (l : SkipList V) (ps : List Nat) : Prop where
  /-- The comparator is the one of the tests. -/
  cmp_eq : l.cmp = cmp V
  /-- The head sentinel has a full tower. -/
  head_height : l.heap.height l.head = maxLevel
  /-- The current level is at least 1. -/
  level_pos : 1 ≤ l.level
  /-- The current level is at most `maxLevel`. -/
  level_le : l.level ≤ maxLevel
  /-- Every node has a tower entry at level 0. -/
  height_pos : ∀ p ∈ ps, 1 ≤ l.heap.height p
  /-- No tower is higher than the current level. -/
  height_le : ∀ p ∈ ps, l.heap.height p ≤ l.level
  /-- The current level is 1 or is the height of some node. -/
  tight : l.level = 1 ∨ ∃ p ∈ ps, l.heap.height p = l.level
  /-- The addresses are distinct, and none is the head. -/
  nodup : (l.head :: ps).Nodup
  /-- The addresses are allocated. -/
  lt_alloc : ∀ p ∈ l.head :: ps, p < l.alloc
  /-- There are fewer nodes than allocated addresses. -/
  length_lt : ps.length < l.alloc
  /-- Every level in use is linked. -/
  links : ∀ i, i < l.level → Links l.heap i (l.head :: ps)
  /-- The head points to `nil` at the levels not in use. -/
  head_nil : ∀ i, l.level ≤ i → i < maxLevel → l.heap.Next l.head i = some none
  /-- The values are strictly ascending. -/
  sorted : (ps.map l.heap.val).Pairwise Before
  /-- The keys are distinct. -/
  keys_nodup : (ps.map fun p => Valuer.Key (l.heap.val p)).Nodup
  /-- The backward pointers follow the sequence. -/
  back : Back l.heap none ps
  /-- The tail is the last node. -/
  tail_eq : l.tail = ps.getLast?

/-- The order of two addresses of the sequence that starts with the head: the
second is not the head, and the first is the head or holds a value strictly
before the value of the second. -/
def Ordered [Valuer V] (h : Heap V) (head p q : Nat) : Prop :=
  q ≠ head ∧ (p = head ∨ Before (h.val p) (h.val q))

/-- The representation invariant: the shape of the linked structure, the index
and the length. -/
structure Inv [Valuer V] (l : SkipList V) (ps : List Nat) extends Shape l ps : Prop where
  /-- The index maps exactly the keys of the stored values, each to its value. -/
  index_iff : ∀ k v, l.index k = some v ↔ ∃ p ∈ ps, l.heap.val p = v ∧ Valuer.Key v = k
  /-- The length field counts the nodes, as a `uint32`. -/
  length_mod : l.length % (M32 : Int) = (ps.length : Int) % (M32 : Int)

/-- The heaps `h` and `h1` hold the same nodes: the same values, backward
pointers and tower heights (the tower entries may differ). -/
def SameNodes (h h1 : Heap V) : Prop :=
  ∀ p, h1.height p = h.height p ∧ h1.val p = h.val p ∧ (h1 p).backward = (h p).backward

/-- What a search leaves in `update[i]` and `rank[i]`, for a search that ended
on the last node of `af` (the head followed by the nodes passed): `update[i]`
is the last node of `af` whose tower reaches level `i` and `rank[i]` is its
position, as a `uint32`. -/
def UpdOK (ht : Nat → Nat) (af : List Nat) (update : Nat → Option Nat) (rank : Nat → Nat)
    (i : Nat) : Prop :=
  ∃ pi u ri, af = pi ++ u :: ri ∧ update i = some u ∧ i < ht u ∧
    (∀ q ∈ ri, ht q ≤ i) ∧ rank i = pi.length % M32

/-- The node that stops a search, if any: the list after the region searched is
empty, or starts with a node whose tower reaches every level below `n` and on
which the loop condition fails at its position `pos`. -/
def Barrier (ht : Nat → Nat) (val : Nat → V) (cond : Nat → V → Bool) (n pos : Nat)
    (r : List Nat) : Prop :=
  r = [] ∨ ∃ q t, r = q :: t ∧ n ≤ ht q ∧ cond (pos % M32) (val q) = false

/-- The lists that `NewSkipList`, `Insert` and `Delete` can produce, with the
comparator of the tests. -/
inductive SkipList.Reachable [Valuer V] [Inhabited V] : SkipList V → Prop
  | new : SkipList.Reachable (NewSkipList (skiplist.cmp V))
  | insert {l : SkipList V} {value : V} {rand : Nat → Nat} {r : Except Error Nat × SkipList V} :
      SkipList.Reachable l → l.Insert value rand = some r → SkipList.Reachable r.2
  | delete {l : SkipList V} {key : Nat} {r : Int × SkipList V} :
      SkipList.Reachable l → l.Delete key = some r → SkipList.Reachable r.2

/-- The sets that `NewSet` and the mutators of `Set` can produce, with the
comparator of the tests. -/
inductive Set.Reachable [ReValuer V] [Inhabited V] : Set V → Prop
  | new : Set.Reachable (NewSet (skiplist.cmp V))
  | insert {l : Set V} {value : V} {rand : Nat → Nat} {r : Set V} :
      Set.Reachable l → Set.Insert l value rand = some r → Set.Reachable r
  | delete {l : Set V} {value : V} {r : Int × Set V} :
      Set.Reachable l → Set.Delete l value = some r → Set.Reachable r.2
  | deleteElement {l : Set V} {key : Nat} {r : Set V} :
      Set.Reachable l → Set.DeleteElement l key = some r → Set.Reachable r
  | deleteRangeByRank {l : Set V} {start stop : Nat} {r : Nat × Set V} :
      Set.Reachable l → Set.DeleteRangeByRank l start stop = some r → Set.Reachable r.2
  | deleteRangeByScore {l : Set V} {rg : RangeSpec} {r : Nat × Set V} :
      Set.Reachable l → Set.DeleteRangeByScore l rg = some r → Set.Reachable r.2

/-- The list after the call `l.Insert(value)` (the list itself if the call
panics). -/
def SkipList.afterInsert [Valuer V] (l : SkipList V) (value : V) (rand : Nat → Nat) :
    SkipList V :=
  match l.Insert value rand with
  | some r => r.2
  | none => l

/-- The set after the call `l.Insert(value)` (the set itself if the call
panics). -/
def Set.afterInsert [ReValuer V] (l : Set V) (value : V) (rand : Nat → Nat) : Set V :=
  match Set.Insert l value rand with
  | some r => r
  | none => l

/-- A stream of draws on which `randomLevel` returns `n` (for `n` from 1 to
`maxLevel`): `n - 1` draws that pass the test, then draws that fail it. -/
def drawsFor (n : Nat) : Nat → Nat := fun k => if k + 1 < n then 0 else 65535

/-- The list of `skiplist_test.go` filled with the four elements (key, score) of
`set_test.go`: (1, 10), (2, 10), (3, 8), (4, 11), with towers of heights 2, 1, 3
and 1. -/
def sampleList : SkipList value :=
  (((NewSkipList (cmp value)).afterInsert ⟨1, 10⟩ (drawsFor 2)).afterInsert ⟨2, 10⟩
    (drawsFor 1)).afterInsert ⟨3, 8⟩ (drawsFor 3) |>.afterInsert ⟨4, 11⟩ (drawsFor 1)

/-- The set of `set_test.go` after its four insertions, with towers of heights
2, 1, 3 and 1. -/
def sampleSet : Set value :=
  Set.afterInsert (Set.afterInsert (Set.afterInsert (Set.afterInsert (NewSet (cmp value))
    ⟨1, 10⟩ (drawsFor 2)) ⟨2, 10⟩ (drawsFor 1)) ⟨3, 8⟩ (drawsFor 3)) ⟨4, 11⟩ (drawsFor 1)

/-- A reachable list of two elements (key, score), (1, 10) and (2, 15), with
towers of height 1. -/
def rankList : SkipList value :=
  ((NewSkipList (cmp value)).afterInsert ⟨1, 10⟩ (drawsFor 1)).afterInsert ⟨2, 15⟩ (drawsFor 1)

/-! # Verification -/

/-! ## Arithmetic of `uint32` and heap updates -/

theorem add32_mod (a b : Nat) : add32 (a % M32) (b % M32) = (a + b) % M32 := by
  unfold add32 M32; omega

theorem add32_mod_left (a b : Nat) : add32 (a % M32) b = (a + b) % M32 := by
  unfold add32 M32; omega

theorem add32_mod_right (a b : Nat) : add32 a (b % M32) = (a + b) % M32 := by
  unfold add32 M32; omega

theorem sub32_mod (a b : Nat) (h : b ≤ a) : sub32 (a % M32) (b % M32) = (a - b) % M32 := by
  unfold sub32 M32; omega

theorem sub32_one (a : Nat) (h : 1 ≤ a) : sub32 (a % M32) 1 = (a - 1) % M32 := by
  unfold sub32 M32; omega

theorem lvl_lt {n : Node V} {i : Nat} {lv : Level} (h : n.lvl i = some lv) :
    i < n.level.length := by
  unfold Node.lvl at h
  exact (List.getElem?_eq_some.1 h).1

theorem lvl_some_of_lt {n : Node V} {i : Nat} (h : i < n.level.length) : ∃ lv, n.lvl i = some lv :=
  ⟨n.level[i], by unfold Node.lvl; exact List.getElem?_eq_getElem h⟩

@[simp] theorem setEntry_value (h : Heap V) (x i : Nat) (e : Level) (p : Nat) :
    ((h.setEntry x i e) p).value = (h p).value := by
  unfold Heap.setEntry
  by_cases hp : p = x
  · subst hp; simp
  · simp [Function.update_noteq hp]

@[simp] theorem setEntry_val (h : Heap V) (x i : Nat) (e : Level) (p : Nat) :
    (h.setEntry x i e).val p = h.val p := setEntry_value h x i e p

@[simp] theorem setEntry_backward (h : Heap V) (x i : Nat) (e : Level) (p : Nat) :
    ((h.setEntry x i e) p).backward = (h p).backward := by
  unfold Heap.setEntry
  by_cases hp : p = x
  · subst hp; simp
  · simp [Function.update_noteq hp]

@[simp] theorem setEntry_height (h : Heap V) (x i : Nat) (e : Level) (p : Nat) :
    (h.setEntry x i e).height p = h.height p := by
  unfold Heap.setEntry Heap.height
  by_cases hp : p = x
  · subst hp; simp
  · simp [Function.update_noteq hp]

@[simp] theorem setEntry_height_fun (h : Heap V) (x i : Nat) (e : Level) :
    (h.setEntry x i e).height = h.height := funext (setEntry_height h x i e)

theorem setEntry_lvl (h : Heap V) (x i : Nat) (e : Level) (p j : Nat) (hi : i < h.height x) :
    ((h.setEntry x i e) p).lvl j = if p = x ∧ j = i then some e else (h p).lvl j := by
  unfold Heap.setEntry Node.lvl
  by_cases hp : p = x
  · subst hp
    by_cases hj : j = i
    · subst hj
      simp only [Heap.height] at hi
      simp [List.getElem?_set_self, hi]
    · simp [hj, List.getElem?_set_ne (Ne.symm hj)]
  · simp [Function.update_noteq hp, hp]

theorem setEntry_lvl_self (h : Heap V) (x i : Nat) (e : Level) (hi : i < h.height x) :
    ((h.setEntry x i e) x).lvl i = some e := by
  rw [setEntry_lvl h x i e x i hi]; simp

theorem setEntry_lvl_ne_level (h : Heap V) (x i : Nat) (e : Level) (p j : Nat) (hj : j ≠ i) :
    ((h.setEntry x i e) p).lvl j = (h p).lvl j := by
  unfold Heap.setEntry Node.lvl
  by_cases hp : p = x
  · subst hp
    simp [List.getElem?_set_ne (Ne.symm hj)]
  · simp [Function.update_noteq hp]

theorem setEntry_lvl_ne_node (h : Heap V) (x i : Nat) (e : Level) (p j : Nat) (hp : p ≠ x) :
    ((h.setEntry x i e) p).lvl j = (h p).lvl j := by
  unfold Heap.setEntry Node.lvl
  simp [Function.update_noteq hp]

theorem Heap.Next_eq {h : Heap V} {x i : Nat} {lv : Level} (hl : (h x).lvl i = some lv) :
    h.Next x i = some lv.forward := by
  simp [Heap.Next, Node.Next, hl]

theorem Heap.Span_eq {h : Heap V} {x i : Nat} {lv : Level} (hl : (h x).lvl i = some lv) :
    h.Span x i = some lv.span := by
  simp [Heap.Span, Node.Span, hl]

theorem Heap.SetNext_eq {h : Heap V} {x i : Nat} {lv : Level} (hl : (h x).lvl i = some lv)
    (nx : Option Nat) : h.SetNext x i nx = some (h.setEntry x i ⟨nx, lv.span⟩) := by
  simp [Heap.SetNext, Node.SetNext, hl, Heap.setEntry]

theorem Heap.SetSpan_eq {h : Heap V} {x i : Nat} {lv : Level} (hl : (h x).lvl i = some lv)
    (sp : Nat) : h.SetSpan x i sp = some (h.setEntry x i ⟨lv.forward, sp⟩) := by
  simp [Heap.SetSpan, Node.SetSpan, hl, Heap.setEntry]

@[simp] theorem setBackward_height (h : Heap V) (x : Nat) (b : Option Nat) (p : Nat) :
    (h.setBackward x b).height p = h.height p := by
  unfold Heap.setBackward Heap.height
  by_cases hp : p = x
  · subst hp; simp
  · simp [Function.update_noteq hp]

@[simp] theorem setBackward_height_fun (h : Heap V) (x : Nat) (b : Option Nat) :
    (h.setBackward x b).height = h.height := funext (setBackward_height h x b)

@[simp] theorem setBackward_val (h : Heap V) (x : Nat) (b : Option Nat) (p : Nat) :
    (h.setBackward x b).val p = h.val p := by
  unfold Heap.setBackward Heap.val
  by_cases hp : p = x
  · subst hp; simp
  · simp [Function.update_noteq hp]

@[simp] theorem setBackward_lvl (h : Heap V) (x : Nat) (b : Option Nat) (p j : Nat) :
    ((h.setBackward x b) p).lvl j = (h p).lvl j := by
  unfold Heap.setBackward Node.lvl
  by_cases hp : p = x
  · subst hp; simp
  · simp [Function.update_noteq hp]

theorem setBackward_backward (h : Heap V) (x : Nat) (b : Option Nat) (p : Nat) :
    ((h.setBackward x b) p).backward = if p = x then b else (h p).backward := by
  unfold Heap.setBackward
  by_cases hp : p = x
  · subst hp; simp
  · simp [Function.update_noteq hp, hp]

/-! ## The links of one level -/

theorem nextAt_append_low {ht : Nat → Nat} {i : Nat} {a : List Nat} (b : List Nat)
    (ha : ∀ q ∈ a, ht q ≤ i) : nextAt ht i (a ++ b) = nextAt ht i b := by
  induction a with
  | nil => rfl
  | cons q t ih =>
    have hq : ¬ i < ht q := Nat.not_lt.2 (ha q (List.mem_cons_self _ _))
    simp only [List.cons_append, nextAt, hq, if_false, List.append_eq]
    exact ih fun p hp => ha p (List.mem_cons_of_mem _ hp)

theorem gap_append_low {ht : Nat → Nat} {i : Nat} {a : List Nat} (b : List Nat)
    (ha : ∀ q ∈ a, ht q ≤ i) : gap ht i (a ++ b) = a.length + gap ht i b := by
  induction a with
  | nil => simp
  | cons q t ih =>
    have hq : ¬ i < ht q := Nat.not_lt.2 (ha q (List.mem_cons_self _ _))
    simp only [List.cons_append, gap, hq, if_false, List.length_cons, List.append_eq]
    rw [ih fun p hp => ha p (List.mem_cons_of_mem _ hp)]
    omega

theorem nextAt_low {ht : Nat → Nat} {i : Nat} {a : List Nat}
    (ha : ∀ q ∈ a, ht q ≤ i) : nextAt ht i a = none := by
  have := @nextAt_append_low ht i a [] ha
  simpa [nextAt] using this

theorem gap_low {ht : Nat → Nat} {i : Nat} {a : List Nat}
    (ha : ∀ q ∈ a, ht q ≤ i) : gap ht i a = a.length := by
  have := @gap_append_low ht i a [] ha
  simpa [gap] using this

theorem nextAt_append_high {ht : Nat → Nat} {i : Nat} {a : List Nat} {q : Nat} (b : List Nat)
    (ha : ∀ p ∈ a, ht p ≤ i) (hq : i < ht q) : nextAt ht i (a ++ q :: b) = some q := by
  rw [nextAt_append_low _ ha]; simp [nextAt, hq]

theorem gap_append_high {ht : Nat → Nat} {i : Nat} {a : List Nat} {q : Nat} (b : List Nat)
    (ha : ∀ p ∈ a, ht p ≤ i) (hq : i < ht q) : gap ht i (a ++ q :: b) = a.length + 1 := by
  rw [gap_append_low _ ha]; simp [gap, hq]

theorem nextAt_append_indep {ht : Nat → Nat} {i : Nat} (t : List Nat) {q : Nat} (r r1 : List Nat)
    (hq : i < ht q) : nextAt ht i (t ++ q :: r) = nextAt ht i (t ++ q :: r1) := by
  induction t with
  | nil => simp [nextAt, hq]
  | cons p t ih => simp only [List.cons_append, nextAt, List.append_eq, ih]

theorem gap_append_indep {ht : Nat → Nat} {i : Nat} (t : List Nat) {q : Nat} (r r1 : List Nat)
    (hq : i < ht q) : gap ht i (t ++ q :: r) = gap ht i (t ++ q :: r1) := by
  induction t with
  | nil => simp [gap, hq]
  | cons p t ih => simp only [List.cons_append, gap, List.append_eq, ih]

theorem low_split (ht : Nat → Nat) (i : Nat) (r : List Nat) :
    (∀ q ∈ r, ht q ≤ i) ∨
      ∃ a q b, r = a ++ q :: b ∧ (∀ p ∈ a, ht p ≤ i) ∧ i < ht q := by
  induction r with
  | nil => left; simp
  | cons p t ih =>
    by_cases hp : i < ht p
    · right; exact ⟨[], p, t, rfl, by simp, hp⟩
    · rcases ih with h | ⟨a, q, b, rfl, ha, hq⟩
      · left
        intro q hq
        rcases List.mem_cons.1 hq with rfl | hq
        · omega
        · exact h q hq
      · right
        refine ⟨p :: a, q, b, rfl, ?_, hq⟩
        intro x hx
        rcases List.mem_cons.1 hx with rfl | hx
        · omega
        · exact ha x hx

theorem nextAt_some {ht : Nat → Nat} {i : Nat} {r : List Nat} {q : Nat}
    (h : nextAt ht i r = some q) :
    ∃ a b, r = a ++ q :: b ∧ (∀ p ∈ a, ht p ≤ i) ∧ i < ht q := by
  rcases low_split ht i r with hl | ⟨a, q1, b, rfl, ha, hq⟩
  · rw [nextAt_low hl] at h; cases h
  · rw [nextAt_append_high _ ha hq] at h
    cases h
    exact ⟨a, b, rfl, ha, hq⟩

theorem nextAt_none {ht : Nat → Nat} {i : Nat} {r : List Nat}
    (h : nextAt ht i r = none) : ∀ q ∈ r, ht q ≤ i := by
  rcases low_split ht i r with hl | ⟨a, q1, b, rfl, ha, hq⟩
  · exact hl
  · rw [nextAt_append_high _ ha hq] at h; cases h

theorem nextAt_congr {ht ht1 : Nat → Nat} {i : Nat} {r : List Nat}
    (h : ∀ q ∈ r, ht1 q = ht q) : nextAt ht1 i r = nextAt ht i r := by
  induction r with
  | nil => rfl
  | cons p t ih =>
    simp only [nextAt, h p (List.mem_cons_self _ _),
      ih fun q hq => h q (List.mem_cons_of_mem _ hq)]

theorem gap_congr {ht ht1 : Nat → Nat} {i : Nat} {r : List Nat}
    (h : ∀ q ∈ r, ht1 q = ht q) : gap ht1 i r = gap ht i r := by
  induction r with
  | nil => rfl
  | cons p t ih =>
    simp only [gap, h p (List.mem_cons_self _ _),
      ih fun q hq => h q (List.mem_cons_of_mem _ hq)]

theorem Links_suffix {h : Heap V} {i : Nat} (a : List Nat) {b : List Nat}
    (hl : Links h i (a ++ b)) : Links h i b := by
  induction a with
  | nil => exact hl
  | cons p t ih => exact ih hl.2

theorem Links_congr {h h1 : Heap V} {i : Nat} {L : List Nat}
    (hf : ∀ p ∈ L, h1.height p = h.height p ∧ (h1 p).lvl i = (h p).lvl i)
    (hl : Links h i L) : Links h1 i L := by
  induction L with
  | nil => trivial
  | cons p t ih =>
    have ht : ∀ q ∈ t, h1.height q = h.height q := fun q hq => (hf q (List.mem_cons_of_mem _ hq)).1
    refine ⟨?_, ih (fun q hq => hf q (List.mem_cons_of_mem _ hq)) hl.2⟩
    intro hp
    rw [(hf p (List.mem_cons_self _ _)).2, nextAt_congr ht, gap_congr ht]
    exact hl.1 (by rw [← (hf p (List.mem_cons_self _ _)).1]; exact hp)

theorem Links_low_append {h : Heap V} {i : Nat} {a b : List Nat}
    (ha : ∀ p ∈ a, h.height p ≤ i) (hb : Links h i b) : Links h i (a ++ b) := by
  induction a with
  | nil => exact hb
  | cons p t ih =>
    refine ⟨fun hp => ?_, ih fun q hq => ha q (List.mem_cons_of_mem _ hq)⟩
    have := ha p (List.mem_cons_self _ _)
    omega

theorem Links_prefix_change {h h1 : Heap V} {i : Nat} {pre : List Nat} {q : Nat} {r r1 : List Nat}
    (hl : Links h i (pre ++ q :: r)) (hq : i < h.height q) (hq1 : h1.height q = h.height q)
    (hf : ∀ p ∈ pre, h1.height p = h.height p ∧ (h1 p).lvl i = (h p).lvl i)
    (hr : Links h1 i (q :: r1)) : Links h1 i (pre ++ q :: r1) := by
  induction pre with
  | nil => exact hr
  | cons p t ih =>
    have ht : ∀ x ∈ t, h1.height x = h.height x := fun x hx => (hf x (List.mem_cons_of_mem _ hx)).1
    refine ⟨?_, ih hl.2 fun x hx => hf x (List.mem_cons_of_mem _ hx)⟩
    intro hp
    have hp0 : i < h.height p := by rw [← (hf p (List.mem_cons_self _ _)).1]; exact hp
    have e := hl.1 hp0
    simp only [List.append_eq] at e
    rw [(hf p (List.mem_cons_self _ _)).2, e]
    have hq' : i < h1.height q := by rw [hq1]; exact hq
    have hc : ∀ x ∈ t ++ [q], h1.height x = h.height x := by
      intro x hx
      rcases List.mem_append.1 hx with hx | hx
      · exact ht x hx
      · rw [List.mem_singleton.1 hx]; exact hq1
    show _ = some ⟨nextAt h1.height i (t ++ q :: r1), gap h1.height i (t ++ q :: r1) % M32⟩
    rw [nextAt_append_indep t r1 [] hq', gap_append_indep t r1 [] hq',
      nextAt_append_indep t r [] hq, gap_append_indep t r [] hq,
      nextAt_congr hc, gap_congr hc]

/-! ## The search -/

theorem advance_nil {h : Heap V} {cond : Nat → V → Bool} {i x sp : Nat}
    (hl : (h x).lvl i = some ⟨none, sp⟩) (fuel acc : Nat) :
    advance h cond i (fuel + 1) x acc = some (x, acc) := by
  simp [advance, hl]

theorem advance_stop {h : Heap V} {cond : Nat → V → Bool} {i x sp nx : Nat}
    (hl : (h x).lvl i = some ⟨some nx, sp⟩) (fuel : Nat) {acc : Nat}
    (hc : cond (add32 acc sp) (h.val nx) = false) :
    advance h cond i (fuel + 1) x acc = some (x, acc) := by
  simp only [Heap.val] at hc
  simp [advance, hl, hc]

theorem advance_go {h : Heap V} {cond : Nat → V → Bool} {i x sp nx : Nat}
    (hl : (h x).lvl i = some ⟨some nx, sp⟩) (fuel : Nat) {acc : Nat}
    (hc : cond (add32 acc sp) (h.val nx) = true) :
    advance h cond i (fuel + 1) x acc = advance h cond i fuel nx (add32 acc sp) := by
  simp only [Heap.val] at hc
  simp [advance, hl, hc]

theorem advance_spec {h : Heap V} {cond : Nat → V → Bool} {i : Nat} {L : List Nat}
    (hl : Links h i L) :
    ∀ (fuel : Nat) (pre : List Nat) (cur : Nat) (r1 r2 : List Nat),
      L = pre ++ cur :: (r1 ++ r2) → i < h.height cur → r1.length < fuel →
      Barrier h.height h.val cond (i + 1) (pre.length + 1 + r1.length) r2 →
      ∃ pre1 cur1 r11 r21, L = pre1 ++ cur1 :: (r11 ++ r21) ∧ i < h.height cur1 ∧
        (∀ q ∈ r11, h.height q ≤ i) ∧
        Barrier h.height h.val cond (i + 1) (pre1.length + 1 + r11.length) r21 ∧
        advance h cond i fuel cur (pre.length % M32) = some (cur1, pre1.length % M32) ∧
        pre.length ≤ pre1.length ∧ pre1.length + r11.length ≤ pre.length + r1.length ∧
        ((pre1 = pre ∧ cur1 = cur) ∨ cond (pre1.length % M32) (h.val cur1) = true) := by
  intro fuel
  induction fuel with
  | zero => intro pre cur r1 r2 _ _ hf; omega
  | succ fuel ih =>
    intro pre cur r1 r2 hL hc hf hb
    have hcur : (h cur).lvl i =
        some ⟨nextAt h.height i (r1 ++ r2), gap h.height i (r1 ++ r2) % M32⟩ := by
      have := Links_suffix pre (hL ▸ hl)
      exact this.1 hc
    rcases low_split h.height i r1 with hlow | ⟨a, q, b, rfl, ha, hq⟩
    · -- no node of level `i` before the barrier
      rcases hb with rfl | ⟨q, t, rfl, hqh, hqc⟩
      · refine ⟨pre, cur, r1, [], hL, hc, hlow, Or.inl rfl, ?_, le_refl _, le_refl _,
          Or.inl ⟨rfl, rfl⟩⟩
        have hn : nextAt h.height i (r1 ++ []) = none := by
          rw [nextAt_append_low _ hlow]; rfl
        rw [hn] at hcur
        exact advance_nil hcur _ _
      · refine ⟨pre, cur, r1, q :: t, hL, hc, hlow, Or.inr ⟨q, t, rfl, hqh, hqc⟩, ?_,
          le_refl _, le_refl _, Or.inl ⟨rfl, rfl⟩⟩
        have hn : nextAt h.height i (r1 ++ q :: t) = some q :=
          nextAt_append_high _ hlow (by omega)
        have hg : gap h.height i (r1 ++ q :: t) = r1.length + 1 :=
          gap_append_high _ hlow (by omega)
        have hacc : add32 (pre.length % M32) ((r1.length + 1) % M32) =
            (pre.length + 1 + r1.length) % M32 := by
          rw [add32_mod]; congr 1; omega
        rw [hn, hg] at hcur
        exact advance_stop hcur _ (by rw [hacc]; exact hqc)
    · -- the next node of level `i` is `q`
      rw [List.append_assoc] at hL
      have hn : nextAt h.height i ((a ++ q :: b) ++ r2) = some q := by
        rw [List.append_assoc]; exact nextAt_append_high _ ha hq
      have hg : gap h.height i ((a ++ q :: b) ++ r2) = a.length + 1 := by
        rw [List.append_assoc]; exact gap_append_high _ ha hq
      rw [hn, hg] at hcur
      have hacc : add32 (pre.length % M32) ((a.length + 1) % M32) =
          (pre ++ cur :: a).length % M32 := by
        rw [add32_mod]; congr 1; simp
      by_cases hcq : cond ((pre ++ cur :: a).length % M32) (h.val q) = true
      · have hL1 : L = (pre ++ cur :: a) ++ q :: (b ++ r2) := by
          rw [hL]; simp
        have hf1 : b.length < fuel := by simp at hf; omega
        have hb1 : Barrier h.height h.val cond (i + 1) ((pre ++ cur :: a).length + 1 + b.length) r2 := by
          have e : (pre ++ cur :: a).length + 1 + b.length = pre.length + 1 + (a ++ q :: b).length := by
            simp; omega
          rw [e]; exact hb
        obtain ⟨pre1, cur1, r11, r21, e1, e2, e3, e4, e5, e6, e7, e8⟩ :=
          ih (pre ++ cur :: a) q b r2 hL1 hq hf1 hb1
        refine ⟨pre1, cur1, r11, r21, e1, e2, e3, e4, ?_, ?_, ?_, ?_⟩
        · rw [advance_go hcur _ (by rw [hacc]; exact hcq), hacc]
          exact e5
        · simp at e6; omega
        · simp at e6 e7 ⊢; omega
        · rcases e8 with ⟨rfl, rfl⟩ | e8
          · exact Or.inr hcq
          · exact Or.inr e8
      · have hcq0 : cond ((pre ++ cur :: a).length % M32) (h.val q) = false := by
          simpa using hcq
        refine ⟨pre, cur, a, q :: (b ++ r2), ?_, hc, ha, Or.inr ⟨q, b ++ r2, rfl, by omega, ?_⟩,
          ?_, le_refl _, ?_, Or.inl ⟨rfl, rfl⟩⟩
        · rw [hL]; simp
        · have e : (pre ++ cur :: a).length = pre.length + 1 + a.length := by simp; omega
          rw [← e]; exact hcq0
        · exact advance_stop hcur _ (by rw [hacc]; exact hcq0)
        · simp

theorem append_eq_split {a b c d : List Nat} (h : a ++ b = c ++ d) (hl : c.length ≤ a.length) :
    ∃ e, a = c ++ e ∧ d = e ++ b := by
  rcases List.append_eq_append_iff.1 h with ⟨a1, rfl, rfl⟩ | ⟨c1, rfl, rfl⟩
  · have : a1 = [] := by
      simpa using hl
    subst this
    exact ⟨[], by simp, by simp⟩
  · exact ⟨c1, rfl, rfl⟩

theorem split_mid {pre1 pf r11 r21 B : List Nat} {cur1 x : Nat}
    (h : pre1 ++ cur1 :: (r11 ++ r21) = pf ++ x :: B) (h1 : pre1.length ≤ pf.length)
    (h2 : pf.length ≤ pre1.length + r11.length) :
    ∃ ri, pf ++ [x] = pre1 ++ cur1 :: ri ∧ ∀ q ∈ ri, q ∈ r11 := by
  obtain ⟨e, he, he2⟩ := append_eq_split h.symm h1
  subst he
  cases e with
  | nil =>
    simp at he2
    exact ⟨[], by simp [he2.1], by simp⟩
  | cons c e =>
    simp at he2
    obtain ⟨rfl, he2⟩ := he2
    have hl : (e ++ [x]).length ≤ r11.length := by simp at h2 ⊢; omega
    have he3 : r11 ++ r21 = (e ++ [x]) ++ B := by simp [he2]
    obtain ⟨f, hf, _⟩ := append_eq_split he3 hl
    refine ⟨e ++ [x], by simp, ?_⟩
    intro q hq
    rw [hf]; exact List.mem_append_left _ hq

theorem Barrier_mono {ht : Nat → Nat} {val : Nat → V} {cond : Nat → V → Bool} {n m pos : Nat}
    {r : List Nat} (hb : Barrier ht val cond n pos r) (hm : m ≤ n) :
    Barrier ht val cond m pos r := by
  rcases hb with h | ⟨q, t, h1, h2, h3⟩
  · exact Or.inl h
  · exact Or.inr ⟨q, t, h1, by omega, h3⟩

theorem search_spec {h : Heap V} {cond : Nat → V → Bool} {L : List Nat} (fuel : Nat)
    (hpos : ∀ q ∈ L, 1 ≤ h.height q) :
    ∀ (n : Nat) (pre : List Nat) (cur : Nat) (r1 r2 : List Nat)
      (update : Nat → Option Nat) (rank : Nat → Nat),
      (∀ i, i < n → Links h i L) →
      L = pre ++ cur :: (r1 ++ r2) → n ≤ h.height cur → r1.length < fuel →
      (∀ q ∈ r1, h.height q ≤ n) →
      Barrier h.height h.val cond n (pre.length + 1 + r1.length) r2 →
      ∃ pf x B upd rk, L = pf ++ x :: B ∧
        search h cond fuel n cur (pre.length % M32) update rank = some (x, upd, rk) ∧
        (∀ i, i < n → UpdOK h.height (pf ++ [x]) upd rk i) ∧
        (∀ j, n ≤ j → upd j = update j ∧ rk j = rank j) ∧
        Barrier h.height h.val cond 0 (pf.length + 1) B ∧
        pre.length ≤ pf.length ∧ pf.length ≤ pre.length + r1.length ∧
        ((pf = pre ∧ x = cur) ∨ cond (pf.length % M32) (h.val x) = true) := by
  intro n
  induction n with
  | zero =>
    intro pre cur r1 r2 update rank _ hL _ _ hlow hb
    have hr1 : r1 = [] := by
      cases r1 with
      | nil => rfl
      | cons q t =>
        have h1 := hlow q (List.mem_cons_self _ _)
        have h2 := hpos q (by rw [hL]; simp)
        omega
    subst hr1
    refine ⟨pre, cur, r2, update, rank, by simpa using hL, rfl, ?_, ?_, ?_, le_refl _, by simp,
      Or.inl ⟨rfl, rfl⟩⟩
    · intro i hi; omega
    · intro j _; exact ⟨rfl, rfl⟩
    · simpa using hb
  | succ n ih =>
    intro pre cur r1 r2 update rank hl hL hc hf hlow hb
    obtain ⟨pre1, cur1, r11, r21, e1, e2, e3, e4, e5, e6, e7, e8⟩ :=
      advance_spec (hl n (Nat.lt_succ_self n)) fuel pre cur r1 r2 hL (by omega) hf hb
    obtain ⟨pf, x, B, upd, rk, f1, f2, f3, f4, f5, f6, f7, f8⟩ :=
      ih pre1 cur1 r11 r21 (Function.update update n (some cur1))
        (Function.update rank n (pre1.length % M32))
        (fun i hi => hl i (by omega)) e1 (by omega) (by omega) e3 (Barrier_mono e4 (by omega))
    refine ⟨pf, x, B, upd, rk, f1, ?_, ?_, ?_, f5, by omega, by omega, ?_⟩
    · simp only [search, e5]
      exact f2
    · intro i hi
      rcases Nat.lt_succ_iff_lt_or_eq.1 hi with hi | rfl
      · exact f3 i hi
      · obtain ⟨ri, hri, hri2⟩ := split_mid (e1.symm.trans f1) f6 f7
        refine ⟨pre1, cur1, ri, hri, ?_, e2, fun q hq => e3 q (hri2 q hq), ?_⟩
        · rw [(f4 i (le_refl _)).1]; simp
        · rw [(f4 i (le_refl _)).2]; simp
    · intro j hj
      have := f4 j (by omega)
      rw [this.1, this.2]
      have hne : j ≠ n := by omega
      simp [Function.update_noteq hne]
    · rcases f8 with ⟨rfl, rfl⟩ | f8
      · rcases e8 with ⟨rfl, rfl⟩ | e8
        · exact Or.inl ⟨rfl, rfl⟩
        · exact Or.inr e8
      · exact Or.inr f8

/-! ## The loops that rewrite the towers -/

theorem SameNodes.refl (h : Heap V) : SameNodes h h := fun _ => ⟨rfl, rfl, rfl⟩

theorem SameNodes_trans {h h1 h2 : Heap V} (a : SameNodes h h1) (b : SameNodes h1 h2) :
    SameNodes h h2 := fun p =>
  ⟨(b p).1.trans (a p).1, (b p).2.1.trans (a p).2.1, (b p).2.2.trans (a p).2.2⟩

theorem SameNodes_setEntry (h : Heap V) (x i : Nat) (e : Level) :
    SameNodes h (h.setEntry x i e) := fun p =>
  ⟨setEntry_height h x i e p, setEntry_val h x i e p, setEntry_backward h x i e p⟩

theorem SameNodes.height_eq {h h1 : Heap V} (a : SameNodes h h1) : h1.height = h.height :=
  funext fun p => (a p).1

theorem lvl_of_height {h : Heap V} {p i : Nat} (hi : i < h.height p) :
    ∃ lv, (h p).lvl i = some lv := lvl_some_of_lt hi

theorem height_of_lvl {h : Heap V} {p i : Nat} {lv : Level} (hl : (h p).lvl i = some lv) :
    i < h.height p := lvl_lt hl

theorem growLoop_spec (head len32 : Nat) :
    ∀ (k i : Nat) (h : Heap V) (update : Nat → Option Nat) (rank : Nat → Nat),
      i + k ≤ h.height head →
      ∃ h1 upd rk, growLoop head len32 k i h update rank = some (h1, upd, rk) ∧ SameNodes h h1 ∧
        (∀ p j, (p ≠ head ∨ j < i ∨ i + k ≤ j) → (h1 p).lvl j = (h p).lvl j) ∧
        (∀ j lv, i ≤ j → j < i + k → (h head).lvl j = some lv →
          (h1 head).lvl j = some ⟨lv.forward, len32⟩) ∧
        (∀ j, i ≤ j → j < i + k → upd j = some head ∧ rk j = 0) ∧
        (∀ j, (j < i ∨ i + k ≤ j) → upd j = update j ∧ rk j = rank j) := by
  intro k
  induction k with
  | zero =>
    intro i h update rank _
    refine ⟨h, update, rank, rfl, SameNodes.refl h, fun _ _ _ => rfl, ?_, ?_, fun _ _ => ⟨rfl, rfl⟩⟩
    · intro j lv h1 h2; omega
    · intro j h1 h2; omega
  | succ k ih =>
    intro i h update rank hk
    obtain ⟨lv, hlv⟩ := lvl_of_height (h := h) (p := head) (i := i) (by omega)
    have hi : i < h.height head := by omega
    obtain ⟨h1, upd, rk, e1, e2, e3, e4, e5, e6⟩ :=
      ih (i + 1) (h.setEntry head i ⟨lv.forward, len32⟩) (Function.update update i (some head))
        (Function.update rank i 0) (by rw [setEntry_height]; omega)
    refine ⟨h1, upd, rk, ?_, SameNodes_trans (SameNodes_setEntry _ _ _ _) e2, ?_, ?_, ?_, ?_⟩
    · simp only [growLoop, Heap.SetSpan_eq hlv]
      exact e1
    · intro p j hpj
      rw [e3 p j (by omega), setEntry_lvl _ _ _ _ _ _ hi]
      have : ¬ (p = head ∧ j = i) := by
        rintro ⟨rfl, rfl⟩
        omega
      simp [this]
    · intro j lv1 hj1 hj2 hlv1
      by_cases hji : j = i
      · subst hji
        rw [e3 head j (by omega), setEntry_lvl_self _ _ _ _ hi]
        rw [hlv] at hlv1; cases hlv1; rfl
      · apply e4 j lv1 (by omega) (by omega)
        rw [setEntry_lvl_ne_level _ _ _ _ _ _ hji]; exact hlv1
    · intro j hj1 hj2
      by_cases hji : j = i
      · subst hji
        have := e6 j (by omega)
        rw [this.1, this.2]; simp
      · exact e5 j (by omega) (by omega)
    · intro j hj
      have hji : j ≠ i := by omega
      have := e6 j (by omega)
      rw [this.1, this.2]
      simp [Function.update_noteq hji]

theorem spliceLoop_spec (x : Nat) (update : Nat → Option Nat) (rank : Nat → Nat) :
    ∀ (k i : Nat) (h : Heap V), i + k ≤ h.height x →
      (∀ j, i ≤ j → j < i + k → ∃ u, update j = some u ∧ u ≠ x ∧ j < h.height u) →
      ∃ h1, spliceLoop x update rank k i h = some h1 ∧ SameNodes h h1 ∧
        (∀ p j, (j < i ∨ i + k ≤ j) → (h1 p).lvl j = (h p).lvl j) ∧
        (∀ p j, p ≠ x → update j ≠ some p → (h1 p).lvl j = (h p).lvl j) ∧
        (∀ j u lu, i ≤ j → j < i + k → update j = some u → (h u).lvl j = some lu →
          (h1 x).lvl j = some ⟨lu.forward, sub32 lu.span (sub32 (rank 0) (rank j))⟩ ∧
          (h1 u).lvl j = some ⟨some x, add32 (sub32 (rank 0) (rank j)) 1⟩) := by
  intro k
  induction k with
  | zero =>
    intro i h _ _
    refine ⟨h, rfl, SameNodes.refl h, fun _ _ _ => rfl, fun _ _ _ _ => rfl, ?_⟩
    intro j u lu h1 h2; omega
  | succ k ih =>
    intro i h hk hu
    obtain ⟨u, hui, hux, huh⟩ := hu i (le_refl _) (by omega)
    obtain ⟨lu, hlu⟩ := lvl_of_height huh
    obtain ⟨lx, hlx⟩ := lvl_of_height (h := h) (p := x) (i := i) (by omega)
    have hxh : i < h.height x := by omega
    -- the four assignments of one iteration
    let h1 := h.setEntry x i ⟨lu.forward, lx.span⟩
    have e1 : h.SetNext x i lu.forward = some h1 := Heap.SetNext_eq hlx _
    have hlu1 : (h1 u).lvl i = some lu := by
      rw [setEntry_lvl_ne_node _ _ _ _ _ _ hux]; exact hlu
    let h2 := h1.setEntry u i ⟨some x, lu.span⟩
    have e2 : h1.SetNext u i (some x) = some h2 := Heap.SetNext_eq hlu1 _
    have hlu2 : (h2 u).lvl i = some ⟨some x, lu.span⟩ :=
      setEntry_lvl_self _ _ _ _ (by rw [setEntry_height]; exact huh)
    have hlx2 : (h2 x).lvl i = some ⟨lu.forward, lx.span⟩ := by
      rw [setEntry_lvl_ne_node _ _ _ _ _ _ (Ne.symm hux)]
      exact setEntry_lvl_self _ _ _ _ hxh
    let h3 := h2.setEntry x i ⟨lu.forward, sub32 lu.span (sub32 (rank 0) (rank i))⟩
    have e3 : h2.SetSpan x i (sub32 lu.span (sub32 (rank 0) (rank i))) = some h3 :=
      Heap.SetSpan_eq hlx2 _
    have hlu3 : (h3 u).lvl i = some ⟨some x, lu.span⟩ := by
      rw [setEntry_lvl_ne_node _ _ _ _ _ _ hux]; exact hlu2
    let h4 := h3.setEntry u i ⟨some x, add32 (sub32 (rank 0) (rank i)) 1⟩
    have e4 : h3.SetSpan u i (add32 (sub32 (rank 0) (rank i)) 1) = some h4 :=
      Heap.SetSpan_eq hlu3 _
    have hs4 : SameNodes h h4 :=
      SameNodes_trans (SameNodes_trans (SameNodes_trans (SameNodes_setEntry _ _ _ _)
        (SameNodes_setEntry _ _ _ _)) (SameNodes_setEntry _ _ _ _)) (SameNodes_setEntry _ _ _ _)
    have hne : ∀ p j, j ≠ i → (h4 p).lvl j = (h p).lvl j := by
      intro p j hj
      simp only [h4, h3, h2, h1, setEntry_lvl_ne_level _ _ _ _ _ _ hj]
    have hnn : ∀ p j, p ≠ x → p ≠ u → (h4 p).lvl j = (h p).lvl j := by
      intro p j hp1 hp2
      simp only [h4, h3, h2, h1, setEntry_lvl_ne_node _ _ _ _ _ _ hp1,
        setEntry_lvl_ne_node _ _ _ _ _ _ hp2]
    have hx4 : (h4 x).lvl i = some ⟨lu.forward, sub32 lu.span (sub32 (rank 0) (rank i))⟩ := by
      rw [setEntry_lvl_ne_node _ _ _ _ _ _ (Ne.symm hux)]
      exact setEntry_lvl_self _ _ _ _ (by simp only [h2, h1, setEntry_height]; exact hxh)
    have hu4 : (h4 u).lvl i = some ⟨some x, add32 (sub32 (rank 0) (rank i)) 1⟩ :=
      setEntry_lvl_self _ _ _ _ (by simp only [h3, h2, h1, setEntry_height]; exact huh)
    obtain ⟨hf, f1, f2, f3, f4, f5⟩ := ih (i + 1) h4 (by rw [(hs4 x).1]; omega) (by
      intro j hj1 hj2
      obtain ⟨u1, a1, a2, a3⟩ := hu j (by omega) (by omega)
      exact ⟨u1, a1, a2, by rw [(hs4 u1).1]; exact a3⟩)
    refine ⟨hf, ?_, SameNodes_trans hs4 f2, ?_, ?_, ?_⟩
    · simp only [spliceLoop, hui, Option.bind_eq_bind, Option.some_bind, Heap.Next_eq hlu, e1, e2,
        Heap.Span_eq hlu2, e3, e4]
      exact f1
    · intro p j hj
      rw [f3 p j (by omega), hne p j (by omega)]
    · intro p j hp hpu
      rw [f4 p j hp hpu]
      by_cases hji : j = i
      · subst hji
        exact hnn p j hp (fun e => hpu (by rw [e]; exact hui))
      · exact hne p j hji
    · intro j u1 lu1 hj1 hj2 hu1 hlu1'
      by_cases hji : j = i
      · subst hji
        rw [hui] at hu1; cases hu1
        rw [hlu] at hlu1'; cases hlu1'
        rw [f3 x j (by omega), f3 u j (by omega)]
        exact ⟨hx4, hu4⟩
      · exact f5 j u1 lu1 (by omega) (by omega) hu1 (by rw [hne u1 j hji]; exact hlu1')

theorem bumpLoop_spec (update : Nat → Option Nat) :
    ∀ (k i : Nat) (h : Heap V),
      (∀ j, i ≤ j → j < i + k → ∃ u, update j = some u ∧ j < h.height u) →
      ∃ h1, bumpLoop update k i h = some h1 ∧ SameNodes h h1 ∧
        (∀ p j, (j < i ∨ i + k ≤ j) → (h1 p).lvl j = (h p).lvl j) ∧
        (∀ p j, update j ≠ some p → (h1 p).lvl j = (h p).lvl j) ∧
        (∀ j u lu, i ≤ j → j < i + k → update j = some u → (h u).lvl j = some lu →
          (h1 u).lvl j = some ⟨lu.forward, add32 lu.span 1⟩) := by
  intro k
  induction k with
  | zero =>
    intro i h _
    refine ⟨h, rfl, SameNodes.refl h, fun _ _ _ => rfl, fun _ _ _ => rfl, ?_⟩
    intro j u lu h1 h2; omega
  | succ k ih =>
    intro i h hu
    obtain ⟨u, hui, huh⟩ := hu i (le_refl _) (by omega)
    obtain ⟨lu, hlu⟩ := lvl_of_height huh
    let h1 := h.setEntry u i ⟨lu.forward, add32 lu.span 1⟩
    have e1 : h.SetSpan u i (add32 lu.span 1) = some h1 := Heap.SetSpan_eq hlu _
    have hs1 : SameNodes h h1 := SameNodes_setEntry _ _ _ _
    obtain ⟨hf, f1, f2, f3, f4, f5⟩ := ih (i + 1) h1 (by
      intro j hj1 hj2
      obtain ⟨u1, a1, a3⟩ := hu j (by omega) (by omega)
      exact ⟨u1, a1, by rw [(hs1 u1).1]; exact a3⟩)
    refine ⟨hf, ?_, SameNodes_trans hs1 f2, ?_, ?_, ?_⟩
    · simp only [bumpLoop, hui, Option.bind_eq_bind, Option.some_bind, Heap.Span_eq hlu, e1]
      exact f1
    · intro p j hj
      rw [f3 p j (by omega)]
      exact setEntry_lvl_ne_level _ _ _ _ _ _ (by omega)
    · intro p j hpu
      rw [f4 p j hpu]
      by_cases hji : j = i
      · subst hji
        exact setEntry_lvl_ne_node _ _ _ _ _ _ (fun e => hpu (by rw [e]; exact hui))
      · exact setEntry_lvl_ne_level _ _ _ _ _ _ hji
    · intro j u1 lu1 hj1 hj2 hu1 hlu1
      by_cases hji : j = i
      · subst hji
        rw [hui] at hu1; cases hu1
        rw [hlu] at hlu1; cases hlu1
        rw [f3 u j (by omega)]
        exact setEntry_lvl_self _ _ _ _ huh
      · exact f5 j u1 lu1 (by omega) (by omega) hu1
          (by rw [setEntry_lvl_ne_level _ _ _ _ _ _ hji]; exact hlu1)

theorem unlinkLoop_spec (x : Nat) (update : Nat → Option Nat) :
    ∀ (k i : Nat) (h : Heap V),
      (∀ j, i ≤ j → j < i + k → ∃ u lu, update j = some u ∧ u ≠ x ∧ (h u).lvl j = some lu ∧
        (lu.forward = some x → j < h.height x)) →
      ∃ h1, unlinkLoop x update k i h = some h1 ∧ SameNodes h h1 ∧
        (∀ p j, (j < i ∨ i + k ≤ j) → (h1 p).lvl j = (h p).lvl j) ∧
        (∀ p j, update j ≠ some p → (h1 p).lvl j = (h p).lvl j) ∧
        (∀ j u lu, i ≤ j → j < i + k → update j = some u → (h u).lvl j = some lu →
          (lu.forward = some x → ∀ lx, (h x).lvl j = some lx →
            (h1 u).lvl j = some ⟨lx.forward, sub32 (add32 lu.span lx.span) 1⟩) ∧
          (lu.forward ≠ some x → (h1 u).lvl j = some ⟨lu.forward, sub32 lu.span 1⟩)) := by
  intro k
  induction k with
  | zero =>
    intro i h _
    refine ⟨h, rfl, SameNodes.refl h, fun _ _ _ => rfl, fun _ _ _ => rfl, ?_⟩
    intro j u lu h1 h2; omega
  | succ k ih =>
    intro i h hu
    obtain ⟨u, lu, hui, hux, hlu, hxh⟩ := hu i (le_refl _) (by omega)
    have huh : i < h.height u := height_of_lvl hlu
    -- one iteration yields the heap `h2`, with the entry `e` at `(u, i)`
    have key : ∃ e, (lu.forward = some x → ∀ lx, (h x).lvl i = some lx →
          e = ⟨lx.forward, sub32 (add32 lu.span lx.span) 1⟩) ∧
        (lu.forward ≠ some x → e = ⟨lu.forward, sub32 lu.span 1⟩) ∧
        unlinkLoop x update (k + 1) i h = unlinkLoop x update k (i + 1) (h.setEntry u i e) := by
      by_cases hfx : lu.forward = some x
      · obtain ⟨lx, hlx⟩ := lvl_of_height (hxh hfx)
        refine ⟨⟨lx.forward, sub32 (add32 lu.span lx.span) 1⟩, ?_, fun hn => absurd hfx hn, ?_⟩
        · intro _ lx1 hlx1
          rw [hlx] at hlx1; cases hlx1; rfl
        · let h1 := h.setEntry u i ⟨lu.forward, sub32 (add32 lu.span lx.span) 1⟩
          have e1 : h.SetSpan u i (sub32 (add32 lu.span lx.span) 1) = some h1 :=
            Heap.SetSpan_eq hlu _
          have hlx1 : (h1 x).lvl i = some lx := by
            rw [setEntry_lvl_ne_node _ _ _ _ _ _ (Ne.symm hux)]; exact hlx
          have hlu1 : (h1 u).lvl i = some ⟨lu.forward, sub32 (add32 lu.span lx.span) 1⟩ :=
            setEntry_lvl_self _ _ _ _ huh
          have e2 : h1.SetNext u i lx.forward =
              some (h1.setEntry u i ⟨lx.forward, sub32 (add32 lu.span lx.span) 1⟩) :=
            Heap.SetNext_eq hlu1 _
          have e3 : h1.setEntry u i ⟨lx.forward, sub32 (add32 lu.span lx.span) 1⟩ =
              h.setEntry u i ⟨lx.forward, sub32 (add32 lu.span lx.span) 1⟩ := by
            simp [h1, Heap.setEntry]
          simp only [unlinkLoop, hui, Option.bind_eq_bind, Option.some_bind, Heap.Next_eq hlu, hfx,
            if_true, Heap.Span_eq hlu, Heap.Span_eq hlx, e1, Heap.Next_eq hlx1, e2, e3]
      · refine ⟨⟨lu.forward, sub32 lu.span 1⟩, fun hn => absurd hn hfx, fun _ => rfl, ?_⟩
        have e1 : h.SetSpan u i (sub32 lu.span 1) =
            some (h.setEntry u i ⟨lu.forward, sub32 lu.span 1⟩) := Heap.SetSpan_eq hlu _
        simp only [unlinkLoop, hui, Option.bind_eq_bind, Option.some_bind, Heap.Next_eq hlu, hfx,
          if_false, Heap.Span_eq hlu, e1]
    obtain ⟨e, he1, he2, he3⟩ := key
    have hs1 : SameNodes h (h.setEntry u i e) := SameNodes_setEntry _ _ _ _
    obtain ⟨hf, f1, f2, f3, f4, f5⟩ := ih (i + 1) (h.setEntry u i e) (by
      intro j hj1 hj2
      obtain ⟨u1, lu1, a1, a2, a3, a4⟩ := hu j (by omega) (by omega)
      refine ⟨u1, lu1, a1, a2, ?_, ?_⟩
      · rw [setEntry_lvl_ne_level _ _ _ _ _ _ (by omega)]; exact a3
      · rw [setEntry_height]; exact a4)
    refine ⟨hf, he3.trans f1, SameNodes_trans hs1 f2, ?_, ?_, ?_⟩
    · intro p j hj
      rw [f3 p j (by omega)]
      exact setEntry_lvl_ne_level _ _ _ _ _ _ (by omega)
    · intro p j hpu
      rw [f4 p j hpu]
      by_cases hji : j = i
      · subst hji
        exact setEntry_lvl_ne_node _ _ _ _ _ _ (fun e => hpu (by rw [e]; exact hui))
      · exact setEntry_lvl_ne_level _ _ _ _ _ _ hji
    · intro j u1 lu1 hj1 hj2 hu1 hlu1
      by_cases hji : j = i
      · subst hji
        rw [hui] at hu1; cases hu1
        rw [hlu] at hlu1; cases hlu1
        rw [f3 u j (by omega), setEntry_lvl_self _ _ _ _ huh]
        constructor
        · intro hfx lx hlx; rw [he1 hfx lx hlx]
        · intro hfx; rw [he2 hfx]
      · have hx1 : ((h.setEntry u i e) x).lvl j = (h x).lvl j :=
          setEntry_lvl_ne_level _ _ _ _ _ _ hji
        have := f5 j u1 lu1 (by omega) (by omega) hu1
          (by rw [setEntry_lvl_ne_level _ _ _ _ _ _ hji]; exact hlu1)
        rw [hx1] at this
        exact this

/-! ## Links after an insertion and after a deletion -/

theorem sub32_add_cancel (a b : Nat) : sub32 ((a + b) % M32) (a % M32) = b % M32 := by
  unfold sub32 M32; omega

theorem nodup_mid {pi ri B : List Nat} {u : Nat} (hnd : (pi ++ u :: ri ++ B).Nodup) :
    (∀ p ∈ pi, p ≠ u) ∧ (∀ p ∈ B, p ≠ u) := by
  rw [List.append_assoc, List.nodup_append] at hnd
  obtain ⟨_, h2, h3⟩ := hnd
  constructor
  · intro p hp e
    exact h3 hp (by rw [e]; simp)
  · intro p hp e
    rw [List.cons_append, List.nodup_cons] at h2
    exact h2.1 (by rw [← e]; exact List.mem_append_right _ hp)

theorem links_insert {h h1 : Heap V} {i x : Nat} {af B : List Nat}
    {upd : Nat → Option Nat} {rk : Nat → Nat}
    (hl : Links h i (af ++ B)) (hnd : (af ++ B).Nodup) (hx : x ∉ af ++ B)
    (hu : UpdOK h.height af upd rk i) (hr0 : rk 0 = (af.length - 1) % M32)
    (hht : ∀ p ∈ af ++ B, h1.height p = h.height p)
    (hsame : ∀ p ∈ af ++ B, upd i ≠ some p → (h1 p).lvl i = (h p).lvl i)
    (hxe : i < h1.height x → ∀ u lu, upd i = some u → (h u).lvl i = some lu →
        (h1 x).lvl i = some ⟨lu.forward, sub32 lu.span (sub32 (rk 0) (rk i))⟩ ∧
        (h1 u).lvl i = some ⟨some x, add32 (sub32 (rk 0) (rk i)) 1⟩)
    (hxl : h1.height x ≤ i → ∀ u lu, upd i = some u → (h u).lvl i = some lu →
        (h1 u).lvl i = some ⟨lu.forward, add32 lu.span 1⟩) :
    Links h1 i (af ++ x :: B) := by
  obtain ⟨pi, u, ri, rfl, hui, huh, hri, hrk⟩ := hu
  obtain ⟨hpi_ne, hB_ne⟩ := nodup_mid hnd
  have hlen : (pi ++ u :: ri).length - 1 = pi.length + ri.length := by simp
  rw [hlen] at hr0
  have hsub : sub32 (rk 0) (rk i) = ri.length % M32 := by
    rw [hr0, hrk]; exact sub32_add_cancel _ _
  -- the old entry of `u`
  have hlu : (h u).lvl i = some ⟨nextAt h.height i B, (ri.length + gap h.height i B) % M32⟩ := by
    have hs : Links h i (u :: (ri ++ _)) := Links_suffix pi (by simpa using hl)
    have := hs.1 huh
    rw [nextAt_append_low _ hri, gap_append_low _ hri] at this
    exact this
  have hBh : ∀ q ∈ B, h1.height q = h.height q := fun q hq => hht q (List.mem_append_right _ hq)
  have hrih : ∀ q ∈ ri, h1.height q = h.height q := fun q hq =>
    hht q (List.mem_append_left _ (by simp [hq]))
  have huh1 : h1.height u = h.height u := hht u (by simp)
  have hB : Links h1 i B := by
    refine Links_congr ?_ (Links_suffix (pi ++ u :: ri) hl)
    intro p hp
    exact ⟨hBh p hp, hsame p (List.mem_append_right _ hp)
      (fun e => hB_ne p hp (Option.some.inj (hui.symm.trans e)).symm)⟩
  have hri1 : ∀ q ∈ ri, h1.height q ≤ i := fun q hq => by rw [hrih q hq]; exact hri q hq
  have hux : Links h1 i (u :: (ri ++ x :: B)) := by
    by_cases hxi : i < h1.height x
    · obtain ⟨e1, e2⟩ := hxe hxi u _ hui hlu
      refine ⟨fun _ => ?_, Links_low_append hri1 ⟨fun _ => ?_, hB⟩⟩
      · rw [e2, nextAt_append_high _ hri1 hxi, gap_append_high _ hri1 hxi, hsub, add32_mod_left]
      · rw [e1, hsub, nextAt_congr hBh, gap_congr hBh]
        simp only [sub32_add_cancel]
    · have e2 := hxl (by omega) u _ hui hlu
      refine ⟨fun _ => ?_, Links_low_append hri1 ⟨fun hc => absurd hc hxi, hB⟩⟩
      have hlow : ∀ q ∈ ri ++ [x], h1.height q ≤ i := by
        intro q hq
        rcases List.mem_append.1 hq with hq | hq
        · exact hri1 q hq
        · rw [List.mem_singleton.1 hq]; omega
      have e3 : ri ++ x :: B = (ri ++ [x]) ++ B := by simp
      rw [e2, e3, nextAt_append_low _ hlow, gap_append_low _ hlow, nextAt_congr hBh,
        gap_congr hBh, add32_mod_left]
      simp only [List.length_append, List.length_singleton, List.length_cons, List.length_nil]
      have e4 : ri.length + gap h.height i B + 1 = ri.length + (0 + 1) + gap h.height i B := by
        omega
      rw [e4]
  have : pi ++ u :: ri ++ x :: B = pi ++ u :: (ri ++ x :: B) := by simp
  rw [this]
  refine Links_prefix_change (r := ri ++ B) (by simpa using hl) huh huh1 ?_ hux
  intro p hp
  exact ⟨hht p (by simp [hp]), hsame p (by simp [hp])
    (fun e => hpi_ne p hp (Option.some.inj (hui.symm.trans e)).symm)⟩

theorem links_delete {h h1 : Heap V} {i x : Nat} {af B : List Nat}
    {upd : Nat → Option Nat} {rk : Nat → Nat}
    (hl : Links h i (af ++ x :: B)) (hnd : (af ++ x :: B).Nodup)
    (hu : UpdOK h.height af upd rk i)
    (hht : ∀ p ∈ af ++ B, h1.height p = h.height p)
    (hsame : ∀ p ∈ af ++ B, upd i ≠ some p → (h1 p).lvl i = (h p).lvl i)
    (hue : ∀ u lu, upd i = some u → (h u).lvl i = some lu →
      (lu.forward = some x → ∀ lx, (h x).lvl i = some lx →
        (h1 u).lvl i = some ⟨lx.forward, sub32 (add32 lu.span lx.span) 1⟩) ∧
      (lu.forward ≠ some x → (h1 u).lvl i = some ⟨lu.forward, sub32 lu.span 1⟩)) :
    Links h1 i (af ++ B) := by
  obtain ⟨pi, u, ri, rfl, hui, huh, hri, hrk⟩ := hu
  obtain ⟨hpi_ne, hxB_ne⟩ := nodup_mid hnd
  have hB_ne : ∀ p ∈ B, p ≠ u := fun p hp => hxB_ne p (List.mem_cons_of_mem _ hp)
  have hxB : x ∉ B := by
    rw [List.nodup_append] at hnd
    exact (List.nodup_cons.1 hnd.2.1).1
  have hlu : (h u).lvl i =
      some ⟨nextAt h.height i (x :: B), (ri.length + gap h.height i (x :: B)) % M32⟩ := by
    have hs : Links h i (u :: (ri ++ _)) := Links_suffix pi (by simpa using hl)
    have := hs.1 huh
    rw [nextAt_append_low _ hri, gap_append_low _ hri] at this
    exact this
  have hBh : ∀ q ∈ B, h1.height q = h.height q := fun q hq => hht q (List.mem_append_right _ hq)
  have hrih : ∀ q ∈ ri, h1.height q = h.height q := fun q hq =>
    hht q (List.mem_append_left _ (by simp [hq]))
  have huh1 : h1.height u = h.height u := hht u (by simp)
  have hxB0 : Links h i (x :: B) := Links_suffix (pi ++ u :: ri) hl
  have hB : Links h1 i B := by
    refine Links_congr ?_ hxB0.2
    intro p hp
    exact ⟨hBh p hp, hsame p (List.mem_append_right _ hp)
      (fun e => hB_ne p hp (Option.some.inj (hui.symm.trans e)).symm)⟩
  have hri1 : ∀ q ∈ ri, h1.height q ≤ i := fun q hq => by rw [hrih q hq]; exact hri q hq
  have hux : Links h1 i (u :: (ri ++ B)) := by
    refine ⟨fun _ => ?_, Links_low_append hri1 hB⟩
    rw [nextAt_append_low _ hri1, gap_append_low _ hri1, nextAt_congr hBh, gap_congr hBh]
    by_cases hxi : i < h.height x
    · have hlx := hxB0.1 hxi
      have hf : nextAt h.height i (x :: B) = some x := by simp [nextAt, hxi]
      have hg : gap h.height i (x :: B) = 1 := by simp [gap, hxi]
      rw [hf, hg] at hlu
      rw [((hue u _ hui hlu).1 rfl _ hlx)]
      simp only [Option.some.injEq, Level.mk.injEq, true_and]
      unfold sub32 add32 M32; omega
    · have hf : nextAt h.height i (x :: B) = nextAt h.height i B := by simp [nextAt, hxi]
      have hg : gap h.height i (x :: B) = gap h.height i B + 1 := by simp [gap, hxi]
      rw [hf, hg] at hlu
      have hne : nextAt h.height i B ≠ some x := by
        intro e
        obtain ⟨a, b, rfl, _, _⟩ := nextAt_some e
        exact hxB (by simp)
      rw [((hue u _ hui hlu).2 hne)]
      simp only [Option.some.injEq, Level.mk.injEq, true_and]
      unfold sub32 M32; omega
  have : pi ++ u :: ri ++ B = pi ++ u :: (ri ++ B) := by simp
  rw [this]
  refine Links_prefix_change (r := ri ++ x :: B) (by simpa using hl) huh huh1 ?_ hux
  intro p hp
  exact ⟨hht p (by simp [hp]), hsame p (by simp [hp])
    (fun e => hpi_ne p hp (Option.some.inj (hui.symm.trans e)).symm)⟩

/-! ## The comparator, the backward pointers and the search on a well-formed list -/

theorem cmp_before_iff [Valuer V] (a b : V) : (cmp V).before a b = true ↔ Before a b := by
  unfold Comparator.before cmp Before
  simp only [Bool.or_eq_true, Bool.and_eq_true, decide_eq_true_eq]
  constructor
  · rintro (h | ⟨h1, h2⟩)
    · left; by_contra hc; split_ifs at h
      all_goals omega
    · right
      constructor
      · by_contra hc; split_ifs at h1
        all_goals omega
      · by_contra hc; split_ifs at h2
        all_goals omega
  · rintro (h | ⟨h1, h2⟩)
    · left; simp [h]
    · right; simp [h1, h2]

theorem cmp_upto_iff [Valuer V] (a b : V) : (cmp V).upto a b = true ↔ LexLE a b := by
  unfold Comparator.upto cmp LexLE
  simp only [Bool.or_eq_true, Bool.and_eq_true, decide_eq_true_eq]
  constructor
  · rintro (h | ⟨h1, h2⟩)
    · left; by_contra hc; split_ifs at h
      all_goals omega
    · right
      constructor
      · by_contra hc; split_ifs at h1
        all_goals omega
      · by_contra hc; split_ifs at h2
        all_goals omega
  · rintro (h | ⟨h1, h2⟩)
    · left; simp [h]
    · right
      refine ⟨by simp [h1], ?_⟩
      rcases Nat.lt_or_eq_of_le h2 with h3 | h3
      · simp [h3]
      · simp [h3]

theorem cmp_key_zero [Valuer V] (a b : V) :
    (cmp V).CmpKey a b = 0 ↔ Valuer.Key a = Valuer.Key b := by
  unfold cmp
  simp only
  constructor
  · intro h; by_contra hc; split_ifs at h
    all_goals omega
  · intro h; simp [h]

theorem cmp_score_zero [Valuer V] (a b : V) :
    (cmp V).CmpScore a b = 0 ↔ Valuer.Score a = Valuer.Score b := by
  unfold cmp
  simp only
  constructor
  · intro h; by_contra hc; split_ifs at h
    all_goals omega
  · intro h; simp [h]

theorem Before_trans [Valuer V] {a b c : V} (h1 : Before a b) (h2 : Before b c) : Before a c := by
  unfold Before at *; omega

theorem Before.irrefl [Valuer V] (a : V) : ¬ Before a a := by
  unfold Before; omega

theorem Before.asymm [Valuer V] {a b : V} (h1 : Before a b) : ¬ Before b a := by
  unfold Before at *; omega

theorem Before.total [Valuer V] {a b : V} (hk : Valuer.Key a ≠ Valuer.Key b) :
    Before a b ∨ Before b a := by
  unfold Before; omega

theorem Before.lexLE [Valuer V] {a b : V} (h : Before a b) : LexLE a b := by
  unfold Before LexLE at *; omega

theorem lastOr_append (prev : Option Nat) (a : List Nat) (x : Nat) :
    lastOr prev (a ++ [x]) = some x := by
  induction a generalizing prev with
  | nil => rfl
  | cons p t ih => exact ih (some p)

theorem lastOr_append_cons (prev : Option Nat) (a : List Nat) (x : Nat) (b : List Nat) :
    lastOr prev (a ++ x :: b) = lastOr (some x) b := by
  induction a generalizing prev with
  | nil => rfl
  | cons p t ih => exact ih (some p)

theorem lastOr_none (a : List Nat) : lastOr none a = a.getLast? := by
  cases a with
  | nil => rfl
  | cons p t =>
    show lastOr (some p) t = _
    induction t generalizing p with
    | nil => rfl
    | cons q t ih =>
      show lastOr (some q) t = _
      rw [ih q, List.getLast?_cons_cons]

theorem lastOr_some_mem {prev : Nat} {a : List Nat} {x : Nat} (h : lastOr (some prev) a = some x) :
    ∃ pf, prev :: a = pf ++ [x] := by
  induction a generalizing prev with
  | nil =>
    simp only [lastOr, Option.some.injEq] at h
    exact ⟨[], by simp [h]⟩
  | cons p t ih =>
    obtain ⟨pf, hpf⟩ := @ih p h
    exact ⟨prev :: pf, by simp [hpf]⟩

theorem Back_congr {h h1 : Heap V} {L : List Nat} (prev : Option Nat)
    (hf : ∀ p ∈ L, (h1 p).backward = (h p).backward) (hb : Back h prev L) : Back h1 prev L := by
  induction L generalizing prev with
  | nil => trivial
  | cons p t ih =>
    exact ⟨by rw [hf p (List.mem_cons_self _ _)]; exact hb.1,
      ih (some p) (fun q hq => hf q (List.mem_cons_of_mem _ hq)) hb.2⟩

theorem Back_append {h : Heap V} (prev : Option Nat) (a c : List Nat) :
    Back h prev (a ++ c) ↔ Back h prev a ∧ Back h (lastOr prev a) c := by
  induction a generalizing prev with
  | nil => simp [Back, lastOr]
  | cons p t ih =>
    simp only [List.cons_append, Back, lastOr, List.append_eq, ih (some p), and_assoc]

theorem search_shape [Valuer V] {l : SkipList V} {ps : List Nat} (hs : Shape l ps)
    (cond : Nat → V → Bool) :
    ∃ A B x upd rk, ps = A ++ B ∧
      search l.heap cond l.alloc l.level l.head 0 (fun _ => none) (fun _ => 0) = some (x, upd, rk) ∧
      lastOr (some l.head) A = some x ∧
      (∀ i, i < l.level → UpdOK l.heap.height (l.head :: A) upd rk i) ∧
      (∀ j, l.level ≤ j → upd j = none ∧ rk j = 0) ∧
      Barrier l.heap.height l.heap.val cond 0 (A.length + 1) B ∧
      (A = [] ∨ cond (A.length % M32) (l.heap.val x) = true) ∧
      upd 0 = some x ∧ rk 0 = A.length % M32 := by
  have hpos : ∀ q ∈ l.head :: ps, 1 ≤ l.heap.height q := by
    intro q hq
    rcases List.mem_cons.1 hq with rfl | hq
    · rw [hs.head_height]; decide
    · exact hs.height_pos q hq
  obtain ⟨pf, x, B, upd, rk, f1, f2, f3, f4, f5, _, _, f8⟩ :=
    @search_spec _ _ cond _ l.alloc hpos l.level [] l.head ps [] (fun _ => none) (fun _ => 0)
      hs.links (by simp) (by rw [hs.head_height]; exact hs.level_le) hs.length_lt
      hs.height_le (Or.inl rfl)
  have f2' : search l.heap cond l.alloc l.level l.head 0 (fun _ => none) (fun _ => 0) =
      some (x, upd, rk) := by
    simpa using f2
  -- the nodes passed
  have hA : ∃ A, l.head :: A = pf ++ [x] ∧ ps = A ++ B := by
    cases pf with
    | nil =>
      simp only [List.nil_append, List.cons.injEq] at f1
      exact ⟨[], by simp [f1.1], by simp [f1.2]⟩
    | cons p t =>
      simp only [List.cons_append, List.cons.injEq] at f1
      exact ⟨t ++ [x], by simp [f1.1], by simp [f1.2]⟩
  obtain ⟨A, hA1, hA2⟩ := hA
  have hlen : pf.length = A.length := by
    have := congrArg List.length hA1
    simp at this; omega
  have hlast : lastOr (some l.head) A = some x := by
    have : lastOr none (l.head :: A) = some x := by rw [hA1]; exact lastOr_append _ _ _
    exact this
  have h0 := f3 0 hs.level_pos
  obtain ⟨p0, u0, r0, e1, e2, e3, e4, e5⟩ := h0
  have hr0 : r0 = [] := by
    cases r0 with
    | nil => rfl
    | cons q t =>
      have h1 := e4 q (List.mem_cons_self _ _)
      have h2 : q ∈ l.head :: ps := by
        have : q ∈ pf ++ [x] := by rw [e1]; simp
        rw [f1]
        rcases List.mem_append.1 this with h | h
        · exact List.mem_append_left _ h
        · exact List.mem_append_right _ (by rw [List.mem_singleton.1 h]; simp)
      have := hpos q h2
      omega
  subst hr0
  have hux : p0 = pf ∧ u0 = x := by
    have := List.append_inj' e1.symm rfl
    exact ⟨this.1, by simpa using this.2⟩
  refine ⟨A, B, x, upd, rk, hA2, f2', hlast, ?_, ?_, ?_, ?_, ?_, ?_⟩
  · intro i hi; rw [hA1]; exact f3 i hi
  · intro j hj; exact f4 j hj
  · rw [← hlen]; exact f5
  · rcases f8 with ⟨rfl, rfl⟩ | f8
    · left
      simp at hlen
      exact List.length_eq_zero.1 hlen.symm
    · right; rw [← hlen]; exact f8
  · rw [e2, hux.2]
  · rw [e5, hux.1, hlen]

/-! ## Insertion of a node -/

theorem Links_low {h : Heap V} {i : Nat} {a : List Nat} (ha : ∀ p ∈ a, h.height p ≤ i) :
    Links h i a := by
  have := Links_low_append (h := h) (i := i) (b := []) ha trivial
  simpa using this

theorem NewNode_lvl (lvl : Nat) (v : V) {j : Nat} (hj : j < lvl) :
    (NewNode lvl v).lvl j = some ⟨none, 0⟩ := by
  unfold NewNode Node.lvl
  simp [List.getElem?_replicate, hj]

theorem insertNode_heap [Valuer V] {l : SkipList V} {ps A B : List Nat}
    {upd : Nat → Option Nat} {rk : Nat → Nat} (hs : Shape l ps)
    (hps : ps = A ++ B) (hupd : ∀ i, i < l.level → UpdOK l.heap.height (l.head :: A) upd rk i)
    (hr0 : rk 0 = A.length % M32)
    (v : V) {lvl : Nat} (hl2 : lvl ≤ maxLevel)
    (hlen : (l.length % (M32 : Int)).toNat = ps.length % M32) :
    ∃ hg updg rkg h3 h4,
      growLoop l.head (l.length % (M32 : Int)).toNat (lvl - l.level) l.level l.heap upd rk =
        some (hg, updg, rkg) ∧
      spliceLoop l.alloc updg rkg lvl 0 (Function.update hg l.alloc (NewNode lvl v)) = some h3 ∧
      bumpLoop updg (max l.level lvl - lvl) lvl h3 = some h4 ∧
      updg 0 = upd 0 ∧
      (∀ p, p ≠ l.alloc → h4.height p = l.heap.height p ∧ h4.val p = l.heap.val p ∧
        (h4 p).backward = (l.heap p).backward) ∧
      h4.height l.alloc = lvl ∧ h4.val l.alloc = v ∧ (h4 l.alloc).backward = none ∧
      (∀ i, i < max l.level lvl → Links h4 i (l.head :: A ++ l.alloc :: B)) ∧
      (∀ i, max l.level lvl ≤ i → (h4 l.head).lvl i = (l.heap l.head).lvl i) := by
  have hhead : l.heap.height l.head = maxLevel := hs.head_height
  have hlev := hs.level_le
  have hlp := hs.level_pos
  -- the loop that raises the level
  obtain ⟨hg, updg, rkg, g1, g2, g3, g4, g5, g6⟩ :=
    growLoop_spec l.head (l.length % (M32 : Int)).toNat (lvl - l.level) l.level l.heap upd rk
      (by rw [hhead]; omega)
  have hgh : hg.height = l.heap.height := g2.height_eq
  have hL : l.head :: ps = (l.head :: A) ++ B := by rw [hps]; simp
  have hG1 : ∀ i, i < max l.level lvl → Links hg i ((l.head :: A) ++ B) := by
    intro i hi
    rw [← hL]
    by_cases hil : i < l.level
    · refine Links_congr ?_ (hs.links i hil)
      intro p _
      exact ⟨(g2 p).1, g3 p i (Or.inr (Or.inl hil))⟩
    · have hi2 : i < lvl := by omega
      have hlow : ∀ p ∈ ps, hg.height p ≤ i := by
        intro p hp
        rw [hgh]
        have := hs.height_le p hp
        omega
      refine ⟨fun _ => ?_, Links_low hlow⟩
      have hn := hs.head_nil i (by omega) (by omega)
      obtain ⟨lv, hlv⟩ := lvl_of_height (h := l.heap) (p := l.head) (i := i) (by rw [hhead]; omega)
      rw [Heap.Next_eq hlv] at hn
      rw [g4 i lv (by omega) (by omega) hlv, nextAt_low hlow, gap_low hlow, hlen]
      simp only [Option.some.injEq] at hn
      rw [hn]
  have hG2 : ∀ i, i < max l.level lvl → UpdOK hg.height (l.head :: A) updg rkg i := by
    intro i hi
    rw [hgh]
    by_cases hil : i < l.level
    · obtain ⟨pi, u, ri, e1, e2, e3, e4, e5⟩ := hupd i hil
      have := g6 i (Or.inl hil)
      exact ⟨pi, u, ri, e1, by rw [this.1]; exact e2, e3, e4, by rw [this.2]; exact e5⟩
    · have := g5 i (by omega) (by omega)
      refine ⟨[], l.head, A, rfl, this.1, by rw [hhead]; omega, ?_, by rw [this.2]; rfl⟩
      intro q hq
      have := hs.height_le q (by rw [hps]; exact List.mem_append_left _ hq)
      omega
  have hupd0 : updg 0 = upd 0 ∧ rkg 0 = rk 0 := g6 0 (Or.inl hlp)
  -- the new node
  have hxL : l.alloc ∉ (l.head :: A) ++ B := by
    rw [← hL]
    intro hm
    have := hs.lt_alloc _ hm
    omega
  have hmem : ∀ {i u}, i < max l.level lvl → updg i = some u → u ∈ (l.head :: A) ++ B := by
    intro i u hi hu
    obtain ⟨pi, u1, ri, e1, e2, _⟩ := hG2 i hi
    rw [e2] at hu; cases hu
    exact List.mem_append_left _ (by rw [e1]; simp)
  have hne : ∀ {i u}, i < max l.level lvl → updg i = some u → u ≠ l.alloc := by
    intro i u hi hu e
    exact hxL (e ▸ hmem hi hu)
  let h2 : Heap V := Function.update hg l.alloc (NewNode lvl v)
  have h2x : h2 l.alloc = NewNode lvl v := Function.update_same _ _ _
  have h2p : ∀ p, p ≠ l.alloc → h2 p = hg p := fun p hp => Function.update_noteq hp _ _
  have h2hx : h2.height l.alloc = lvl := by
    simp [Heap.height, h2x, NewNode]
  obtain ⟨h3, s1, s2, s3, s4, s5⟩ := spliceLoop_spec l.alloc updg rkg lvl 0 h2 (by omega) (by
    intro j _ hj
    obtain ⟨pi, u, ri, e1, e2, e3, _⟩ := hG2 j (by omega)
    have hux := hne (i := j) (by omega) e2
    exact ⟨u, e2, hux, by simp only [Heap.height, h2p u hux]; exact e3⟩)
  obtain ⟨h4, b1, b2, b3, b4, b5⟩ := bumpLoop_spec updg (max l.level lvl - lvl) lvl h3 (by
    intro j hj1 hj2
    obtain ⟨pi, u, ri, e1, e2, e3, _⟩ := hG2 j (by omega)
    have hux := hne (i := j) (by omega) e2
    exact ⟨u, e2, by rw [(s2 u).1]; simp only [Heap.height, h2p u hux]; exact e3⟩)
  have h24 : SameNodes h2 h4 := SameNodes_trans s2 b2
  have hold : ∀ p, p ≠ l.alloc → h4.height p = l.heap.height p ∧ h4.val p = l.heap.val p ∧
      (h4 p).backward = (l.heap p).backward := by
    intro p hp
    refine ⟨?_, ?_, ?_⟩
    · rw [(h24 p).1, ← (g2 p).1]; simp only [Heap.height, h2p p hp]
    · rw [(h24 p).2.1, ← (g2 p).2.1]; simp only [Heap.val, h2p p hp]
    · rw [(h24 p).2.2, ← (g2 p).2.2, h2p p hp]
  have h4hx : h4.height l.alloc = lvl := by rw [(h24 _).1]; exact h2hx
  refine ⟨hg, updg, rkg, h3, h4, g1, s1, b1, hupd0.1, hold, h4hx, ?_, ?_, ?_, ?_⟩
  · rw [(h24 _).2.1]; simp [Heap.val, h2x, NewNode]
  · rw [(h24 _).2.2]; simp [h2x, NewNode]
  · intro i hi
    have hLx : l.head :: A ++ l.alloc :: B = (l.head :: A) ++ l.alloc :: B := by simp
    rw [hLx]
    refine links_insert (hG1 i hi) (hL ▸ hs.nodup) hxL (hG2 i hi) ?_ ?_ ?_ ?_ ?_
    · rw [hupd0.2, hr0]; simp
    · intro p hp
      have hpx : p ≠ l.alloc := fun e => hxL (e ▸ hp)
      rw [(hold p hpx).1, hgh]
    · intro p hp hpu
      have hpx : p ≠ l.alloc := fun e => hxL (e ▸ hp)
      rw [b4 p i hpu, s4 p i hpx hpu, h2p p hpx]
    · intro hxi u lu hu hlu
      rw [h4hx] at hxi
      have hux := hne hi hu
      have := s5 i u lu (by omega) (by omega) hu (by rw [h2p u hux]; exact hlu)
      rw [b3 _ i (Or.inl hxi), b3 _ i (Or.inl hxi)]
      exact this
    · intro hxi u lu hu hlu
      rw [h4hx] at hxi
      have hux := hne hi hu
      apply b5 i u lu hxi (by omega) hu
      rw [s3 u i (Or.inr (by omega)), h2p u hux]; exact hlu
  · intro i hi
    have hhx : l.head ≠ l.alloc := by
      have := hs.lt_alloc l.head (List.mem_cons_self _ _)
      omega
    rw [b3 _ i (Or.inr (by omega)), s3 _ i (Or.inr (by omega)), h2p _ hhx]
    exact g3 _ i (Or.inr (Or.inr (by omega)))

theorem nextAt_zero {ht : Nat → Nat} {B : List Nat} (hB : ∀ q ∈ B, 1 ≤ ht q) :
    nextAt ht 0 B = B.head? := by
  cases B with
  | nil => rfl
  | cons q t =>
    have := hB q (List.mem_cons_self _ _)
    simp [nextAt]; omega

theorem insertNode_eq [Valuer V] {l : SkipList V} {ps : List Nat} (hs : Shape l ps) (v : V)
    {lvl : Nat} (hl1 : 1 ≤ lvl) (hl2 : lvl ≤ maxLevel)
    (hlen : l.length % (M32 : Int) = (ps.length : Int) % (M32 : Int)) :
    ∃ A B x0 h4, ps = A ++ B ∧ lastOr (some l.head) A = some x0 ∧
      Barrier l.heap.height l.heap.val (fun _ next => l.cmp.before next v) 0 (A.length + 1) B ∧
      (A = [] ∨ l.cmp.before (l.heap.val x0) v = true) ∧
      (∀ p, p ≠ l.alloc → h4.height p = l.heap.height p ∧ h4.val p = l.heap.val p ∧
        (h4 p).backward = (l.heap p).backward) ∧
      h4.height l.alloc = lvl ∧ h4.val l.alloc = v ∧ (h4 l.alloc).backward = none ∧
      (∀ i, i < max l.level lvl → Links h4 i (l.head :: A ++ l.alloc :: B)) ∧
      (∀ i, max l.level lvl ≤ i → (h4 l.head).lvl i = (l.heap l.head).lvl i) ∧
      insertNode l v lvl = some (l.alloc,
        match B.head? with
        | some y =>
          { l with
            heap := ((if x0 = l.head then h4.setBackward l.alloc none
              else h4.setBackward l.alloc (some x0))).setBackward y (some l.alloc)
            alloc := l.alloc + 1, level := max l.level lvl }
        | none =>
          { l with
            heap := (if x0 = l.head then h4.setBackward l.alloc none
              else h4.setBackward l.alloc (some x0))
            alloc := l.alloc + 1, level := max l.level lvl, tail := some l.alloc }) := by
  obtain ⟨A, B, x0, upd, rk, c1, c2, c3, c4, _, c6, c7, c8, c9⟩ :=
    search_shape hs (fun _ next => l.cmp.before next v)
  have hlen' : (l.length % (M32 : Int)).toNat = ps.length % M32 := by
    rw [hlen]; simp [M32]; omega
  obtain ⟨hg, updg, rkg, h3, h4, d1, d2, d3, d4, d5, d6, d7, d8, d9, d10⟩ :=
    insertNode_heap hs c1 c4 c9 v hl2 hlen'
  refine ⟨A, B, x0, h4, c1, c3, c6, c7, d5, d6, d7, d8, d9, d10, ?_⟩
  have hmax : (if lvl > l.level then lvl else l.level) = max l.level lvl := by
    split_ifs <;> omega
  have hB1 : ∀ q ∈ B, 1 ≤ h4.height q := by
    intro q hq
    have hq1 : q ∈ ps := by rw [c1]; exact List.mem_append_right _ hq
    have hqx : q ≠ l.alloc := by
      intro e
      have := hs.lt_alloc q (List.mem_cons_of_mem _ hq1)
      omega
    rw [(d5 q hqx).1]; exact hs.height_pos q hq1
  have hx0 : (h4 l.alloc).lvl 0 = some ⟨B.head?, gap h4.height 0 B % M32⟩ := by
    have hl0 := d9 0 (by have := hs.level_pos; omega)
    have : l.head :: A ++ l.alloc :: B = (l.head :: A) ++ l.alloc :: B := by simp
    rw [this] at hl0
    have := (Links_suffix _ hl0).1 (by rw [d6]; omega)
    rw [nextAt_zero hB1] at this
    exact this
  have hnx : ∀ b, (h4.setBackward l.alloc b).Next l.alloc 0 = some B.head? := by
    intro b
    have : ((h4.setBackward l.alloc b) l.alloc).lvl 0 = some ⟨B.head?, gap h4.height 0 B % M32⟩ := by
      rw [setBackward_lvl]; exact hx0
    exact Heap.Next_eq this
  simp only [insertNode, c2, Option.bind_eq_bind, Option.some_bind, d1, hmax, d2, d3, d4, c8]
  by_cases hxh : x0 = l.head
  · simp only [hxh, if_true, hnx]
    cases B.head? <;> rfl
  · simp only [hxh, if_false, hnx]
    cases B.head? <;> rfl

theorem lastOr_head_cases {hd x0 : Nat} {A : List Nat} (h : lastOr (some hd) A = some x0) :
    (A = [] ∧ x0 = hd) ∨ ∃ A1, A = A1 ++ [x0] := by
  obtain ⟨pf, hpf⟩ := lastOr_some_mem h
  cases pf with
  | nil =>
    simp only [List.nil_append, List.cons.injEq] at hpf
    exact Or.inl ⟨hpf.2, hpf.1.symm⟩
  | cons p t =>
    simp only [List.cons_append, List.cons.injEq] at hpf
    exact Or.inr ⟨t, hpf.2⟩

theorem search_before_split [Valuer V] {l : SkipList V} {A B : List Nat} {x0 : Nat} {v : V}
    (hs : Shape l (A ++ B))
    (hlast : lastOr (some l.head) A = some x0)
    (hbar : Barrier l.heap.height l.heap.val (fun _ next => l.cmp.before next v) 0 (A.length + 1) B)
    (hent : A = [] ∨ l.cmp.before (l.heap.val x0) v = true) :
    (∀ p ∈ A, Before (l.heap.val p) v) ∧ (∀ p ∈ B, ¬ Before (l.heap.val p) v) := by
  have hsorted := hs.sorted
  rw [List.map_append, List.pairwise_append] at hsorted
  obtain ⟨sA, sB, _⟩ := hsorted
  rw [hs.cmp_eq] at hbar hent
  constructor
  · rcases hent with rfl | hent
    · simp
    · rcases lastOr_head_cases hlast with ⟨rfl, _⟩ | ⟨A1, rfl⟩
      · simp
      · rw [cmp_before_iff] at hent
        intro p hp
        rcases List.mem_append.1 hp with hp | hp
        · rw [List.map_append, List.pairwise_append] at sA
          exact Before_trans (sA.2.2 _ (List.mem_map_of_mem _ hp) _ (by simp)) hent
        · rw [List.mem_singleton.1 hp]; exact hent
  · rcases hbar with rfl | ⟨q, t, rfl, _, hq⟩
    · simp
    · have hq' : ¬ Before (l.heap.val q) v := by
        rw [← cmp_before_iff]; simpa using hq
      intro p hp hpv
      rcases List.mem_cons.1 hp with rfl | hp
      · exact hq' hpv
      · rw [List.map_cons, List.pairwise_cons] at sB
        exact hq' (Before_trans (sB.1 _ (List.mem_map_of_mem _ hp)) hpv)

theorem insertNode_shape [Valuer V] {l : SkipList V} {ps : List Nat} (hs : Shape l ps) (v : V)
    (hk : ∀ p ∈ ps, Valuer.Key (l.heap.val p) ≠ Valuer.Key v)
    {lvl : Nat} (hl1 : 1 ≤ lvl) (hl2 : lvl ≤ maxLevel)
    (hlen : l.length % (M32 : Int) = (ps.length : Int) % (M32 : Int)) :
    ∃ A B l1, ps = A ++ B ∧ insertNode l v lvl = some (l.alloc, l1) ∧
      (∀ p ∈ A, Before (l.heap.val p) v) ∧ (∀ p ∈ B, Before v (l.heap.val p)) ∧
      Shape l1 (A ++ l.alloc :: B) ∧ l1.heap.val l.alloc = v ∧
      (∀ p ∈ ps, l1.heap.val p = l.heap.val p) ∧
      l1.length = l.length ∧ l1.index = l.index ∧ l1.level = max l.level lvl ∧
      l1.heap.height l.alloc = lvl := by
  obtain ⟨A, B, x0, h4, c1, c2, c3, c4, c5, c6, c7, c8, c9, c10, c11⟩ :=
    insertNode_eq hs v hl1 hl2 hlen
  subst c1
  obtain ⟨hA, hB0⟩ := search_before_split hs c2 c3 c4
  have hB : ∀ p ∈ B, Before v (l.heap.val p) := by
    intro p hp
    rcases Before.total (hk p (List.mem_append_right _ hp)) with h | h
    · exact absurd h (hB0 p hp)
    · exact h
  -- the pointer stored in `x.backward`
  have hxfresh : ∀ p ∈ l.head :: (A ++ B), p ≠ l.alloc := by
    intro p hp e
    have := hs.lt_alloc p hp
    omega
  have hnd := hs.nodup
  have hb : (if x0 = l.head then none else some x0) = lastOr none A := by
    rcases lastOr_head_cases c2 with ⟨rfl, rfl⟩ | ⟨A1, rfl⟩
    · simp [lastOr]
    · have : x0 ≠ l.head := by
        intro e
        rw [List.nodup_cons] at hnd
        exact hnd.1 (by rw [e]; simp)
      rw [lastOr_append]; simp [this]
  have h5eq : (if x0 = l.head then h4.setBackward l.alloc none
      else h4.setBackward l.alloc (some x0)) = h4.setBackward l.alloc (lastOr none A) := by
    rw [← hb]; split_ifs <;> rfl
  rw [h5eq] at c11
  -- the final heap `hf` and tail `tl`
  have key : ∃ hf tl, insertNode l v lvl = some (l.alloc,
        { l with heap := hf, alloc := l.alloc + 1, level := max l.level lvl, tail := tl }) ∧
      (∀ p j, (hf p).lvl j = (h4 p).lvl j) ∧ hf.height = h4.height ∧ hf.val = h4.val ∧
      Back hf none (A ++ l.alloc :: B) ∧ tl = (A ++ l.alloc :: B).getLast? := by
    have hbA : Back l.heap none A ∧ Back l.heap (lastOr none A) B := (Back_append _ _ _).1 hs.back
    have hAx : ∀ p ∈ A, p ≠ l.alloc := fun p hp =>
      hxfresh p (List.mem_cons_of_mem _ (List.mem_append_left _ hp))
    have hBx : ∀ p ∈ B, p ≠ l.alloc := fun p hp =>
      hxfresh p (List.mem_cons_of_mem _ (List.mem_append_right _ hp))
    cases hBc : B with
    | nil =>
      subst hBc
      refine ⟨_, _, c11, fun p j => setBackward_lvl _ _ _ _ _, setBackward_height_fun _ _ _,
        funext (setBackward_val _ _ _), ?_, ?_⟩
      · rw [Back_append]
        refine ⟨Back_congr _ ?_ hbA.1, ?_, trivial⟩
        · intro p hp
          rw [setBackward_backward, if_neg (hAx p hp), (c5 p (hAx p hp)).2.2]
        · rw [setBackward_backward, if_pos rfl]
      · simp
    | cons y t =>
      subst hBc
      have hyx : y ≠ l.alloc := hBx y (List.mem_cons_self _ _)
      refine ⟨_, _, c11, fun p j => ?_, ?_, ?_, ?_, ?_⟩
      · rw [setBackward_lvl, setBackward_lvl]
      · rw [setBackward_height_fun, setBackward_height_fun]
      · funext p; rw [setBackward_val, setBackward_val]
      · have hnd2 : (A ++ y :: t).Nodup := (List.nodup_cons.1 hnd).2
        have hAy : ∀ p ∈ A, p ≠ y := by
          intro p hp e
          rw [List.nodup_append] at hnd2
          exact hnd2.2.2 hp (by rw [e]; simp)
        have hty : ∀ p ∈ t, p ≠ y := by
          intro p hp e
          rw [List.nodup_append] at hnd2
          exact (List.nodup_cons.1 hnd2.2.1).1 (e ▸ hp)
        rw [Back_append]
        refine ⟨Back_congr _ ?_ hbA.1, ?_, ?_, Back_congr _ ?_ hbA.2.2⟩
        · intro p hp
          rw [setBackward_backward, if_neg (hAy p hp), setBackward_backward, if_neg (hAx p hp),
            (c5 p (hAx p hp)).2.2]
        · rw [setBackward_backward, if_neg (Ne.symm hyx), setBackward_backward, if_pos rfl]
        · rw [setBackward_backward, if_pos rfl]
        · intro p hp
          have hpx := hBx p (List.mem_cons_of_mem _ hp)
          rw [setBackward_backward, if_neg (hty p hp), setBackward_backward, if_neg hpx,
            (c5 p hpx).2.2]
      · show l.tail = _
        rw [hs.tail_eq, ← lastOr_none, ← lastOr_none, lastOr_append_cons, lastOr_append_cons]
        rfl
  obtain ⟨hf, tl, k1, k2, k3, k4, k5, k6⟩ := key
  have hval : ∀ p ∈ A ++ B, hf.val p = l.heap.val p := by
    intro p hp
    rw [k4]; exact (c5 p (hxfresh p (List.mem_cons_of_mem _ hp))).2.1
  have hht : ∀ p ∈ l.head :: (A ++ B), hf.height p = l.heap.height p := by
    intro p hp
    rw [k3]; exact (c5 p (hxfresh p hp)).1
  have hmapA : A.map hf.val = A.map l.heap.val :=
    List.map_congr_left fun p hp => hval p (List.mem_append_left _ hp)
  have hmapB : B.map hf.val = B.map l.heap.val :=
    List.map_congr_left fun p hp => hval p (List.mem_append_right _ hp)
  have hvx : hf.val l.alloc = v := by rw [k4]; exact c7
  have hhx : hf.height l.alloc = lvl := by rw [k3]; exact c6
  refine ⟨A, B, _, rfl, k1, hA, hB, ?_, hvx, hval, rfl, rfl, rfl, hhx⟩
  have hmem : ∀ p, p ∈ A ++ l.alloc :: B → p = l.alloc ∨ p ∈ A ++ B := by
    intro p hp
    rcases List.mem_append.1 hp with h | h
    · exact Or.inr (List.mem_append_left _ h)
    · rcases List.mem_cons.1 h with h | h
      · exact Or.inl h
      · exact Or.inr (List.mem_append_right _ h)
  constructor
  · exact hs.cmp_eq
  · show hf.height l.head = maxLevel
    rw [hht _ (List.mem_cons_self _ _)]; exact hs.head_height
  · show 1 ≤ max l.level lvl
    omega
  · show max l.level lvl ≤ maxLevel
    have := hs.level_le
    omega
  · intro p hp
    show 1 ≤ hf.height p
    rcases hmem p hp with rfl | h
    · rw [hhx]; exact hl1
    · rw [hht p (List.mem_cons_of_mem _ h)]; exact hs.height_pos p h
  · intro p hp
    show hf.height p ≤ max l.level lvl
    rcases hmem p hp with rfl | h
    · rw [hhx]; omega
    · rw [hht p (List.mem_cons_of_mem _ h)]
      have := hs.height_le p h
      omega
  · show max l.level lvl = 1 ∨ ∃ p ∈ A ++ l.alloc :: B, hf.height p = max l.level lvl
    by_cases hc : l.level ≤ lvl
    · right
      exact ⟨l.alloc, by simp, by rw [hhx]; omega⟩
    · rcases hs.tight with h | ⟨p, hp, hph⟩
      · have := hs.level_pos; omega
      · right
        refine ⟨p, ?_, ?_⟩
        · rcases List.mem_append.1 hp with h | h
          · exact List.mem_append_left _ h
          · exact List.mem_append_right _ (List.mem_cons_of_mem _ h)
        · rw [hht p (List.mem_cons_of_mem _ hp), hph]; omega
  · show (l.head :: (A ++ l.alloc :: B)).Nodup
    have : l.head :: (A ++ l.alloc :: B) = (l.head :: A) ++ l.alloc :: B := by simp
    rw [this, List.nodup_middle, List.nodup_cons]
    refine ⟨?_, by simpa using hnd⟩
    intro hm
    exact hxfresh l.alloc (by simpa using hm) rfl
  · intro p hp
    show p < l.alloc + 1
    rcases List.mem_cons.1 hp with hp | hp
    · have := hs.lt_alloc p (by rw [hp]; exact List.mem_cons_self _ _); omega
    · rcases hmem p hp with rfl | h
      · omega
      · have := hs.lt_alloc p (List.mem_cons_of_mem _ h); omega
  · show (A ++ l.alloc :: B).length < l.alloc + 1
    have := hs.length_lt
    simp at this ⊢; omega
  · intro i hi
    show Links hf i (l.head :: (A ++ l.alloc :: B))
    refine Links_congr ?_ (c9 i hi)
    intro p _
    exact ⟨by rw [k3], k2 p i⟩
  · intro i hi1 hi2
    show hf.Next l.head i = some none
    have hi3 : max l.level lvl ≤ i := hi1
    have := hs.head_nil i (by omega) hi2
    unfold Heap.Next Node.Next at this ⊢
    rw [k2, c10 i hi3]; exact this
  · show ((A ++ l.alloc :: B).map hf.val).Pairwise Before
    have hsorted := hs.sorted
    rw [List.map_append, List.pairwise_append] at hsorted
    rw [List.map_append, List.map_cons, hmapA, hmapB, hvx, List.pairwise_append,
      List.pairwise_cons]
    refine ⟨hsorted.1, ⟨?_, hsorted.2.1⟩, ?_⟩
    · intro b hb
      obtain ⟨p, hp, rfl⟩ := List.mem_map.1 hb
      exact hB p hp
    · intro a ha b hb
      obtain ⟨p, hp, rfl⟩ := List.mem_map.1 ha
      rcases List.mem_cons.1 hb with rfl | hb
      · exact hA p hp
      · exact hsorted.2.2 _ ha _ hb
  · show ((A ++ l.alloc :: B).map fun p => Valuer.Key (hf.val p)).Nodup
    have hkn := hs.keys_nodup
    have e1 : (A ++ l.alloc :: B).map (fun p => Valuer.Key (hf.val p)) =
        A.map (fun p => Valuer.Key (l.heap.val p)) ++
          Valuer.Key v :: B.map (fun p => Valuer.Key (l.heap.val p)) := by
      rw [List.map_append, List.map_cons, hvx]
      congr 1
      · exact List.map_congr_left fun p hp => by rw [hval p (List.mem_append_left _ hp)]
      · congr 1
        exact List.map_congr_left fun p hp => by rw [hval p (List.mem_append_right _ hp)]
    rw [e1, List.nodup_middle, List.nodup_cons, ← List.map_append]
    refine ⟨?_, hkn⟩
    intro hm
    obtain ⟨p, hp, hpk⟩ := List.mem_map.1 hm
    exact hk p hp hpk
  · exact k5
  · exact k6

/-! ## Removal of a node -/

theorem shrink_spec (h : Heap V) (head : Nat) :
    ∀ n, 1 ≤ n → n ≤ h.height head →
      ∃ m, shrinkLevel h head n = some m ∧ 1 ≤ m ∧ m ≤ n ∧
        (∀ i, m ≤ i → i < n → h.Next head i = some none) ∧
        (m = 1 ∨ ∃ q, h.Next head (m - 1) = some (some q)) := by
  intro n
  induction n with
  | zero => intro h1; omega
  | succ n ih =>
    intro _ hn
    cases n with
    | zero =>
      exact ⟨1, rfl, le_refl _, le_refl _, fun i h1 h2 => by omega, Or.inl rfl⟩
    | succ n =>
      obtain ⟨lv, hlv⟩ := lvl_of_height (h := h) (p := head) (i := n + 1) (by omega)
      have hnx := Heap.Next_eq hlv
      cases hf : lv.forward with
      | none =>
        rw [hf] at hnx
        obtain ⟨m, e1, e2, e3, e4, e5⟩ := ih (by omega) (by omega)
        refine ⟨m, ?_, e2, by omega, ?_, e5⟩
        · simp only [shrinkLevel, hnx]; exact e1
        · intro i hi1 hi2
          by_cases hi : i = n + 1
          · rw [hi]; exact hnx
          · exact e4 i hi1 (by omega)
      | some q =>
        rw [hf] at hnx
        refine ⟨n + 2, ?_, by omega, le_refl _, fun i h1 h2 => by omega, Or.inr ⟨q, hnx⟩⟩
        simp only [shrinkLevel, hnx]

theorem unlink_shape [Valuer V] {l : SkipList V} {A B : List Nat} {x : Nat}
    {upd : Nat → Option Nat} {rk : Nat → Nat}
    (hs : Shape l (A ++ x :: B))
    (hupd : ∀ i, i < l.level → UpdOK l.heap.height (l.head :: A) upd rk i) :
    ∃ l1, unlink l x upd = some l1 ∧ Shape l1 (A ++ B) ∧ l1.heap.val = l.heap.val ∧
      l1.heap.height = l.heap.height ∧ l1.length = l.length ∧ l1.index = l.index ∧
      l1.alloc = l.alloc ∧ l1.head = l.head ∧ l1.level ≤ l.level := by
  have hnd := hs.nodup
  have hL : l.head :: (A ++ x :: B) = (l.head :: A) ++ x :: B := by simp
  rw [hL] at hnd
  have hnd2 : ((l.head :: A) ++ B).Nodup := by
    rw [List.nodup_middle] at hnd
    exact (List.nodup_cons.1 hnd).2
  have hxAB : x ∉ (l.head :: A) ++ B := by
    rw [List.nodup_middle] at hnd
    exact (List.nodup_cons.1 hnd).1
  have hxA : x ∉ l.head :: A := fun hm => hxAB (List.mem_append_left _ hm)
  have hU : ∀ j, j < l.level → ∃ u lu, upd j = some u ∧ u ≠ x ∧
      (l.heap u).lvl j = some lu ∧ (lu.forward = some x → j < l.heap.height x) := by
    intro j hj
    obtain ⟨pi, u, ri, e1, e2, e3, e4, e5⟩ := hupd j hj
    have hl := hs.links j hj
    rw [hL, e1] at hl
    have hls : Links l.heap j (u :: (ri ++ x :: B)) := Links_suffix pi (by simpa using hl)
    refine ⟨u, _, e2, ?_, hls.1 e3, ?_⟩
    · intro e; apply hxA; rw [e1, ← e]; simp
    · intro hf
      have hf2 : nextAt l.heap.height j (ri ++ x :: B) = some x := hf
      rw [nextAt_append_low _ e4] at hf2
      by_contra hc
      simp only [nextAt, hc, if_false] at hf2
      obtain ⟨a, b, hab, _, _⟩ := nextAt_some hf2
      exact hxAB (List.mem_append_right _ (by rw [hab]; simp))
  obtain ⟨h1, f1, f2, f3, f4, f5⟩ := unlinkLoop_spec x upd l.level 0 l.heap (by
    intro j _ hj
    exact hU j (by omega))
  have hh : h1.height = l.heap.height := f2.height_eq
  have hv : h1.val = l.heap.val := funext fun p => (f2 p).2.1
  have hlinks : ∀ i, i < l.level → Links h1 i ((l.head :: A) ++ B) := by
    intro i hi
    refine links_delete (hL ▸ hs.links i hi) hnd (hupd i hi) (fun p _ => (f2 p).1)
      (fun p _ hpu => f4 p i hpu) ?_
    intro u lu hu hlu
    exact f5 i u lu (by omega) (by omega) hu hlu
  have hpos : ∀ q ∈ B, 1 ≤ l.heap.height q := fun q hq =>
    hs.height_pos q (List.mem_append_right _ (List.mem_cons_of_mem _ hq))
  have hx0 : h1.Next x 0 = some B.head? := by
    obtain ⟨u, lu, e1, e2, _, _⟩ := hU 0 hs.level_pos
    have hxe : (h1 x).lvl 0 = (l.heap x).lvl 0 :=
      f4 x 0 (by rw [e1]; intro e; exact e2 (Option.some.inj e))
    have hl0 := hs.links 0 hs.level_pos
    rw [hL] at hl0
    have := (Links_suffix _ hl0).1 (hs.height_pos x (by simp))
    rw [nextAt_zero hpos] at this
    rw [← hxe] at this
    exact Heap.Next_eq this
  have hbk := (Back_append _ _ _).1 hs.back
  have hxb : (h1 x).backward = lastOr none A := by
    rw [(f2 x).2.2]; exact hbk.2.1
  -- the heap and the tail after the backward pointer is fixed
  have key : ∃ hf tl, (∀ m, shrinkLevel hf l.head l.level = some m →
        unlink l x upd = some { l with heap := hf, tail := tl, level := m }) ∧
      (∀ p j, (hf p).lvl j = (h1 p).lvl j) ∧ hf.height = h1.height ∧ hf.val = h1.val ∧
      Back hf none (A ++ B) ∧ tl = (A ++ B).getLast? := by
    have hbA : Back h1 none A := Back_congr _ (fun p _ => (f2 p).2.2) hbk.1
    cases hBc : B with
    | nil =>
      subst hBc
      refine ⟨h1, (h1 x).backward, ?_, fun _ _ => rfl, rfl, rfl, ?_, ?_⟩
      · intro m hm
        simp only [unlink, f1, Option.bind_eq_bind, Option.some_bind, hx0, List.head?_nil, hm]
      · simpa using hbA
      · rw [hxb, lastOr_none]; simp
    | cons y t =>
      subst hBc
      have hAy : ∀ p ∈ A, p ≠ y := by
        intro p hp e
        rw [List.nodup_append] at hnd2
        exact hnd2.2.2 (List.mem_cons_of_mem _ hp) (by rw [e]; simp)
      have hty : ∀ p ∈ t, p ≠ y := by
        intro p hp e
        rw [List.nodup_append] at hnd2
        exact (List.nodup_cons.1 hnd2.2.1).1 (e ▸ hp)
      refine ⟨h1.setBackward y (h1 x).backward, l.tail, ?_, fun p j => setBackward_lvl _ _ _ _ _,
        setBackward_height_fun _ _ _, funext (setBackward_val _ _ _), ?_, ?_⟩
      · intro m hm
        simp only [unlink, f1, Option.bind_eq_bind, Option.some_bind, hx0, List.head?_cons, hm]
      · rw [Back_append]
        refine ⟨Back_congr _ ?_ hbA, ?_, Back_congr _ ?_ hbk.2.2.2⟩
        · intro p hp
          rw [setBackward_backward, if_neg (hAy p hp)]
        · rw [setBackward_backward, if_pos rfl, hxb]
        · intro p hp
          rw [setBackward_backward, if_neg (hty p hp), (f2 p).2.2]
      · rw [hs.tail_eq, ← lastOr_none, ← lastOr_none, lastOr_append_cons, lastOr_append_cons]
        rfl
  obtain ⟨hf, tl, k1, k2, k3, k4, k5, k6⟩ := key
  have hfh : hf.height = l.heap.height := k3.trans hh
  have hfv : hf.val = l.heap.val := k4.trans hv
  obtain ⟨m, m1, m2, m3, m4, m5⟩ := shrink_spec hf l.head l.level hs.level_pos
    (by rw [hfh, hs.head_height]; exact hs.level_le)
  have hlf : ∀ i, i < l.level → Links hf i (l.head :: (A ++ B)) := by
    intro i hi
    refine Links_congr ?_ (hlinks i hi)
    intro p _
    exact ⟨by rw [k3], k2 p i⟩
  have hnext : ∀ i, i < l.level → hf.Next l.head i = some (nextAt l.heap.height i (A ++ B)) := by
    intro i hi
    have := (hlf i hi).1 (by rw [hfh, hs.head_height]; have := hs.level_le; omega)
    rw [Heap.Next_eq this, hfh]
  have hsub : ∀ p, p ∈ A ++ B → p ∈ A ++ x :: B := by
    intro p hp
    rcases List.mem_append.1 hp with h | h
    · exact List.mem_append_left _ h
    · exact List.mem_append_right _ (List.mem_cons_of_mem _ h)
  have hsl : (A ++ B).Sublist (A ++ x :: B) :=
    List.Sublist.append (List.Sublist.refl A) (List.sublist_cons_self x B)
  refine ⟨_, k1 m m1, ?_, hfv, hfh, rfl, rfl, rfl, rfl, m3⟩
  constructor
  · exact hs.cmp_eq
  · show hf.height l.head = maxLevel
    rw [hfh]; exact hs.head_height
  · exact m2
  · show m ≤ maxLevel
    have := hs.level_le; omega
  · intro p hp
    show 1 ≤ hf.height p
    rw [hfh]; exact hs.height_pos p (hsub p hp)
  · intro p hp
    show hf.height p ≤ m
    rw [hfh]
    by_cases hm : m < l.level
    · have h1' := m4 m (le_refl _) hm
      rw [hnext m hm] at h1'
      exact nextAt_none (Option.some.inj h1') p hp
    · have := hs.height_le p (hsub p hp)
      omega
  · show m = 1 ∨ ∃ p ∈ A ++ B, hf.height p = m
    rcases m5 with h | ⟨q, hq⟩
    · exact Or.inl h
    · by_cases hm1 : m = 1
      · exact Or.inl hm1
      · right
        rw [hnext (m - 1) (by omega)] at hq
        obtain ⟨a, b, hab, _, hqh⟩ := nextAt_some (Option.some.inj hq)
        have hqm : q ∈ A ++ B := by rw [hab]; simp
        refine ⟨q, hqm, ?_⟩
        rw [hfh]
        have hle : l.heap.height q ≤ m := by
          by_cases hm : m < l.level
          · have h1' := m4 m (le_refl _) hm
            rw [hnext m hm] at h1'
            exact nextAt_none (Option.some.inj h1') q hqm
          · have := hs.height_le q (hsub q hqm)
            omega
        omega
  · show (l.head :: (A ++ B)).Nodup
    simpa using hnd2
  · intro p hp
    show p < l.alloc
    rcases List.mem_cons.1 hp with hp | hp
    · exact hs.lt_alloc p (by rw [hp]; exact List.mem_cons_self _ _)
    · exact hs.lt_alloc p (List.mem_cons_of_mem _ (hsub p hp))
  · show (A ++ B).length < l.alloc
    have := hs.length_lt
    simp at this ⊢; omega
  · intro i hi
    have hi' : i < m := hi
    exact hlf i (by omega)
  · intro i hi1 hi2
    show hf.Next l.head i = some none
    have hi1' : m ≤ i := hi1
    by_cases hil : i < l.level
    · exact m4 i hi1 hil
    · have := hs.head_nil i (by omega) hi2
      unfold Heap.Next Node.Next at this ⊢
      rw [k2, f3 _ i (Or.inr (by omega))]; exact this
  · show ((A ++ B).map hf.val).Pairwise Before
    rw [hfv]
    exact hs.sorted.sublist (hsl.map _)
  · show ((A ++ B).map fun p => Valuer.Key (hf.val p)).Nodup
    rw [hfv]
    exact hs.keys_nodup.sublist (hsl.map _)
  · exact k5
  · exact k6

/-! ## Traversal, and the invariant under `Insert` and `Delete` -/

theorem Shape.congr [Valuer V] {l l1 : SkipList V} {ps : List Nat} (hs : Shape l ps)
    (h1 : l1.heap = l.heap) (h2 : l1.alloc = l.alloc) (h3 : l1.head = l.head)
    (h4 : l1.tail = l.tail) (h5 : l1.level = l.level) (h6 : l1.cmp = l.cmp) : Shape l1 ps := by
  obtain ⟨a1, a2, a3, a4, a5, a6, a7, a8, a9, a10, a11, a12, a13, a14, a15, a16⟩ := hs
  constructor
  all_goals simp only [h1, h2, h3, h4, h5, h6]
  all_goals assumption

theorem visit_true (vs : List V) : visit (fun _ => true) vs = vs := by
  induction vs with
  | nil => rfl
  | cons v t ih => simp [visit, ih]

theorem rangeLoop_spec (h : Heap V) (f : V → Bool) :
    ∀ (B : List Nat) (fuel : Nat), Links h 0 B → (∀ q ∈ B, 1 ≤ h.height q) → B.length < fuel →
      rangeLoop h f fuel B.head? = some (visit f (B.map h.val)) := by
  intro B
  induction B with
  | nil =>
    intro fuel _ _ hf
    cases fuel with
    | zero => simp at hf
    | succ n => rfl
  | cons e t ih =>
    intro fuel hl hpos hf
    cases fuel with
    | zero => simp at hf
    | succ n =>
      have hpt : ∀ q ∈ t, 1 ≤ h.height q := fun q hq => hpos q (List.mem_cons_of_mem _ hq)
      have he := hl.1 (hpos e (List.mem_cons_self _ _))
      rw [nextAt_zero hpt] at he
      have hn := Heap.Next_eq he
      simp only at hn
      have := ih n hl.2 hpt (by simp at hf; omega)
      simp only [List.head?_cons, rangeLoop, hn, this, List.map_cons, visit, Heap.val,
        Option.map_some']
      split_ifs <;> rfl

theorem Shape.Range_eq [Valuer V] {l : SkipList V} {ps : List Nat} (hs : Shape l ps)
    (f : V → Bool) : l.Range f = some (visit f (ps.map l.heap.val)) := by
  have hl := hs.links 0 hs.level_pos
  have he := hl.1 (by rw [hs.head_height]; decide)
  rw [nextAt_zero hs.height_pos] at he
  have hn := Heap.Next_eq he
  simp only at hn
  simp only [SkipList.Range, hn]
  exact rangeLoop_spec l.heap f ps l.alloc hl.2 hs.height_pos hs.length_lt

theorem Shape.traversal_eq [Valuer V] {l : SkipList V} {ps : List Nat} (hs : Shape l ps) :
    l.traversal = some (ps.map l.heap.val) := by
  unfold SkipList.traversal
  rw [hs.Range_eq, visit_true]

theorem search_delete [Valuer V] {l : SkipList V} {ps : List Nat} (hs : Shape l ps) {p : Nat}
    (hp : p ∈ ps) :
    ∃ A B x0 upd rk, ps = A ++ p :: B ∧
      search l.heap (fun _ next => l.cmp.before next (l.heap.val p)) l.alloc l.level l.head 0
        (fun _ => none) (fun _ => 0) = some (x0, upd, rk) ∧
      l.heap.Next x0 0 = some (some p) ∧
      (∀ i, i < l.level → UpdOK l.heap.height (l.head :: A) upd rk i) := by
  obtain ⟨A, B, x0, upd, rk, c1, c2, c3, c4, _, c6, c7, c8, c9⟩ :=
    search_shape hs (fun _ next => l.cmp.before next (l.heap.val p))
  subst c1
  obtain ⟨hA, hB⟩ := search_before_split hs c3 c6 c7
  have hsorted := hs.sorted
  rw [List.map_append, List.pairwise_append] at hsorted
  have hpB : p ∈ B := by
    rcases List.mem_append.1 hp with h | h
    · exact absurd (hA p h) (Before.irrefl _)
    · exact h
  have hBp : ∃ t, B = p :: t := by
    cases B with
    | nil => simp at hpB
    | cons q t =>
      rcases List.mem_cons.1 hpB with h | h
      · exact ⟨t, by rw [h]⟩
      · have h1 := hsorted.2.1
        rw [List.map_cons, List.pairwise_cons] at h1
        exact absurd (h1.1 _ (List.mem_map_of_mem _ h)) (hB q (List.mem_cons_self _ _))
  obtain ⟨t, rfl⟩ := hBp
  refine ⟨A, t, x0, upd, rk, rfl, c2, ?_, c4⟩
  -- the level-0 successor of the node reached
  obtain ⟨pf, hpf⟩ := lastOr_some_mem c3
  have hl0 := hs.links 0 hs.level_pos
  have e : l.head :: (A ++ p :: t) = pf ++ x0 :: (p :: t) := by
    have : l.head :: (A ++ p :: t) = (l.head :: A) ++ p :: t := by simp
    rw [this, hpf]; simp
  rw [e] at hl0
  have hx0 : 1 ≤ l.heap.height x0 := by
    have hm : x0 ∈ l.head :: A := by rw [hpf]; simp
    rcases List.mem_cons.1 hm with h | h
    · rw [h, hs.head_height]; decide
    · exact hs.height_pos x0 (List.mem_append_left _ h)
  have he := (Links_suffix pf hl0).1 hx0
  have hpos : ∀ q ∈ p :: t, 1 ≤ l.heap.height q := fun q hq =>
    hs.height_pos q (List.mem_append_right _ hq)
  rw [nextAt_zero hpos] at he
  exact Heap.Next_eq he

theorem randomLevelLoop_bounds (rand : Nat → Nat) :
    ∀ (fuel k level : Nat), level ≤ maxLevel →
      level ≤ randomLevelLoop rand fuel k level ∧ randomLevelLoop rand fuel k level ≤ maxLevel := by
  intro fuel
  induction fuel with
  | zero => intro k level h; exact ⟨le_refl _, h⟩
  | succ n ih =>
    intro k level h
    unfold randomLevelLoop
    split_ifs with hc
    · have := ih (k + 1) (level + 1) (by omega)
      exact ⟨by omega, this.2⟩
    · exact ⟨le_refl _, h⟩

theorem randomLevel_bounds (rand : Nat → Nat) :
    1 ≤ randomLevel rand ∧ randomLevel rand ≤ maxLevel :=
  randomLevelLoop_bounds rand maxLevel 0 1 (by decide)

theorem NewSkipList_inv [Valuer V] [Inhabited V] :
    Inv (NewSkipList (cmp V)) [] ∧ (NewSkipList (cmp V)).length = 0 := by
  have hlv : ∀ i, i < maxLevel →
      ((NewSkipList (cmp V)).heap (NewSkipList (cmp V)).head).lvl i = some ⟨none, 0⟩ :=
    fun i hi => NewNode_lvl maxLevel default hi
  refine ⟨⟨⟨rfl, ?_, le_refl _, by simp [NewSkipList, maxLevel], by simp, by simp, Or.inl rfl,
    by simp, ?_, by simp [NewSkipList],
    ?_, ?_, by simp, by simp, trivial, rfl⟩, ?_, rfl⟩, rfl⟩
  · simp [NewSkipList, Heap.height, NewNode]
  · intro p hp
    simp only [List.mem_singleton] at hp
    rw [hp]; simp [NewSkipList]
  · intro i hi
    have hi' : i < 1 := hi
    refine ⟨fun _ => ?_, trivial⟩
    rw [hlv i (by unfold maxLevel; omega)]
    rfl
  · intro i _ hi
    exact Heap.Next_eq (hlv i hi)
  · intro k v
    simp [NewSkipList]

theorem Inv.key_ne [Valuer V] {l : SkipList V} {ps : List Nat} (hi : Inv l ps) {k : Nat}
    (hk : l.index k = none) : ∀ p ∈ ps, Valuer.Key (l.heap.val p) ≠ k := by
  intro p hp e
  have := (hi.index_iff k (l.heap.val p)).2 ⟨p, hp, rfl, e⟩
  rw [hk] at this; cases this

theorem Inv.insert [Valuer V] {l l1 : SkipList V} {A B : List Nat} {v : V}
    (hi : Inv l (A ++ B)) (hs : Shape l1 (A ++ l.alloc :: B))
    (hk : l.index (Valuer.Key v) = none)
    (hv : l1.heap.val l.alloc = v) (hvs : ∀ p ∈ A ++ B, l1.heap.val p = l.heap.val p)
    {len : Int} (hlen : len % (M32 : Int) = (l.length + 1) % (M32 : Int)) :
    Inv { l1 with length := len, index := Function.update l.index (Valuer.Key v) (some v) }
      (A ++ l.alloc :: B) := by
  refine ⟨hs.congr rfl rfl rfl rfl rfl rfl, ?_, ?_⟩
  · intro k w
    show Function.update l.index (Valuer.Key v) (some v) k = some w ↔
      ∃ p ∈ A ++ l.alloc :: B, l1.heap.val p = w ∧ Valuer.Key w = k
    by_cases hkv : k = Valuer.Key v
    · subst hkv
      rw [Function.update_same]
      constructor
      · intro e
        cases e
        exact ⟨l.alloc, by simp, hv, rfl⟩
      · rintro ⟨p, hp, e1, e2⟩
        rcases List.mem_append.1 hp with h | h
        · have hp' : p ∈ A ++ B := List.mem_append_left _ h
          rw [hvs p hp'] at e1
          exact absurd (e1 ▸ e2) (hi.key_ne hk p hp')
        · rcases List.mem_cons.1 h with h | h
          · rw [h, hv] at e1; rw [e1]
          · have hp' : p ∈ A ++ B := List.mem_append_right _ h
            rw [hvs p hp'] at e1
            exact absurd (e1 ▸ e2) (hi.key_ne hk p hp')
    · rw [Function.update_noteq hkv, hi.index_iff]
      constructor
      · rintro ⟨p, hp, e1, e2⟩
        refine ⟨p, ?_, by rw [hvs p hp]; exact e1, e2⟩
        rcases List.mem_append.1 hp with h | h
        · exact List.mem_append_left _ h
        · exact List.mem_append_right _ (List.mem_cons_of_mem _ h)
      · rintro ⟨p, hp, e1, e2⟩
        rcases List.mem_append.1 hp with h | h
        · have hp' : p ∈ A ++ B := List.mem_append_left _ h
          exact ⟨p, hp', by rw [← hvs p hp']; exact e1, e2⟩
        · rcases List.mem_cons.1 h with h | h
          · rw [h, hv] at e1
            exact absurd (e1 ▸ e2).symm hkv
          · have hp' : p ∈ A ++ B := List.mem_append_right _ h
            exact ⟨p, hp', by rw [← hvs p hp']; exact e1, e2⟩
  · show len % (M32 : Int) = ((A ++ l.alloc :: B).length : Int) % (M32 : Int)
    have := hi.length_mod
    rw [hlen]
    simp only [List.length_append, List.length_cons, Nat.cast_add, Nat.cast_one] at this ⊢
    unfold M32 at *
    omega

theorem Inv.delete [Valuer V] {l l1 : SkipList V} {A B : List Nat} {p : Nat}
    (hi : Inv l (A ++ p :: B)) (hs : Shape l1 (A ++ B))
    (hv : l1.heap.val = l.heap.val)
    {len : Int} (hlen : len % (M32 : Int) = (l.length - 1) % (M32 : Int)) :
    Inv { l1 with length := len
                  index := Function.update l.index (Valuer.Key (l.heap.val p)) none }
      (A ++ B) := by
  have hkn := hi.keys_nodup
  rw [List.map_append, List.map_cons, List.nodup_middle, List.nodup_cons, ← List.map_append] at hkn
  have hne : ∀ q ∈ A ++ B, Valuer.Key (l.heap.val q) ≠ Valuer.Key (l.heap.val p) := by
    intro q hq e
    exact hkn.1 (by rw [← e]; exact List.mem_map_of_mem (fun p => Valuer.Key (l.heap.val p)) hq)
  refine ⟨hs.congr rfl rfl rfl rfl rfl rfl, ?_, ?_⟩
  · intro k w
    show Function.update l.index (Valuer.Key (l.heap.val p)) none k = some w ↔
      ∃ q ∈ A ++ B, l1.heap.val q = w ∧ Valuer.Key w = k
    rw [hv]
    by_cases hkv : k = Valuer.Key (l.heap.val p)
    · subst hkv
      rw [Function.update_same]
      constructor
      · intro e; cases e
      · rintro ⟨q, hq, e1, e2⟩
        exact absurd (e1 ▸ e2) (hne q hq)
    · rw [Function.update_noteq hkv, hi.index_iff]
      constructor
      · rintro ⟨q, hq, e1, e2⟩
        refine ⟨q, ?_, e1, e2⟩
        rcases List.mem_append.1 hq with h | h
        · exact List.mem_append_left _ h
        · rcases List.mem_cons.1 h with h | h
          · rw [h] at e1
            exact absurd (e1 ▸ e2).symm hkv
          · exact List.mem_append_right _ h
      · rintro ⟨q, hq, e1, e2⟩
        refine ⟨q, ?_, e1, e2⟩
        rcases List.mem_append.1 hq with h | h
        · exact List.mem_append_left _ h
        · exact List.mem_append_right _ (List.mem_cons_of_mem _ h)
  · show len % (M32 : Int) = ((A ++ B).length : Int) % (M32 : Int)
    have := hi.length_mod
    rw [hlen]
    simp only [List.length_append, List.length_cons, Nat.cast_add, Nat.cast_one] at this ⊢
    unfold M32 at *
    omega

theorem SkipList.Insert_absent [Valuer V] {l : SkipList V} {ps : List Nat} (hi : Inv l ps)
    (v : V) (rand : Nat → Nat) (hk : l.index (Valuer.Key v) = none) :
    ∃ A B l1, ps = A ++ B ∧ l.Insert v rand = some (.ok l.alloc, l1) ∧
      Inv l1 (A ++ l.alloc :: B) ∧ l1.length = l.length + 1 ∧
      (∀ p ∈ A, Before (l.heap.val p) v) ∧ (∀ p ∈ B, Before v (l.heap.val p)) ∧
      l1.heap.val l.alloc = v ∧ (∀ p ∈ ps, l1.heap.val p = l.heap.val p) ∧
      l1.index = Function.update l.index (Valuer.Key v) (some v) ∧
      l1.level = max l.level (randomLevel rand) := by
  obtain ⟨A, B, l1, e1, e2, e3, e4, e5, e6, e7, e8, e9, e10, _⟩ :=
    insertNode_shape hi.toShape v (hi.key_ne hk) (randomLevel_bounds rand).1
      (randomLevel_bounds rand).2 hi.length_mod
  subst e1
  refine ⟨A, B, { l1 with
      length := l1.length + 1
      index := Function.update l1.index (Valuer.Key v) (some v) }, rfl, ?_, ?_, ?_, e3, e4, e6,
    e7, ?_, e10⟩
  · simp only [SkipList.Insert, hk, e2]
  · rw [e9, e8]
    exact Inv.insert hi e5 hk e6 e7 rfl
  · show l1.length + 1 = l.length + 1
    rw [e8]
  · show Function.update l1.index _ _ = _
    rw [e9]

theorem SkipList.Insert_present [Valuer V] {l : SkipList V} (v : V) (rand : Nat → Nat) {w : V}
    (hk : l.index (Valuer.Key v) = some w) :
    l.Insert v rand = some (.error .RepeatedKey, l) := by
  simp only [SkipList.Insert, hk]

theorem delete_search [Valuer V] {l : SkipList V} {ps : List Nat} (hi : Inv l ps) {k : Nat} {v : V}
    (hk : l.index k = some v) :
    ∃ A B p x0 upd rk l1, ps = A ++ p :: B ∧ l.heap.val p = v ∧ Valuer.Key v = k ∧
      search l.heap (fun _ next => l.cmp.before next v) l.alloc l.level l.head 0
        (fun _ => none) (fun _ => 0) = some (x0, upd, rk) ∧
      l.heap.Next x0 0 = some (some p) ∧
      (l.cmp.CmpKey (l.heap p).value v = 0 ∧ l.cmp.CmpScore (l.heap p).value v = 0) ∧
      unlink l p upd = some l1 ∧ Shape l1 (A ++ B) ∧ l1.heap.val = l.heap.val ∧
      l1.heap.height = l.heap.height ∧ l1.length = l.length ∧ l1.index = l.index ∧
      l1.level ≤ l.level := by
  obtain ⟨p, hp, hv, hkv⟩ := (hi.index_iff k v).1 hk
  obtain ⟨A, B, x0, upd, rk, c1, c2, c3, c4⟩ := search_delete hi.toShape hp
  subst c1
  obtain ⟨l1, d1, d2, d3, d4, d5, d6, _, _, d9⟩ := unlink_shape hi.toShape c4
  rw [hv] at c2
  refine ⟨A, B, p, x0, upd, rk, l1, rfl, hv, hkv, c2, c3, ?_, d1, d2, d3, d4, d5, d6, d9⟩
  have : (l.heap p).value = v := hv
  rw [this, hi.cmp_eq, cmp_key_zero, cmp_score_zero]
  exact ⟨rfl, rfl⟩

theorem SkipList.Delete_present [Valuer V] {l : SkipList V} {ps : List Nat} (hi : Inv l ps)
    {k : Nat} {v : V} (hk : l.index k = some v) :
    ∃ A B p l1, ps = A ++ p :: B ∧ l.heap.val p = v ∧ Valuer.Key v = k ∧
      l.Delete k = some (1, l1) ∧ Inv l1 (A ++ B) ∧ l1.length = l.length - 1 ∧
      l1.heap.val = l.heap.val ∧ l1.index = Function.update l.index k none ∧
      l1.level ≤ l.level := by
  obtain ⟨A, B, p, x0, upd, rk, l1, c1, c2, c3, c4, c5, c6, c7, c8, c9, _, c11, c12, c13⟩ :=
    delete_search hi hk
  subst c1
  refine ⟨A, B, p, { l1 with
      length := l1.length - 1
      index := Function.update l1.index (Valuer.Key v) none }, rfl, c2, c3, ?_, ?_, ?_, c9, ?_,
    c13⟩
  · simp only [SkipList.Delete, hk, c4, Option.bind_eq_bind, Option.some_bind, c5, c6, and_self,
      if_true, SkipList.deleteNode, c7, Option.map_some']
  · have := @Inv.delete _ _ l l1 A B p hi c8 c9 (l1.length - 1) (by rw [c11])
    rw [c2, ← c12] at this
    exact this
  · show l1.length - 1 = l.length - 1
    rw [c11]
  · show Function.update l1.index _ none = _
    rw [c12, c3]

theorem SkipList.Delete_absent [Valuer V] {l : SkipList V} {k : Nat} (hk : l.index k = none) :
    l.Delete k = some (0, l) := by
  simp only [SkipList.Delete, hk]

theorem SkipList.Reachable.inv [Valuer V] [Inhabited V] {l : SkipList V}
    (hr : SkipList.Reachable l) : ∃ ps, Inv l ps ∧ l.length = ps.length := by
  induction hr with
  | new => exact ⟨[], NewSkipList_inv.1, NewSkipList_inv.2⟩
  | @insert l v rand r _ hins ih =>
    obtain ⟨ps, hi, hlen⟩ := ih
    cases hk : l.index (Valuer.Key v) with
    | some w =>
      rw [SkipList.Insert_present v rand hk] at hins
      cases hins
      exact ⟨ps, hi, hlen⟩
    | none =>
      obtain ⟨A, B, l1, e1, e2, e3, e4, _⟩ := SkipList.Insert_absent hi v rand hk
      rw [e2] at hins
      cases hins
      refine ⟨_, e3, ?_⟩
      rw [e4, hlen, e1]
      simp only [List.length_append, List.length_cons, Nat.cast_add, Nat.cast_one]
      omega
  | @delete l k r _ hdel ih =>
    obtain ⟨ps, hi, hlen⟩ := ih
    cases hk : l.index k with
    | none =>
      rw [SkipList.Delete_absent hk] at hdel
      cases hdel
      exact ⟨ps, hi, hlen⟩
    | some v =>
      obtain ⟨A, B, p, l1, e1, _, _, e4, e5, e6, _⟩ := SkipList.Delete_present hi hk
      rw [e4] at hdel
      cases hdel
      refine ⟨_, e5, ?_⟩
      rw [e6, hlen, e1]
      simp only [List.length_append, List.length_cons, Nat.cast_add, Nat.cast_one]
      omega

/-! ## Sample states -/

theorem SkipList.Reachable.afterInsert [Valuer V] [Inhabited V] {l : SkipList V}
    (hr : SkipList.Reachable l) (v : V) (rand : Nat → Nat) :
    SkipList.Reachable (l.afterInsert v rand) := by
  unfold SkipList.afterInsert
  cases h : l.Insert v rand with
  | none => exact hr
  | some r => exact SkipList.Reachable.insert hr h

theorem sampleList_reachable : SkipList.Reachable sampleList :=
  ((((SkipList.Reachable.new).afterInsert _ _).afterInsert _ _).afterInsert _ _).afterInsert _ _

theorem rankList_reachable : SkipList.Reachable rankList :=
  ((SkipList.Reachable.new).afterInsert _ _).afterInsert _ _

theorem Set_reachable_afterInsert [ReValuer V] [Inhabited V] {l : Set V}
    (hr : Set.Reachable l) (v : V) (rand : Nat → Nat) :
    Set.Reachable (Set.afterInsert l v rand) := by
  unfold Set.afterInsert
  cases h : Set.Insert l v rand with
  | none => exact hr
  | some r => exact Set.Reachable.insert hr h

theorem sampleSet_reachable : Set.Reachable sampleSet :=
  Set_reachable_afterInsert (Set_reachable_afterInsert (Set_reachable_afterInsert
    (Set_reachable_afterInsert Set.Reachable.new _ _) _ _) _ _) _ _

/-! ## The claims about `SkipList` -/

theorem visit_sublist (f : V → Bool) (vs : List V) : (visit f vs).Sublist vs := by
  induction vs with
  | nil => exact List.Sublist.refl _
  | cons v t ih =>
    unfold visit
    split_ifs
    · exact ih.cons₂ v
    · exact (List.nil_sublist t).cons₂ v

theorem Inv.index_none_iff [Valuer V] {l : SkipList V} {ps : List Nat} (hi : Inv l ps) (k : Nat) :
    l.index k = none ↔ ∀ w ∈ ps.map l.heap.val, Valuer.Key w ≠ k := by
  constructor
  · intro h w hw
    obtain ⟨p, hp, rfl⟩ := List.mem_map.1 hw
    exact hi.key_ne h p hp
  · intro h
    cases hk : l.index k with
    | none => rfl
    | some v =>
      obtain ⟨p, hp, e1, e2⟩ := (hi.index_iff k v).1 hk
      exact absurd e2 (h v (e1 ▸ List.mem_map_of_mem _ hp))

theorem Inv.index_some_of_mem [Valuer V] {l : SkipList V} {ps : List Nat} (hi : Inv l ps)
    {w : V} (hw : w ∈ ps.map l.heap.val) : l.index (Valuer.Key w) = some w := by
  obtain ⟨p, hp, rfl⟩ := List.mem_map.1 hw
  exact (hi.index_iff _ _).2 ⟨p, hp, rfl, rfl⟩

/-- C1: along every list reachable from `NewSkipList` by `Insert` and `Delete`
(with any heights drawn by `randomLevel` and the comparator of the tests), the
values that `Range` hands to its callback are in ascending order: each adjacent
pair `(a, b)` satisfies `(a.Score, a.Key) <= (b.Score, b.Key)` lexicographically,
and in particular the scores seen are non-decreasing. -/
theorem range_ascending [Valuer V] [Inhabited V] (l : SkipList V)
    (hr : SkipList.Reachable l) (f : V → Bool) :
    ∃ vs, l.Range f = some vs ∧ vs.Chain' LexLE ∧
      vs.Chain' (fun a b => Valuer.Score a ≤ Valuer.Score b) := by
  obtain ⟨ps, hi, _⟩ := hr.inv
  refine ⟨_, hi.toShape.Range_eq f, ?_, ?_⟩
  · apply List.Pairwise.chain'
    exact (hi.sorted.sublist (visit_sublist f _)).imp fun h => h.lexLE
  · apply List.Pairwise.chain'
    refine (hi.sorted.sublist (visit_sublist f _)).imp fun {a b} h => ?_
    unfold Before at h
    omega

/-- Witness of C1: the full traversal of the four-element list. -/
theorem range_ascending_witness :
    SkipList.Reachable sampleList ∧
      ∃ vs : List value, sampleList.Range (fun _ => true) = some vs ∧
        vs.Chain' LexLE ∧ vs.Chain' (fun a b => Valuer.Score a ≤ Valuer.Score b) :=
  ⟨sampleList_reachable, range_ascending sampleList sampleList_reachable (fun _ => true)⟩

/-- C2: on a reachable list, `Insert(v)` of a value whose key is not in the list
returns a nil error and a node holding `v`, `Length` grows by exactly 1, and the
traversal afterwards is the previous one with `v` inserted at the position that
keeps it ascending by `(Score, Key)`: after the values before `v`, before the
values after `v`.  This holds for every height drawn by `randomLevel`. -/
theorem Insert_new_key [Valuer V] [Inhabited V] (l : SkipList V)
    (hr : SkipList.Reachable l) (v : V) (rand : Nat → Nat) (ts : List V)
    (hts : l.traversal = some ts) (hk : ∀ w ∈ ts, Valuer.Key w ≠ Valuer.Key v) :
    ∃ x l1 A B, l.Insert v rand = some (.ok x, l1) ∧ (l1.heap x).value = v ∧
      l1.Length = l.Length + 1 ∧ ts = A ++ B ∧ l1.traversal = some (A ++ v :: B) ∧
      (∀ a ∈ A, Before a v) ∧ (∀ b ∈ B, Before v b) := by
  obtain ⟨ps, hi, _⟩ := hr.inv
  rw [hi.toShape.traversal_eq] at hts
  cases hts
  have hk0 := (hi.index_none_iff _).2 hk
  obtain ⟨A, B, l1, e1, e2, e3, e4, e5, e6, e7, e8, _⟩ := SkipList.Insert_absent hi v rand hk0
  subst e1
  refine ⟨l.alloc, l1, A.map l.heap.val, B.map l.heap.val, e2, e7, e4, by simp, ?_, ?_, ?_⟩
  · rw [e3.toShape.traversal_eq, List.map_append, List.map_cons]
    have hA : A.map l1.heap.val = A.map l.heap.val :=
      List.map_congr_left fun p hp => e8 p (List.mem_append_left _ hp)
    have hB : B.map l1.heap.val = B.map l.heap.val :=
      List.map_congr_left fun p hp => e8 p (List.mem_append_right _ hp)
    rw [hA, hB, e7]
  · intro a ha
    obtain ⟨p, hp, rfl⟩ := List.mem_map.1 ha
    exact e5 p hp
  · intro b hb
    obtain ⟨p, hp, rfl⟩ := List.mem_map.1 hb
    exact e6 p hp

/-- Witness of C2: key 5 with score 10 and a tower of height 2 inserted into the
four-element list. -/
theorem Insert_new_key_witness :
    SkipList.Reachable sampleList ∧
      ∃ ts : List value, sampleList.traversal = some ts ∧
        (∀ w ∈ ts, Valuer.Key w ≠ 5) ∧
        ∃ (x : Nat) (l1 : SkipList value) (A B : List value),
          sampleList.Insert ⟨5, 10⟩ (drawsFor 2) = some (.ok x, l1) ∧
          (l1.heap x).value = ⟨5, 10⟩ ∧ l1.Length = sampleList.Length + 1 ∧ ts = A ++ B ∧
          l1.traversal = some (A ++ (⟨5, 10⟩ : value) :: B) ∧
          (∀ a ∈ A, Before a (⟨5, 10⟩ : value)) ∧ (∀ b ∈ B, Before (⟨5, 10⟩ : value) b) := by
  have h : sampleList.traversal = some [⟨3, 8⟩, ⟨1, 10⟩, ⟨2, 10⟩, ⟨4, 11⟩] := by
    set_option maxRecDepth 100000 in decide
  have hk : ∀ w ∈ [(⟨3, 8⟩ : value), ⟨1, 10⟩, ⟨2, 10⟩, ⟨4, 11⟩],
      Valuer.Key w ≠ Valuer.Key (⟨5, 10⟩ : value) := by decide
  exact ⟨sampleList_reachable, _, h, hk,
    Insert_new_key sampleList sampleList_reachable ⟨5, 10⟩ (drawsFor 2) _ h hk⟩

/-- C3: on a reachable list, `Insert(v)` of a value whose key is already in the
list (whatever the score of `v`) returns `(nil, RepeatedKey)` and changes
nothing: `Length`, the traversal, the key index and the level are as before. -/
theorem Insert_repeated_key [Valuer V] [Inhabited V] (l : SkipList V)
    (hr : SkipList.Reachable l) (v : V) (rand : Nat → Nat) (ts : List V)
    (hts : l.traversal = some ts) (hk : ∃ w ∈ ts, Valuer.Key w = Valuer.Key v) :
    ∃ l1, l.Insert v rand = some (.error .RepeatedKey, l1) ∧ l1 = l ∧ l1.Length = l.Length ∧
      l1.traversal = some ts ∧ l1.index = l.index ∧ l1.Level = l.Level := by
  obtain ⟨ps, hi, _⟩ := hr.inv
  rw [hi.toShape.traversal_eq] at hts
  cases hts
  obtain ⟨w, hw, hwk⟩ := hk
  have := hi.index_some_of_mem hw
  rw [hwk] at this
  exact ⟨l, SkipList.Insert_present v rand this, rfl, rfl, hi.toShape.traversal_eq, rfl, rfl⟩

set_option maxRecDepth 100000 in
/-- Witness of C3: a second element with key 3 (and another score) offered to
the four-element list. -/
theorem Insert_repeated_key_witness :
    SkipList.Reachable sampleList ∧
      sampleList.traversal = some [⟨3, 8⟩, ⟨1, 10⟩, ⟨2, 10⟩, ⟨4, 11⟩] ∧
      ∃ l1, sampleList.Insert ⟨3, 50⟩ (drawsFor 4) = some (.error .RepeatedKey, l1) ∧
        l1 = sampleList ∧ l1.Length = sampleList.Length ∧
        l1.traversal = some [⟨3, 8⟩, ⟨1, 10⟩, ⟨2, 10⟩, ⟨4, 11⟩] ∧
        l1.index = sampleList.index ∧ l1.Level = sampleList.Level :=
  ⟨sampleList_reachable, by decide,
    Insert_repeated_key sampleList sampleList_reachable ⟨3, 50⟩ (drawsFor 4) _ (by decide)
      ⟨⟨3, 8⟩, by simp, rfl⟩⟩

/-- C4: on a reachable list, `Delete(k)` of a key that is in the list returns 1
(the check of the level-0 successor succeeds), `Length` shrinks by exactly 1,
`k` leaves the key index, and the traversal afterwards is the previous one with
exactly the element of key `k` removed, the other elements keeping their
order. -/
theorem Delete_present_key [Valuer V] [Inhabited V] (l : SkipList V)
    (hr : SkipList.Reachable l) (k : Nat) (ts : List V)
    (hts : l.traversal = some ts) (hk : ∃ w ∈ ts, Valuer.Key w = k) :
    ∃ l1 A w B, l.Delete k = some (1, l1) ∧ l1.Length = l.Length - 1 ∧ l1.index k = none ∧
      ts = A ++ w :: B ∧ Valuer.Key w = k ∧ l1.traversal = some (A ++ B) ∧
      (∀ u ∈ A ++ B, Valuer.Key u ≠ k) := by
  obtain ⟨ps, hi, _⟩ := hr.inv
  rw [hi.toShape.traversal_eq] at hts
  cases hts
  obtain ⟨w, hw, hwk⟩ := hk
  have hidx := hi.index_some_of_mem hw
  rw [hwk] at hidx
  obtain ⟨A, B, p, l1, e1, e2, _, e4, e5, e6, e7, e8, _⟩ := SkipList.Delete_present hi hidx
  subst e1
  have hnone : l1.index k = none := by rw [e8, Function.update_same]
  have htr : l1.traversal = some (A.map l.heap.val ++ B.map l.heap.val) := by
    rw [e5.toShape.traversal_eq, e7, List.map_append]
  refine ⟨l1, A.map l.heap.val, w, B.map l.heap.val, e4, e6, hnone, ?_, hwk, htr, ?_⟩
  · rw [List.map_append, List.map_cons, e2]
  · have := (e5.index_none_iff k).1 hnone
    rw [e7, List.map_append] at this
    exact this

set_option maxRecDepth 100000 in
/-- Witness of C4: key 1 removed from the four-element list. -/
theorem Delete_present_key_witness :
    SkipList.Reachable sampleList ∧
      sampleList.traversal = some [⟨3, 8⟩, ⟨1, 10⟩, ⟨2, 10⟩, ⟨4, 11⟩] ∧
      ∃ (l1 : SkipList value) (A : List value) (w : value) (B : List value),
        sampleList.Delete 1 = some (1, l1) ∧ l1.Length = sampleList.Length - 1 ∧
        l1.index 1 = none ∧ [⟨3, 8⟩, ⟨1, 10⟩, ⟨2, 10⟩, ⟨4, 11⟩] = A ++ w :: B ∧
        Valuer.Key w = 1 ∧ l1.traversal = some (A ++ B) ∧ (∀ u ∈ A ++ B, Valuer.Key u ≠ 1) :=
  ⟨sampleList_reachable, by decide,
    Delete_present_key sampleList sampleList_reachable 1 _ (by decide) ⟨⟨1, 10⟩, by simp, rfl⟩⟩

/-- C5: on a reachable list, `Delete(k)` of a key that is not in the list
returns 0 and changes nothing (`Length`, traversal, key index and level), so
deleting an absent key twice returns 0 both times; and a `Delete(k)` that
follows any `Delete(k)` returns 0 and changes nothing. -/
theorem Delete_absent_key [Valuer V] [Inhabited V] (l : SkipList V)
    (hr : SkipList.Reachable l) (k : Nat) :
    (∀ ts, l.traversal = some ts → (∀ w ∈ ts, Valuer.Key w ≠ k) →
      l.Delete k = some (0, l) ∧
        ∃ r, l.Delete k = some r ∧ r.2.Delete k = some (0, l) ∧ r.2.Length = l.Length ∧
          r.2.traversal = some ts ∧ r.2.index = l.index ∧ r.2.Level = l.Level) ∧
    (∀ n l1, l.Delete k = some (n, l1) → l1.Delete k = some (0, l1)) := by
  obtain ⟨ps, hi, _⟩ := hr.inv
  constructor
  · intro ts hts hk
    rw [hi.toShape.traversal_eq] at hts
    cases hts
    have h0 := SkipList.Delete_absent ((hi.index_none_iff k).2 hk)
    exact ⟨h0, (0, l), h0, h0, rfl, hi.toShape.traversal_eq, rfl, rfl⟩
  · intro n l1 hd
    cases hk : l.index k with
    | none =>
      rw [SkipList.Delete_absent hk] at hd
      cases hd
      exact SkipList.Delete_absent hk
    | some v =>
      obtain ⟨A, B, p, l2, _, _, _, e4, _, _, _, e8, _⟩ := SkipList.Delete_present hi hk
      rw [e4] at hd
      cases hd
      exact SkipList.Delete_absent (by rw [e8, Function.update_same])

/-- Witness of C5: key 7 is not in the four-element list. -/
theorem Delete_absent_key_witness :
    SkipList.Reachable sampleList ∧
      ((∀ ts, sampleList.traversal = some ts → (∀ w ∈ ts, Valuer.Key w ≠ 7) →
        sampleList.Delete 7 = some (0, sampleList) ∧
          ∃ r, sampleList.Delete 7 = some r ∧ r.2.Delete 7 = some (0, sampleList) ∧
            r.2.Length = sampleList.Length ∧ r.2.traversal = some ts ∧
            r.2.index = sampleList.index ∧ r.2.Level = sampleList.Level) ∧
      (∀ n l1, sampleList.Delete 7 = some (n, l1) → l1.Delete 7 = some (0, l1))) :=
  ⟨sampleList_reachable, Delete_absent_key sampleList sampleList_reachable 7⟩

/-- C6: round trip.  On a reachable list `s`, for a value `e` whose key is not
in `s` and any height drawn for it, `Insert(e)` followed by `Delete(e.Key())`
returns 1 from `Delete` and leaves `Length` and the traversal as they were in
`s`. -/
theorem Insert_Delete_round_trip [Valuer V] [Inhabited V] (l : SkipList V)
    (hr : SkipList.Reachable l) (e : V) (rand : Nat → Nat) (ts : List V)
    (hts : l.traversal = some ts) (hk : ∀ w ∈ ts, Valuer.Key w ≠ Valuer.Key e) :
    ∃ x l1 l2, l.Insert e rand = some (.ok x, l1) ∧ l1.Delete (Valuer.Key e) = some (1, l2) ∧
      l2.Length = l.Length ∧ l2.traversal = some ts := by
  obtain ⟨ps, hi, _⟩ := hr.inv
  rw [hi.toShape.traversal_eq] at hts
  cases hts
  have hk0 := (hi.index_none_iff _).2 hk
  obtain ⟨A, B, l1, e1, e2, e3, e4, _, _, e7, e8, e9, _⟩ := SkipList.Insert_absent hi e rand hk0
  subst e1
  have hidx : l1.index (Valuer.Key e) = some e := by rw [e9, Function.update_same]
  obtain ⟨A1, B1, p, l2, d1, d2, _, d4, d5, d6, d7, _, _⟩ := SkipList.Delete_present e3 hidx
  -- the node removed is the node inserted
  have hp : p = l.alloc := by
    have hkn := e3.keys_nodup
    have hpm : p ∈ A ++ l.alloc :: B := by rw [d1]; simp
    have hxm : l.alloc ∈ A ++ l.alloc :: B := by simp
    have hinj := List.inj_on_of_nodup_map hkn hpm hxm
    apply hinj
    show Valuer.Key (l1.heap.val p) = Valuer.Key (l1.heap.val l.alloc)
    rw [d2, e7]
  subst hp
  have hnd : (A ++ l.alloc :: B).Nodup := (List.nodup_cons.1 e3.nodup).2
  have hAB : A1 = A ∧ B1 = B := by
    have hx1 : l.alloc ∉ A := by
      rw [List.nodup_append] at hnd
      intro hm
      exact hnd.2.2 hm (by simp)
    have hx2 : l.alloc ∉ B := by
      rw [List.nodup_append] at hnd
      exact (List.nodup_cons.1 hnd.2.1).1
    have := (List.append_cons_inj_of_not_mem hx1 hx2).1 d1
    exact ⟨this.1.symm, this.2.2.symm⟩
  obtain ⟨rfl, rfl⟩ := hAB
  refine ⟨l.alloc, l1, l2, e2, d4, ?_, ?_⟩
  · show l2.length = l.length
    rw [d6, e4]; omega
  · rw [d5.toShape.traversal_eq, d7]
    exact congrArg some (List.map_congr_left fun q hq => e8 q hq)

/-- Witness of C6: key 5 with score 10 inserted, with a tower of height 4, into
the four-element list, then deleted. -/
theorem Insert_Delete_round_trip_witness :
    SkipList.Reachable sampleList ∧
      (∃ ts, sampleList.traversal = some ts ∧ (∀ w ∈ ts, Valuer.Key w ≠ 5) ∧
        ∃ x l1 l2, sampleList.Insert ⟨5, 10⟩ (drawsFor 4) = some (.ok x, l1) ∧
          l1.Delete 5 = some (1, l2) ∧ l2.Length = sampleList.Length ∧
          l2.traversal = some ts) := by
  have h : sampleList.traversal = some [⟨3, 8⟩, ⟨1, 10⟩, ⟨2, 10⟩, ⟨4, 11⟩] := by
    set_option maxRecDepth 100000 in decide
  have hk : ∀ w ∈ [(⟨3, 8⟩ : value), ⟨1, 10⟩, ⟨2, 10⟩, ⟨4, 11⟩],
      Valuer.Key w ≠ Valuer.Key (⟨5, 10⟩ : value) := by decide
  exact ⟨sampleList_reachable, _, h, hk,
    Insert_Delete_round_trip sampleList sampleList_reachable ⟨5, 10⟩ (drawsFor 4) _ h hk⟩

/-! ## The rank of a value -/

theorem Shape.ordered [Valuer V] {l : SkipList V} {ps : List Nat} (hs : Shape l ps) :
    (l.head :: ps).Pairwise (Ordered l.heap l.head) := by
  have hnd := List.nodup_cons.1 hs.nodup
  rw [List.pairwise_cons]
  constructor
  · intro q hq
    exact ⟨fun e => hnd.1 (e ▸ hq), Or.inl rfl⟩
  · have h1 : ps.Pairwise (fun p q => Before (l.heap.val p) (l.heap.val q)) :=
      (List.pairwise_map.1 hs.sorted)
    have h2 : ps.Pairwise (fun _ q => q ≠ l.head) := by
      rw [List.pairwise_iff_forall_sublist]
      intro a b hab e
      exact hnd.1 (e ▸ (hab.subset (by simp)))
    exact (h1.and h2).imp fun h => ⟨h.2, Or.inr h.1⟩

theorem getRankLoop_found [Valuer V] {h : Heap V} {head : Nat} {L : List Nat} {v : V} {t : Nat}
    (fuel : Nat) (hpos : ∀ q ∈ L, 1 ≤ h.height q) (hpw : L.Pairwise (Ordered h head))
    (htL : t ∈ L) (hth : t ≠ head)
    (hts : Valuer.Score (h.val t) = Valuer.Score v) (htk : Valuer.Key (h.val t) = Valuer.Key v)
    (huniq : ∀ q ∈ L, q ≠ head → q ≠ t → Valuer.Key (h.val q) ≠ Valuer.Key v) :
    ∀ (n : Nat) (pre : List Nat) (cur : Nat) (r1 r2 : List Nat),
      (∀ i, i < n → Links h i L) →
      L = pre ++ cur :: (r1 ++ r2) → n ≤ h.height cur → r1.length < fuel →
      (∀ q ∈ r1, h.height q ≤ n) →
      Barrier h.height h.val (fun _ next => (cmp V).upto next v) n (pre.length + 1 + r1.length) r2 →
      (cur = head ∨ LexLE (h.val cur) v) → cur ≠ t → h.height t ≤ n →
      ∃ pt rest, L = pt ++ t :: rest ∧
        getRankLoop h (cmp V) head v fuel n cur (pre.length % M32) = some (pt.length % M32) := by
  intro n
  induction n with
  | zero =>
    intro pre cur r1 r2 _ _ _ _ _ _ _ _ ht0
    have := hpos t htL
    omega
  | succ n ih =>
    intro pre cur r1 r2 hl hL hc hf hlow hb hcv hct htn
    obtain ⟨pre1, cur1, r11, r21, e1, e2, e3, e4, e5, e6, e7, e8⟩ :=
      advance_spec (hl n (Nat.lt_succ_self n)) fuel pre cur r1 r2 hL (by omega) hf hb
    have hc1 : cur1 = head ∨ LexLE (h.val cur1) v := by
      rcases e8 with ⟨_, rfl⟩ | e8
      · exact hcv
      · exact Or.inr ((cmp_upto_iff _ _).1 e8)
    have hpw1 := hpw
    rw [e1, List.pairwise_append] at hpw1
    obtain ⟨_, hpwr, hpwx⟩ := hpw1
    rw [List.pairwise_cons] at hpwr
    by_cases hht : n < h.height t
    · -- the node is on this level: the search stops on it
      have hcur1 : cur1 = t := by
        have hm : t ∈ pre1 ++ cur1 :: (r11 ++ r21) := e1 ▸ htL
        rcases List.mem_append.1 hm with hm | hm
        · exfalso
          have := hpwx t hm cur1 (List.mem_cons_self _ _)
          rcases this with ⟨hne, hor⟩
          rcases hor with hor | hor
          · exact hth hor
          · rcases hc1 with hc1 | hc1
            · exact hne hc1
            · unfold Before at hor; unfold LexLE at hc1; omega
        · rcases List.mem_cons.1 hm with hm | hm
          · exact hm.symm
          · exfalso
            rcases List.mem_append.1 hm with hm | hm
            · have := e3 t hm; omega
            · rcases e4 with rfl | ⟨b, rest, rfl, _, hbc⟩
              · simp at hm
              · have hbc' : ¬ LexLE (h.val b) v := by
                  rw [← cmp_upto_iff]; simpa using hbc
                rcases List.mem_cons.1 hm with hm | hm
                · apply hbc'; rw [← hm]; unfold LexLE; omega
                · have hpb := hpwr.2
                  rw [List.pairwise_append] at hpb
                  have hbt := (List.pairwise_cons.1 hpb.2.1).1 t hm
                  rcases hbt with ⟨_, hbt | hbt⟩
                  · have := hpwr.1 b (List.mem_append_right _ (List.mem_cons_self _ _))
                    exact this.1 hbt
                  · apply hbc'; unfold Before at hbt; unfold LexLE; omega
      subst hcur1
      refine ⟨pre1, r11 ++ r21, e1, ?_⟩
      have hk : (cmp V).CmpKey (h cur1).value v = 0 := (cmp_key_zero _ _).2 htk
      simp only [getRankLoop, e5, hth, ne_eq, not_false_eq_true, hk, and_self, if_true]
    · -- the node is lower: the search goes on
      have hne : cur1 ≠ t := by
        intro e; rw [e] at e2; omega
      have hchk : ¬ (cur1 ≠ head ∧ (cmp V).CmpKey (h cur1).value v = 0) := by
        rintro ⟨h1, h2⟩
        have hm : cur1 ∈ L := by rw [e1]; simp
        exact huniq cur1 hm h1 hne ((cmp_key_zero _ _).1 h2)
      obtain ⟨pt, rest, f1, f2⟩ := ih pre1 cur1 r11 r21 (fun i hi => hl i (by omega)) e1
        (by omega) (by omega) e3 (Barrier_mono e4 (by omega)) hc1 hne (by omega)
      refine ⟨pt, rest, f1, ?_⟩
      simp only [getRankLoop, e5, hchk, if_false]
      exact f2

theorem getRankLoop_absent [Valuer V] {h : Heap V} {head : Nat} {L : List Nat} {v : V}
    (fuel : Nat)
    (huniq : ∀ q ∈ L, q ≠ head → Valuer.Key (h.val q) ≠ Valuer.Key v) :
    ∀ (n : Nat) (pre : List Nat) (cur : Nat) (r1 r2 : List Nat),
      (∀ i, i < n → Links h i L) →
      L = pre ++ cur :: (r1 ++ r2) → n ≤ h.height cur → r1.length < fuel →
      (∀ q ∈ r1, h.height q ≤ n) →
      Barrier h.height h.val (fun _ next => (cmp V).upto next v) n (pre.length + 1 + r1.length) r2 →
      getRankLoop h (cmp V) head v fuel n cur (pre.length % M32) = some 0 := by
  intro n
  induction n with
  | zero => intro pre cur r1 r2 _ _ _ _ _ _; rfl
  | succ n ih =>
    intro pre cur r1 r2 hl hL hc hf hlow hb
    obtain ⟨pre1, cur1, r11, r21, e1, e2, e3, e4, e5, e6, e7, _⟩ :=
      advance_spec (hl n (Nat.lt_succ_self n)) fuel pre cur r1 r2 hL (by omega) hf hb
    have hchk : ¬ (cur1 ≠ head ∧ (cmp V).CmpKey (h cur1).value v = 0) := by
      rintro ⟨h1, h2⟩
      have hm : cur1 ∈ L := by rw [e1]; simp
      exact huniq cur1 hm h1 ((cmp_key_zero _ _).1 h2)
    simp only [getRankLoop, e5, hchk, if_false]
    exact ih pre1 cur1 r11 r21 (fun i hi => hl i (by omega)) e1 (by omega) (by omega) e3
      (Barrier_mono e4 (by omega))

theorem map_split {h : Heap V} {ps : List Nat} {A B : List V} {w : V}
    (e : ps.map h.val = A ++ w :: B) :
    ∃ A1 t B1, ps = A1 ++ t :: B1 ∧ A1.map h.val = A ∧ h.val t = w ∧ B1.map h.val = B := by
  obtain ⟨A1, r, rfl, e1, e2⟩ := List.map_eq_append_iff.1 e
  obtain ⟨t, B1, rfl, e3, e4⟩ := List.map_eq_cons_iff.1 e2
  exact ⟨A1, t, B1, rfl, e1, e3, e4⟩

theorem Shape.getRank_found [Valuer V] {l : SkipList V} {A B : List Nat} {t : Nat}
    (hs : Shape l (A ++ t :: B)) (v : V)
    (hts : Valuer.Score (l.heap.val t) = Valuer.Score v)
    (htk : Valuer.Key (l.heap.val t) = Valuer.Key v) :
    getRankLoop l.heap l.cmp l.head v l.alloc l.level l.head 0 = some ((A.length + 1) % M32) := by
  have hnd := hs.nodup
  have hpos : ∀ q ∈ l.head :: (A ++ t :: B), 1 ≤ l.heap.height q := by
    intro q hq
    rcases List.mem_cons.1 hq with rfl | hq
    · rw [hs.head_height]; decide
    · exact hs.height_pos q hq
  have htm : t ∈ A ++ t :: B := by simp
  have hth : t ≠ l.head := fun e => (List.nodup_cons.1 hnd).1 (e ▸ htm)
  have hkn := hs.keys_nodup
  have huniq : ∀ q ∈ l.head :: (A ++ t :: B), q ≠ l.head → q ≠ t →
      Valuer.Key (l.heap.val q) ≠ Valuer.Key v := by
    intro q hq h1 h2 e
    have hq' : q ∈ A ++ t :: B := by
      rcases List.mem_cons.1 hq with h | h
      · exact absurd h h1
      · exact h
    exact h2 (List.inj_on_of_nodup_map hkn hq' htm (e.trans htk.symm))
  obtain ⟨pt, rest, f1, f2⟩ := getRankLoop_found l.alloc hpos hs.ordered
    (List.mem_cons_of_mem _ htm) hth hts htk huniq l.level [] l.head (A ++ t :: B) []
    hs.links (by simp) (by rw [hs.head_height]; exact hs.level_le) hs.length_lt hs.height_le
    (Or.inl rfl) (Or.inl rfl) (Ne.symm hth) (hs.height_le t htm)
  have hpt : pt = l.head :: A := by
    have h1 : t ∉ l.head :: A := by
      have : l.head :: (A ++ t :: B) = (l.head :: A) ++ t :: B := by simp
      rw [this, List.nodup_append] at hnd
      intro hm
      exact hnd.2.2 hm (by simp)
    have h2 : t ∉ B := by
      have := (List.nodup_cons.1 hnd).2
      rw [List.nodup_append] at this
      exact (List.nodup_cons.1 this.2.1).1
    have e : (l.head :: A) ++ t :: B = pt ++ t :: rest := by rw [← f1]; simp
    exact ((List.append_cons_inj_of_not_mem h1 h2).1 e).1.symm
  rw [hs.cmp_eq]
  rw [hpt] at f2
  simpa using f2

theorem Shape.getRank_absent [Valuer V] {l : SkipList V} {ps : List Nat} (hs : Shape l ps) (v : V)
    (hk : ∀ p ∈ ps, Valuer.Key (l.heap.val p) ≠ Valuer.Key v) :
    getRankLoop l.heap l.cmp l.head v l.alloc l.level l.head 0 = some 0 := by
  have huniq : ∀ q ∈ l.head :: ps, q ≠ l.head → Valuer.Key (l.heap.val q) ≠ Valuer.Key v := by
    intro q hq h1
    rcases List.mem_cons.1 hq with h | h
    · exact absurd h h1
    · exact hk q h
  have := getRankLoop_absent l.alloc huniq l.level [] l.head ps []
    hs.links (by simp) (by rw [hs.head_height]; exact hs.level_le) hs.length_lt hs.height_le
    (Or.inl rfl)
  rw [hs.cmp_eq]
  simpa using this

/-- Counterexample to C9 as stated: in the reachable list that holds
(key 1, score 10) and (key 2, score 15), the element of key 1 is at position 1,
but `GetRank` of a value with key 1 and score 20 returns 0: the search follows
the score of its argument and ends on the element of key 2. -/
theorem GetRank_any_score_counterexample :
    SkipList.Reachable rankList ∧ rankList.traversal = some [⟨1, 10⟩, ⟨2, 15⟩] ∧
      rankList.GetRank ⟨1, 20⟩ = some 0 ∧
      ¬ (∀ (l : SkipList value), SkipList.Reachable l → ∀ (v : value) (A : List value)
          (w : value) (B : List value), l.traversal = some (A ++ w :: B) →
          Valuer.Key w = Valuer.Key v → l.GetRank v = some (A.length + 1)) := by
  have h1 : rankList.traversal = some [⟨1, 10⟩, ⟨2, 15⟩] := by decide
  have h2 : rankList.GetRank ⟨1, 20⟩ = some 0 := by decide
  refine ⟨rankList_reachable, h1, h2, fun h => ?_⟩
  have h3 := h rankList rankList_reachable ⟨1, 20⟩ [] ⟨1, 10⟩ [⟨2, 15⟩] h1 rfl
  rw [h2] at h3
  cases h3

/-- C9, amended: on a reachable list, for a value `v` whose key and score are
those of a stored element, `GetRank(v)` returns the 1-based position of that
element in the ascending traversal (as a `uint32`, that is modulo 2^32; the
position itself when the list has fewer than 2^32 elements); when no stored
element has the key of `v`, it returns 0. -/
theorem GetRank_spec [Valuer V] [Inhabited V] (l : SkipList V) (hr : SkipList.Reachable l)
    (v : V) (ts : List V) (hts : l.traversal = some ts) :
    (∀ (A : List V) (w : V) (B : List V), ts = A ++ w :: B →
      Valuer.Key w = Valuer.Key v → Valuer.Score w = Valuer.Score v →
      l.GetRank v = some ((A.length + 1) % M32) ∧
        (l.Length < M32 → l.GetRank v = some (A.length + 1))) ∧
    ((∀ w ∈ ts, Valuer.Key w ≠ Valuer.Key v) → l.GetRank v = some 0) := by
  obtain ⟨ps, hi, hlen⟩ := hr.inv
  rw [hi.toShape.traversal_eq] at hts
  cases hts
  constructor
  · intro A w B e hk hs
    obtain ⟨A1, t, B1, rfl, rfl, rfl, rfl⟩ := map_split e
    have := hi.toShape.getRank_found v hs hk
    refine ⟨by simpa [SkipList.GetRank] using this, fun hlt => ?_⟩
    have hl : ((A1 ++ t :: B1).length : Int) < M32 := by
      rw [← hlen]; exact hlt
    have hA : (A1.length + 1) % M32 = A1.length + 1 := by
      apply Nat.mod_eq_of_lt
      simp only [List.length_append, List.length_cons] at hl
      omega
    simpa [SkipList.GetRank, hA] using this
  · intro hk
    have := hi.toShape.getRank_absent v fun p hp => hk _ (List.mem_map_of_mem _ hp)
    simpa [SkipList.GetRank] using this

set_option maxRecDepth 100000 in
/-- Witness of C9: the ranks of the four elements of the sample list, and of an
absent key. -/
theorem GetRank_spec_witness :
    SkipList.Reachable sampleList ∧
      sampleList.traversal = some [⟨3, 8⟩, ⟨1, 10⟩, ⟨2, 10⟩, ⟨4, 11⟩] ∧
      sampleList.GetRank ⟨2, 10⟩ = some 3 ∧ sampleList.GetRank ⟨7, 10⟩ = some 0 := by
  have h1 : sampleList.traversal = some [⟨3, 8⟩, ⟨1, 10⟩, ⟨2, 10⟩, ⟨4, 11⟩] := by decide
  have h2 := GetRank_spec sampleList sampleList_reachable ⟨2, 10⟩ _ h1
  have h3 := GetRank_spec sampleList sampleList_reachable ⟨7, 10⟩ _ h1
  refine ⟨sampleList_reachable, h1, ?_, ?_⟩
  · exact (h2.1 [⟨3, 8⟩, ⟨1, 10⟩] ⟨2, 10⟩ [⟨4, 11⟩] rfl rfl rfl).2 (by decide)
  · exact h3.2 (by decide)

/-! ## The mutators of `Set` -/

theorem Shape.next_last [Valuer V] {l : SkipList V} {A B : List Nat} {x0 : Nat}
    (hs : Shape l (A ++ B)) (hlast : lastOr (some l.head) A = some x0) :
    l.heap.Next x0 0 = some B.head? := by
  obtain ⟨pf, hpf⟩ := lastOr_some_mem hlast
  have hl0 := hs.links 0 hs.level_pos
  have e : l.head :: (A ++ B) = pf ++ x0 :: B := by
    have : l.head :: (A ++ B) = (l.head :: A) ++ B := by simp
    rw [this, hpf]; simp
  rw [e] at hl0
  have hx0 : 1 ≤ l.heap.height x0 := by
    have hm : x0 ∈ l.head :: A := by rw [hpf]; simp
    rcases List.mem_cons.1 hm with h | h
    · rw [h, hs.head_height]; decide
    · exact hs.height_pos x0 (List.mem_append_left _ h)
  have he := (Links_suffix pf hl0).1 hx0
  have hpos : ∀ q ∈ B, 1 ≤ l.heap.height q := fun q hq =>
    hs.height_pos q (List.mem_append_right _ hq)
  rw [nextAt_zero hpos] at he
  exact Heap.Next_eq he

theorem mod_bounds (a : Int) : 0 ≤ a % (M32 : Int) ∧ a % (M32 : Int) < (M32 : Int) := by
  unfold M32; omega

theorem Set_Delete_absent [Valuer V] {l : Set V} {w : V} (hk : l.index (Valuer.Key w) = none) :
    Set.Delete l w = some (0, l) := by
  simp only [Set.Delete, hk]

theorem Set_Delete_present [Valuer V] {l : Set V} {ps : List Nat} (hi : Inv l ps)
    {w v : V} (hk : l.index (Valuer.Key w) = some v) :
    ∃ A B p l1, ps = A ++ p :: B ∧ l.heap.val p = v ∧ Valuer.Key v = Valuer.Key w ∧
      Set.Delete l w = some (1, l1) ∧ Inv l1 (A ++ B) ∧
      l1.length = (l.length - 1) % (M32 : Int) ∧
      l1.heap.val = l.heap.val ∧ l1.index = Function.update l.index (Valuer.Key w) none ∧
      l1.alloc = l.alloc := by
  obtain ⟨p, hp, hv, hkv⟩ := (hi.index_iff _ v).1 hk
  let l0 : Set V := { l with index := Function.update l.index (Valuer.Key v) none }
  have hs0 : Shape l0 ps := hi.toShape.congr rfl rfl rfl rfl rfl rfl
  obtain ⟨A, B, x0, upd, rk, c1, c2, c3, c4⟩ := search_delete hs0 hp
  subst c1
  obtain ⟨l1, d1, d2, d3, d4, d5', d6, d7, _, _⟩ := unlink_shape hs0 c4
  have d5 : l1.length = l.length := d5'
  have hv0 : l0.heap.val p = v := hv
  rw [hv0] at c2
  have hchk : l0.cmp.CmpKey (l0.heap p).value v = 0 ∧ l0.cmp.CmpScore (l0.heap p).value v = 0 := by
    have : (l0.heap p).value = v := hv
    rw [this]
    have : l0.cmp = cmp V := hi.cmp_eq
    rw [this, cmp_key_zero, cmp_score_zero]
    exact ⟨rfl, rfl⟩
  refine ⟨A, B, p, { l1 with length := (l1.length - 1) % (M32 : Int) }, rfl, hv, hkv, ?_, ?_, ?_,
    d3, ?_, d7⟩
  · have c2' : search l.heap (fun _ next => l.cmp.before next v) l.alloc l.level l.head 0
        (fun _ => none) (fun _ => 0) = some (x0, upd, rk) := c2
    have c3' : l.heap.Next x0 0 = some (some p) := c3
    have hchk' : l.cmp.CmpKey (l.heap p).value v = 0 ∧ l.cmp.CmpScore (l.heap p).value v = 0 :=
      hchk
    have d1' : unlink { l with index := Function.update l.index (Valuer.Key v) none } p upd =
        some l1 := d1
    simp only [Set.Delete, hk, c2', Option.bind_eq_bind, Option.some_bind, c3', hchk', and_self,
      if_true, Set.deleteNode, d1', Option.map_some']
  · have := @Inv.delete _ _ l l1 A B p hi d2 d3 ((l1.length - 1) % (M32 : Int)) (by
      rw [d5]; show _ = (l.length - 1) % (M32 : Int); unfold M32; omega)
    rw [hv] at this
    have e : l1.index = Function.update l.index (Valuer.Key v) none := d6
    rw [← e] at this
    exact this
  · show (l1.length - 1) % (M32 : Int) = _
    rw [d5]
  · show l1.index = _
    rw [d6]
    show Function.update l.index (Valuer.Key v) none = _
    rw [hkv]

theorem Set.Insert_spec [ReValuer V] {l : Set V} {ps : List Nat} (hi : Inv l ps)
    (v : V) (rand : Nat → Nat) :
    ∃ ps0 A B l2, ps0 = A ++ B ∧
      ((l.index (Valuer.Key v) = none ∧ ps0 = ps) ∨
        ∃ A0 p B0, ps = A0 ++ p :: B0 ∧ l.index (Valuer.Key v) = some (l.heap.val p) ∧
          ps0 = A0 ++ B0) ∧
      Set.Insert l v rand = some l2 ∧ Inv l2 (A ++ l.alloc :: B) ∧
      l2.heap.val l.alloc = ReValuer.ReCalcScore v ∧
      (∀ p ∈ ps0, l2.heap.val p = l.heap.val p) ∧
      (∀ p ∈ A, Before (l.heap.val p) (ReValuer.ReCalcScore v)) ∧
      (∀ p ∈ B, Before (ReValuer.ReCalcScore v) (l.heap.val p)) ∧
      0 ≤ l2.length ∧ l2.length < (M32 : Int) := by
  -- the state after `this.Delete(value)`
  have hdel : ∃ ps0 n l1, Set.Delete l v = some (n, l1) ∧ Inv l1 ps0 ∧
      l1.index (Valuer.Key v) = none ∧ l1.heap.val = l.heap.val ∧ l1.alloc = l.alloc ∧
      ((l.index (Valuer.Key v) = none ∧ ps0 = ps) ∨
        ∃ A0 p B0, ps = A0 ++ p :: B0 ∧ l.index (Valuer.Key v) = some (l.heap.val p) ∧
          ps0 = A0 ++ B0) := by
    cases hk : l.index (Valuer.Key v) with
    | none =>
      exact ⟨ps, 0, l, Set_Delete_absent hk, hi, hk, rfl, rfl, Or.inl ⟨rfl, rfl⟩⟩
    | some w =>
      obtain ⟨A0, B0, p, l1, e1, e2, _, e4, e5, _, e7, e8, e9⟩ := Set_Delete_present hi hk
      refine ⟨A0 ++ B0, 1, l1, e4, e5, by rw [e8, Function.update_same], e7, e9,
        Or.inr ⟨A0, p, B0, e1, by rw [e2], rfl⟩⟩
  obtain ⟨ps0, n, l1, d1, d2, d3, d4, d5, d6⟩ := hdel
  have hkey : Valuer.Key (ReValuer.ReCalcScore v) = Valuer.Key v := ReValuer.Key_ReCalcScore v
  have hk1 : ∀ p ∈ ps0, Valuer.Key (l1.heap.val p) ≠ Valuer.Key (ReValuer.ReCalcScore v) := by
    rw [hkey]; exact d2.key_ne d3
  obtain ⟨A, B, l2, e1, e2, e3, e4, e5, e6, e7, e8, e9, _, _⟩ :=
    insertNode_shape d2.toShape (ReValuer.ReCalcScore v) hk1 (randomLevel_bounds rand).1
      (randomLevel_bounds rand).2 d2.length_mod
  subst e1
  rw [d5] at e2 e5 e6
  rw [d4] at e3 e4 e7
  refine ⟨A ++ B, A, B, { l2 with
      length := (l2.length + 1) % (M32 : Int)
      index := Function.update l2.index (Valuer.Key (ReValuer.ReCalcScore v))
        (some (ReValuer.ReCalcScore v)) }, rfl, d6, ?_, ?_, e6, e7, e3, e4,
    (mod_bounds _).1, (mod_bounds _).2⟩
  · simp only [Set.Insert, d1, Option.bind_eq_bind, Option.some_bind, e2]
  · have hk0 : l1.index (Valuer.Key (ReValuer.ReCalcScore v)) = none := by rw [hkey]; exact d3
    have := @Inv.insert _ _ l1 l2 A B (ReValuer.ReCalcScore v) d2 (by rw [d5]; exact e5) hk0
      (by rw [d5]; exact e6) (by rw [d4]; exact e7) ((l2.length + 1) % (M32 : Int)) (by
        rw [e8]; unfold M32; omega)
    rw [d5, ← e9] at this
    exact this

theorem removeLoop_spec [Valuer V] (cond : Nat → V → Bool) (upd : Nat → Option Nat)
    (rk : Nat → Nat) (A : List Nat) :
    ∀ (B : List Nat) (fuel : Nat) (l : Set V) (t r : Nat), Inv l (A ++ B) →
      (∀ i, i < l.level → UpdOK l.heap.height (l.head :: A) upd rk i) → B.length < fuel →
      r < M32 →
      ∃ l1, Set.removeLoop cond upd fuel l B.head? t r =
          some ((r + removeRun cond t (B.map l.heap.val)) % M32, l1) ∧
        Inv l1 (A ++ B.drop (removeRun cond t (B.map l.heap.val))) ∧
        l1.heap.val = l.heap.val ∧ l1.alloc = l.alloc ∧
        l1.length % (M32 : Int) =
          (l.length - removeRun cond t (B.map l.heap.val)) % (M32 : Int) ∧
        (0 ≤ l.length ∧ l.length < (M32 : Int) → 0 ≤ l1.length ∧ l1.length < (M32 : Int)) := by
  intro B
  induction B with
  | nil =>
    intro fuel l t r hi _ hf hr
    cases fuel with
    | zero => simp at hf
    | succ n =>
      refine ⟨l, ?_, by simpa [removeRun] using hi, rfl, rfl, by simp [removeRun], fun h => h⟩
      simp [Set.removeLoop, removeRun, Nat.mod_eq_of_lt hr]
  | cons x B ih =>
    intro fuel l t r hi hupd hf hr
    cases fuel with
    | zero => simp at hf
    | succ n =>
      by_cases hc : cond t (l.heap x).value = true
      · obtain ⟨l1, d1, d2, d3, d4, d5, d6, d7, d8, d9⟩ := unlink_shape hi.toShape hupd
        have hnx : l.heap.Next x 0 = some B.head? := by
          have hl0 := hi.links 0 hi.level_pos
          have e : l.head :: (A ++ x :: B) = (l.head :: A) ++ x :: B := by simp
          rw [e] at hl0
          have he := (Links_suffix _ hl0).1 (hi.height_pos x (by simp))
          have hpos : ∀ q ∈ B, 1 ≤ l.heap.height q := fun q hq =>
            hi.height_pos q (List.mem_append_right _ (List.mem_cons_of_mem _ hq))
          rw [nextAt_zero hpos] at he
          exact Heap.Next_eq he
        let l2 : Set V := { l1 with
          length := (l1.length - 1) % (M32 : Int)
          index := Function.update l1.index (Valuer.Key (l1.heap x).value) none }
        have hi2 : Inv l2 (A ++ B) := by
          have := @Inv.delete _ _ l l1 A B x hi d2 d3 ((l1.length - 1) % (M32 : Int)) (by
            rw [d5]; unfold M32; omega)
          have e : (l1.heap x).value = l.heap.val x := congrFun d3 x
          show Inv { l1 with
            length := (l1.length - 1) % (M32 : Int)
            index := Function.update l1.index (Valuer.Key (l1.heap x).value) none } (A ++ B)
          rw [e, d6]
          exact this
        have hupd2 : ∀ i, i < l2.level → UpdOK l2.heap.height (l2.head :: A) upd rk i := by
          intro i hil
          have hil' : i < l1.level := hil
          show UpdOK l1.heap.height (l1.head :: A) upd rk i
          rw [d4, d8]
          exact hupd i (by omega)
        obtain ⟨l3, f1, f2, f3, f4, f5, f6⟩ := ih n l2 (add32 t 1) (add32 r 1) hi2 hupd2
          (by simp at hf; omega) (by unfold add32 M32; omega)
        have hv2 : l2.heap.val = l.heap.val := d3
        have hrun : removeRun cond t ((x :: B).map l.heap.val) =
            removeRun cond (add32 t 1) (B.map l.heap.val) + 1 := by
          simp only [List.map_cons, removeRun]
          have : cond t (l.heap.val x) = true := hc
          simp [this]
        rw [hv2] at f1 f2 f5
        refine ⟨l3, ?_, ?_, f3.trans hv2, f4.trans d7, ?_, ?_⟩
        · simp only [List.head?_cons, Set.removeLoop, hc, if_true, Option.bind_eq_bind,
            Option.some_bind, hnx, Set.deleteNode, d1, Option.map_some']
          rw [hrun]
          have e : (r + (removeRun cond (add32 t 1) (B.map l.heap.val) + 1)) % M32 =
              (add32 r 1 + removeRun cond (add32 t 1) (B.map l.heap.val)) % M32 := by
            unfold add32 M32; omega
          rw [e]
          exact f1
        · rw [hrun, List.drop_succ_cons]
          exact f2
        · rw [hrun, f5]
          show ((l1.length - 1) % (M32 : Int) - _) % (M32 : Int) = _
          rw [d5]
          push_cast
          unfold M32; omega
        · intro _
          exact f6 (mod_bounds _)
      · have hrun : removeRun cond t ((x :: B).map l.heap.val) = 0 := by
          simp only [List.map_cons, removeRun]
          have : ¬ cond t (l.heap.val x) = true := hc
          simp [this]
        rw [hrun]
        refine ⟨l, ?_, by simpa using hi, rfl, rfl, by simp, fun h => h⟩
        simp [Set.removeLoop, hc, Nat.mod_eq_of_lt hr]

theorem Set.searchRemove_spec [Valuer V] {l : Set V} {ps : List Nat} (hi : Inv l ps)
    (c1 c2 : Nat → V → Bool) (t : Nat → Nat) :
    ∃ A B x0 upd rk l1, ps = A ++ B ∧
      search l.heap c1 l.alloc l.level l.head 0 (fun _ => none) (fun _ => 0) = some (x0, upd, rk) ∧
      l.heap.Next x0 0 = some B.head? ∧ rk 0 = A.length % M32 ∧
      Barrier l.heap.height l.heap.val c1 0 (A.length + 1) B ∧
      (A = [] ∨ c1 (A.length % M32) (l.heap.val x0) = true) ∧
      lastOr (some l.head) A = some x0 ∧
      Set.removeLoop c2 upd l.alloc l B.head? (t (rk 0)) 0 =
        some (removeRun c2 (t (rk 0)) (B.map l.heap.val) % M32, l1) ∧
      Inv l1 (A ++ B.drop (removeRun c2 (t (rk 0)) (B.map l.heap.val))) ∧
      l1.heap.val = l.heap.val ∧
      l1.length % (M32 : Int) =
        (l.length - removeRun c2 (t (rk 0)) (B.map l.heap.val)) % (M32 : Int) ∧
      (0 ≤ l.length ∧ l.length < (M32 : Int) → 0 ≤ l1.length ∧ l1.length < (M32 : Int)) := by
  obtain ⟨A, B, x0, upd, rk, e1, e2, e3, e4, _, e6, e7, _, e9⟩ := search_shape hi.toShape c1
  subst e1
  have hB : B.length < l.alloc := by
    have := hi.length_lt
    simp at this; omega
  obtain ⟨l1, f1, f2, f3, _, f5, f6⟩ :=
    removeLoop_spec c2 upd rk A B l.alloc l (t (rk 0)) 0 hi e4 hB (by decide)
  refine ⟨A, B, x0, upd, rk, l1, rfl, e2, hi.toShape.next_last e3, e9, e6, e7, e3, ?_, f2, f3, f5,
    f6⟩
  simpa using f1

theorem Set.DeleteRangeByRank_inv [Valuer V] {l : Set V} {ps : List Nat} (hi : Inv l ps)
    (start stop : Nat) :
    ∃ n l1 ps1, Set.DeleteRangeByRank l start stop = some (n, l1) ∧ Inv l1 ps1 ∧
      (0 ≤ l.length ∧ l.length < (M32 : Int) → 0 ≤ l1.length ∧ l1.length < (M32 : Int)) := by
  obtain ⟨A, B, x0, upd, rk, l1, _, e2, e3, _, _, _, _, e7, e8, _, _, e11⟩ :=
    Set.searchRemove_spec hi (fun t _ => decide (t < start)) (fun t _ => decide (t ≤ stop))
      (fun r => add32 r 1)
  refine ⟨removeRun (fun t _ => decide (t ≤ stop)) (add32 (rk 0) 1) (B.map l.heap.val) % M32, l1,
    _, ?_, e8, e11⟩
  simp only [Set.DeleteRangeByRank, e2, Option.bind_eq_bind, Option.some_bind, e3]
  exact e7

theorem Set.DeleteRangeByScore_inv [Valuer V] {l : Set V} {ps : List Nat} (hi : Inv l ps)
    (rg : RangeSpec) :
    ∃ n l1 ps1, Set.DeleteRangeByScore l rg = some (n, l1) ∧ Inv l1 ps1 ∧
      (0 ≤ l.length ∧ l.length < (M32 : Int) → 0 ≤ l1.length ∧ l1.length < (M32 : Int)) := by
  obtain ⟨A, B, x0, upd, rk, l1, _, e2, e3, _, _, _, _, e7, e8, _, _, e11⟩ :=
    Set.searchRemove_spec hi
      (fun _ next => (rg.MinEx && decide (Valuer.Score next ≤ rg.Min)) ||
        (!rg.MinEx && decide (Valuer.Score next < rg.Min)))
      (fun _ v => (rg.MaxEx && decide (Valuer.Score v < rg.Max)) ||
        (!rg.MaxEx && decide (Valuer.Score v ≤ rg.Max))) (fun _ => 0)
  refine ⟨removeRun (fun _ v => (rg.MaxEx && decide (Valuer.Score v < rg.Max)) ||
      (!rg.MaxEx && decide (Valuer.Score v ≤ rg.Max))) 0 (B.map l.heap.val) % M32, l1, _, ?_, e8,
    e11⟩
  simp only [Set.DeleteRangeByScore, e2, Option.bind_eq_bind, Option.some_bind, e3]
  exact e7

theorem Set_reachable_inv [ReValuer V] [Inhabited V] {l : Set V} (hr : Set.Reachable l) :
    ∃ ps, Inv l ps ∧ 0 ≤ l.length ∧ l.length < (M32 : Int) := by
  induction hr with
  | new => exact ⟨[], NewSkipList_inv.1, by simp [NewSet, NewSkipList], by
      simp [NewSet, NewSkipList, M32]⟩
  | @insert l v rand r _ hins ih =>
    obtain ⟨ps, hi, _⟩ := ih
    obtain ⟨_, A, B, l2, _, _, e3, e4, _, _, _, _, e9, e10⟩ := Set.Insert_spec hi v rand
    rw [e3] at hins
    cases hins
    exact ⟨_, e4, e9, e10⟩
  | @delete l v r _ hdel ih =>
    obtain ⟨ps, hi, hb⟩ := ih
    cases hk : l.index (Valuer.Key v) with
    | none =>
      rw [Set_Delete_absent hk] at hdel
      cases hdel
      exact ⟨ps, hi, hb⟩
    | some w =>
      obtain ⟨A, B, p, l1, _, _, _, e4, e5, e6, _⟩ := Set_Delete_present hi hk
      rw [e4] at hdel
      cases hdel
      refine ⟨_, e5, ?_⟩
      show 0 ≤ l1.length ∧ l1.length < (M32 : Int)
      rw [e6]
      exact mod_bounds _
  | @deleteElement l k r _ hdel ih =>
    obtain ⟨ps, hi, hb⟩ := ih
    cases hk : l.index k with
    | none =>
      simp only [Set.DeleteElement, hk] at hdel
      cases hdel
      exact ⟨ps, hi, hb⟩
    | some w =>
      have hkw : Valuer.Key w = k := by
        obtain ⟨p, _, e1, e2⟩ := (hi.index_iff k w).1 hk
        exact e2
      have hk' : l.index (Valuer.Key w) = some w := by rw [hkw]; exact hk
      obtain ⟨A, B, p, l1, _, _, _, e4, e5, e6, _⟩ := Set_Delete_present hi hk'
      simp only [Set.DeleteElement, hk, e4, Option.map_some'] at hdel
      cases hdel
      refine ⟨_, e5, ?_⟩
      rw [e6]
      exact mod_bounds _
  | @deleteRangeByRank l start stop r _ hdel ih =>
    obtain ⟨ps, hi, hb⟩ := ih
    obtain ⟨n, l1, ps1, e1, e2, e3⟩ := Set.DeleteRangeByRank_inv hi start stop
    rw [e1] at hdel
    cases hdel
    exact ⟨ps1, e2, e3 hb⟩
  | @deleteRangeByScore l rg r _ hdel ih =>
    obtain ⟨ps, hi, hb⟩ := ih
    obtain ⟨n, l1, ps1, e1, e2, e3⟩ := Set.DeleteRangeByScore_inv hi rg
    rw [e1] at hdel
    cases hdel
    exact ⟨ps1, e2, e3 hb⟩

/-! ## The node of a rank -/

theorem getNodeByRankLoop_spec {h : Heap V} {L : List Nat} (rank fuel : Nat)
    (hpos : ∀ q ∈ L, 1 ≤ h.height q) :
    ∀ (n : Nat) (pre : List Nat) (cur : Nat) (r1 r2 : List Nat),
      (∀ i, i < n → Links h i L) →
      L = pre ++ cur :: (r1 ++ r2) → n ≤ h.height cur → r1.length < fuel →
      (∀ q ∈ r1, h.height q ≤ n) →
      Barrier h.height h.val (fun t _ => decide (t ≤ rank)) n (pre.length + 1 + r1.length) r2 →
      pre.length % M32 ≤ rank →
      ∃ res, getNodeByRankLoop h rank fuel n cur (pre.length % M32) = some res ∧
        (∀ x, res = some x → ∃ pre1 rest, L = pre1 ++ x :: rest ∧ pre1.length % M32 = rank ∧
          pre.length ≤ pre1.length) ∧
        (res = none → n = 0 ∨ (L.length - 1) % M32 < rank) := by
  intro n
  induction n with
  | zero =>
    intro pre cur r1 r2 _ _ _ _ _ _ _
    exact ⟨none, rfl, fun x hx => (by cases hx), fun _ => Or.inl rfl⟩
  | succ n ih =>
    intro pre cur r1 r2 hl hL hc hf hlow hb hle
    obtain ⟨pre1, cur1, r11, r21, e1, e2, e3, e4, e5, e6, e7, e8⟩ :=
      advance_spec (hl n (Nat.lt_succ_self n)) fuel pre cur r1 r2 hL (by omega) hf hb
    have hle1 : pre1.length % M32 ≤ rank := by
      rcases e8 with ⟨rfl, _⟩ | e8
      · exact hle
      · simpa using e8
    by_cases heq : pre1.length % M32 = rank
    · refine ⟨some cur1, ?_, ?_, fun hn => by cases hn⟩
      · simp only [getNodeByRankLoop, e5, heq, if_true]
      · intro x hx
        cases hx
        exact ⟨pre1, r11 ++ r21, e1, heq, e6⟩
    · obtain ⟨res, f1, f2, f3⟩ := ih pre1 cur1 r11 r21 (fun i hi => hl i (by omega)) e1
        (by omega) (by omega) e3 (Barrier_mono e4 (by omega)) hle1
      refine ⟨res, ?_, ?_, ?_⟩
      · simp only [getNodeByRankLoop, e5, heq, if_false]
        exact f1
      · intro x hx
        obtain ⟨p1, rest, g1, g2, g3⟩ := f2 x hx
        exact ⟨p1, rest, g1, g2, by omega⟩
      · intro hn
        right
        rcases f3 hn with h0 | h0
        · subst h0
          have hr11 : r11 = [] := by
            cases r11 with
            | nil => rfl
            | cons q t =>
              have h1 := e3 q (List.mem_cons_self _ _)
              have h2 := hpos q (by rw [e1]; simp)
              omega
          subst hr11
          rcases e4 with rfl | ⟨b, t, rfl, _, hbc⟩
          · have : L.length - 1 = pre1.length := by rw [e1]; simp
            rw [this]; omega
          · exfalso
            simp only [List.length_nil, Nat.add_zero, decide_eq_false_iff_not, not_le] at hbc
            unfold M32 at *
            omega
        · exact h0

theorem Shape.getNodeByRank_spec [Valuer V] {l : SkipList V} {ps : List Nat} (hs : Shape l ps)
    (rank : Nat) :
    ∃ res, l.GetNodeByRank rank = some res ∧
      (∀ x, res = some x → ∃ pre1 rest, l.head :: ps = pre1 ++ x :: rest ∧
        pre1.length % M32 = rank) ∧
      (res = none → ps.length % M32 < rank) := by
  have hpos : ∀ q ∈ l.head :: ps, 1 ≤ l.heap.height q := by
    intro q hq
    rcases List.mem_cons.1 hq with rfl | hq
    · rw [hs.head_height]; decide
    · exact hs.height_pos q hq
  obtain ⟨res, f1, f2, f3⟩ := getNodeByRankLoop_spec rank l.alloc hpos l.level [] l.head ps []
    hs.links (by simp) (by rw [hs.head_height]; exact hs.level_le) hs.length_lt hs.height_le
    (Or.inl rfl) (by simp)
  refine ⟨res, by simpa [SkipList.GetNodeByRank] using f1, ?_, ?_⟩
  · intro x hx
    obtain ⟨p1, rest, g1, g2, _⟩ := f2 x hx
    exact ⟨p1, rest, g1, g2⟩
  · intro hn
    rcases f3 hn with h0 | h0
    · have := hs.level_pos; omega
    · simpa using h0

theorem Shape.getNodeByRank_exact [Valuer V] {l : SkipList V} {ps : List Nat} (hs : Shape l ps)
    (hlt : ps.length < M32) (rank : Nat) :
    (rank = 0 → l.GetNodeByRank rank = some (some l.head)) ∧
    (1 ≤ rank → rank ≤ ps.length → ∃ A x B, ps = A ++ x :: B ∧ A.length + 1 = rank ∧
      l.GetNodeByRank rank = some (some x)) ∧
    (ps.length < rank → l.GetNodeByRank rank = some none) := by
  obtain ⟨res, f1, f2, f3⟩ := hs.getNodeByRank_spec rank
  have hsome : ∀ x, res = some x → ∃ pre1 rest, l.head :: ps = pre1 ++ x :: rest ∧
      pre1.length = rank := by
    intro x hx
    obtain ⟨p1, rest, g1, g2⟩ := f2 x hx
    refine ⟨p1, rest, g1, ?_⟩
    have := congrArg List.length g1
    simp only [List.length_cons, List.length_append] at this
    rw [Nat.mod_eq_of_lt (by omega)] at g2
    exact g2
  refine ⟨?_, ?_, ?_⟩
  · intro h0
    cases hres : res with
    | none =>
      have := f3 hres
      omega
    | some x =>
      obtain ⟨p1, rest, g1, g2⟩ := hsome x hres
      have hp : p1 = [] := List.length_eq_zero.1 (by omega)
      subst hp
      simp only [List.nil_append, List.cons.injEq] at g1
      rw [f1, hres, g1.1]
  · intro h1 h2
    cases hres : res with
    | none =>
      have := f3 hres
      rw [Nat.mod_eq_of_lt hlt] at this
      omega
    | some x =>
      obtain ⟨p1, rest, g1, g2⟩ := hsome x hres
      cases p1 with
      | nil => simp at g2; omega
      | cons a A =>
        simp only [List.cons_append, List.cons.injEq] at g1
        refine ⟨A, x, rest, g1.2, by simpa using g2, ?_⟩
        rw [f1, hres]
  · intro h1
    cases hres : res with
    | none => rw [f1, hres]
    | some x =>
      obtain ⟨p1, rest, g1, g2⟩ := hsome x hres
      have := congrArg List.length g1
      simp only [List.length_cons, List.length_append] at this
      omega

theorem walkLoop_forward (h : Heap V) :
    ∀ (k : Nat) (B : List Nat), k ≤ B.length → Links h 0 B → (∀ q ∈ B, 1 ≤ h.height q) →
      walkLoop h false k B.head? = some ((B.take k).map h.val) := by
  intro k
  induction k with
  | zero => intro B _ _ _; rfl
  | succ k ih =>
    intro B hk hl hpos
    cases B with
    | nil => simp at hk
    | cons x B =>
      have hpt : ∀ q ∈ B, 1 ≤ h.height q := fun q hq => hpos q (List.mem_cons_of_mem _ hq)
      have he := hl.1 (hpos x (List.mem_cons_self _ _))
      rw [nextAt_zero hpt] at he
      have hn := Heap.Next_eq he
      simp only at hn
      have := ih B (by simp at hk; omega) hl.2 hpt
      simp only [List.head?_cons, walkLoop, Bool.false_eq_true, if_false, hn, this,
        Option.map_some', List.take_succ_cons, List.map_cons, Heap.val]

/-! ## The claims about `Set` -/

theorem Set.length_eq [ReValuer V] {l : Set V} {ps : List Nat} (hi : Inv l ps)
    (h0 : 0 ≤ l.length) (h1 : l.length < (M32 : Int)) : Set.Length l = ps.length % M32 := by
  have := hi.length_mod
  unfold Set.Length
  unfold M32 at *
  omega

/-- C7: rank agreement.  On every set reachable from `NewSet` by its mutators,
for every rank `r` with `1 <= r <= Length()`, `GetNodeByRank(r)` returns a node
that is neither nil nor the head sentinel, and `GetRank` of the key of that
node's value returns `r`. -/
theorem rank_agreement [ReValuer V] [Inhabited V] (l : Set V) (hr : Set.Reachable l)
    (r : Nat) (h1 : 1 ≤ r) (h2 : r ≤ Set.Length l) :
    ∃ x, Set.GetNodeByRank l r = some (some x) ∧ x ≠ l.head ∧
      Set.GetRank l (Valuer.Key (l.heap x).value) = some r := by
  obtain ⟨ps, hi, hb0, hb1⟩ := Set_reachable_inv hr
  rw [Set.length_eq hi hb0 hb1] at h2
  obtain ⟨res, f1, f2, f3⟩ := hi.toShape.getNodeByRank_spec r
  cases hres : res with
  | none =>
    have := f3 hres
    omega
  | some x =>
    obtain ⟨p1, rest, g1, g2⟩ := f2 x hres
    cases p1 with
    | nil => simp at g2; omega
    | cons a A =>
      simp only [List.cons_append, List.cons.injEq] at g1
      obtain ⟨_, g1⟩ := g1
      subst g1
      have hxm : x ∈ A ++ x :: rest := by simp
      have hxh : x ≠ l.head := fun e => (List.nodup_cons.1 hi.nodup).1 (e ▸ hxm)
      refine ⟨x, by rw [Set.GetNodeByRank, f1, hres], hxh, ?_⟩
      have hidx : l.index (Valuer.Key (l.heap x).value) = some (l.heap x).value :=
        (hi.index_iff _ _).2 ⟨x, hxm, rfl, rfl⟩
      have := hi.toShape.getRank_found (l.heap x).value rfl rfl
      simp only [Set.GetRank, hidx]
      rw [this]
      simpa using g2

set_option maxRecDepth 100000 in
/-- Witness of C7: rank 3 of the four-element set. -/
theorem rank_agreement_witness :
    Set.Reachable sampleSet ∧ 3 ≤ Set.Length sampleSet ∧
      ∃ x, Set.GetNodeByRank sampleSet 3 = some (some x) ∧ x ≠ sampleSet.head ∧
        Set.GetRank sampleSet (Valuer.Key (sampleSet.heap x).value) = some 3 :=
  ⟨sampleSet_reachable, by decide,
    rank_agreement sampleSet sampleSet_reachable 3 (by decide) (by decide)⟩

set_option maxRecDepth 100000 in
/-- C8, the code at the failing input: `GetNodeByRank(0)` returns the head
sentinel, on the empty list, on the four-element list and on the four-element
set alike (the top-level loop does not advance and `traversed == rank` holds at
once), whereas rank 1 on the empty list and rank 5 on the four-element list
give nil. -/
theorem GetNodeByRank_zero_is_head :
    (NewSkipList (cmp value)).GetNodeByRank 0 = some (some (NewSkipList (cmp value)).head) ∧
      sampleList.GetNodeByRank 0 = some (some sampleList.head) ∧
      Set.GetNodeByRank sampleSet 0 = some (some sampleSet.head) ∧
      (NewSkipList (cmp value)).GetNodeByRank 1 = some none ∧
      sampleList.GetNodeByRank 5 = some none := by
  refine ⟨by decide, by decide, by decide, by decide, by decide⟩

/-- C10: on a reachable set whose ascending traversal is `e_1..e_n` with
`n = Length()`, `GetRange(start, end, false)` treats `start = 0` as 1 and
`end = 0` as `n`, returns the empty sequence when `start > end` or `start > n`,
and otherwise clamps `end` to `n` and returns `e_start, ..., e_end` in ascending
order. -/
theorem GetRange_forward [ReValuer V] [Inhabited V] (l : Set V) (hr : Set.Reachable l)
    (ts : List V) (hts : Set.Range l = some ts) (hn : ts.length = Set.Length l)
    (start stop : Nat) (h1 : start < M32) (h2 : stop < M32) :
    Set.GetRange l start stop false = some (
      if (if start = 0 then 1 else start) > (if stop = 0 then ts.length else stop) ∨
          (if start = 0 then 1 else start) > ts.length then []
      else (ts.drop ((if start = 0 then 1 else start) - 1)).take
        (min (if stop = 0 then ts.length else stop) ts.length -
          (if start = 0 then 1 else start) + 1)) := by
  obtain ⟨ps, hi, hb0, hb1⟩ := Set_reachable_inv hr
  have htr : Set.Range l = some (ps.map l.heap.val) := hi.toShape.traversal_eq
  rw [htr] at hts
  cases hts
  rw [Set.length_eq hi hb0 hb1, List.length_map] at hn
  have hlt : ps.length < M32 := by
    rw [hn]; exact Nat.mod_lt _ (by decide)
  have hlen : Set.Length l = ps.length := by
    rw [Set.length_eq hi hb0 hb1]; exact hn.symm
  simp only [Set.GetRange, hlen, List.length_map]
  generalize hs : (if start = 0 then 1 else start) = s
  generalize he : (if stop = 0 then ps.length else stop) = e
  have hs1 : 1 ≤ s := by rw [← hs]; split_ifs <;> omega
  have hs2 : s < M32 := by
    rw [← hs]; split_ifs
    · decide
    · exact h1
  have he2 : e < M32 := by
    rw [← he]; split_ifs
    · exact hlt
    · exact h2
  by_cases hc : s > e ∨ s > ps.length
  · simp only [hc, if_true]
  · simp only [hc, if_false]
    have hse : s ≤ e := by omega
    have hsn : s ≤ ps.length := by omega
    obtain ⟨A, x, B, hps, hA, hg⟩ := (hi.toShape.getNodeByRank_exact hlt s).2.1 hs1 hsn
    have hmin : (if e > ps.length then ps.length else e) = min e ps.length := by
      split_ifs <;> omega
    have hrl : add32 (sub32 (min e ps.length) s) 1 = min e ps.length - s + 1 := by
      unfold add32 sub32 M32 at *
      omega
    simp only [Set.GetNodeByRank, hg, hmin, hrl]
    have hl0 := hi.links 0 hi.level_pos
    have hLx : l.head :: ps = (l.head :: A) ++ x :: B := by rw [hps]; simp
    rw [hLx] at hl0
    have hxB : Links l.heap 0 (x :: B) := Links_suffix _ hl0
    have hpos : ∀ q ∈ x :: B, 1 ≤ l.heap.height q := fun q hq =>
      hi.height_pos q (by rw [hps]; exact List.mem_append_right _ hq)
    have hk : min e ps.length - s + 1 ≤ (x :: B).length := by
      have := congrArg List.length hps
      simp only [List.length_append, List.length_cons] at this ⊢
      omega
    have := walkLoop_forward l.heap _ (x :: B) hk hxB hpos
    simp only [List.head?_cons] at this
    rw [this]
    have hdrop : (ps.map l.heap.val).drop (s - 1) = (x :: B).map l.heap.val := by
      rw [hps, List.map_append, List.drop_append_of_le_length (by simp; omega)]
      have : s - 1 = (A.map l.heap.val).length := by simp; omega
      rw [this, List.drop_length, List.nil_append]
    rw [hdrop, List.map_take]
    simp

set_option maxRecDepth 100000 in
/-- Witness of C10: `GetRange(1, 15, false)` on the four-element set returns its
four elements in ascending order. -/
theorem GetRange_forward_witness :
    Set.Reachable sampleSet ∧
      Set.Range sampleSet = some [⟨3, 8⟩, ⟨1, 10⟩, ⟨2, 10⟩, ⟨4, 11⟩] ∧
      Set.GetRange sampleSet 1 15 false = some [⟨3, 8⟩, ⟨1, 10⟩, ⟨2, 10⟩, ⟨4, 11⟩] := by
  have h1 : Set.Range sampleSet = some [⟨3, 8⟩, ⟨1, 10⟩, ⟨2, 10⟩, ⟨4, 11⟩] := by decide
  have h2 := GetRange_forward sampleSet sampleSet_reachable _ h1 (by decide) 1 15 (by decide)
    (by decide)
  exact ⟨sampleSet_reachable, h1, h2⟩

/-! ## The spans of a level -/

theorem filter_low {ht : Nat → Nat} {i : Nat} {a : List Nat} (ha : ∀ q ∈ a, ht q ≤ i) :
    a.filter (fun q => decide (i < ht q)) = [] := by
  rw [List.filter_eq_nil_iff]
  intro q hq
  have := ha q hq
  simp only [decide_eq_true_eq]
  omega

/-- The chain that `Dump` prints for a linked level: the nodes whose tower
reaches the level, with spans that add up to the number of nodes after the
first, modulo 2^32. -/
theorem dumpLevel_spec (h : Heap V) (i : Nat) :
    ∀ (n : Nat) (p : Nat) (rest : List Nat) (fuel : Nat), rest.length ≤ n →
      Links h i (p :: rest) → i < h.height p → rest.length + 1 < fuel →
      ∃ chain, dumpLevel h i fuel (some p) = some chain ∧
        chain.map Prod.fst = (p :: rest).filter (fun q => decide (i < h.height q)) ∧
        (chain.map Prod.snd).sum % M32 = rest.length % M32 ∧
        (rest.length < M32 → (chain.map Prod.snd).sum = rest.length) := by
  intro n
  induction n with
  | zero =>
    intro p rest fuel hn hl hp hf
    have hr : rest = [] := List.length_eq_zero.1 (by omega)
    subst hr
    obtain ⟨f, rfl⟩ : ∃ f, fuel = f + 2 := ⟨fuel - 2, by simp at hf; omega⟩
    have he := hl.1 hp
    refine ⟨[(p, 0)], ?_, ?_, by simp, by simp⟩
    · simp [dumpLevel, Heap.Span_eq he, Heap.Next_eq he, nextAt, gap]
    · simp [hp]
  | succ n ih =>
    intro p rest fuel hn hl hp hf
    obtain ⟨f, rfl⟩ : ∃ f, fuel = f + 2 := ⟨fuel - 2, by omega⟩
    have he := hl.1 hp
    rcases low_split h.height i rest with hlow | ⟨a, q, b, rfl, ha, hq⟩
    · rw [nextAt_low hlow, gap_low hlow] at he
      refine ⟨[(p, rest.length % M32)], ?_, ?_, by simp, ?_⟩
      · simp [dumpLevel, Heap.Span_eq he, Heap.Next_eq he]
      · simp [hp, filter_low hlow]
      · intro hlt
        simp [Nat.mod_eq_of_lt hlt]
    · rw [nextAt_append_high _ ha hq, gap_append_high _ ha hq] at he
      have hlq : Links h i (q :: b) := Links_suffix (p :: a) (by simpa using hl)
      simp only [List.length_append, List.length_cons] at hn hf
      obtain ⟨chain, c1, c2, c3, c4⟩ := ih q b (f + 1) (by omega) hlq hq (by omega)
      refine ⟨(p, (a.length + 1) % M32) :: chain, ?_, ?_, ?_, ?_⟩
      · rw [dumpLevel]
        simp only [Heap.Span_eq he, Heap.Next_eq he, c1, Option.bind_eq_bind, Option.some_bind]
      · rw [List.map_cons, c2]
        simp only [List.filter_cons, hp, decide_True, if_true, List.filter_append,
          filter_low ha, List.nil_append]
      · simp only [List.map_cons, List.sum_cons, List.length_append, List.length_cons]
        unfold M32 at *
        omega
      · intro hlt
        simp only [List.length_append, List.length_cons] at hlt
        simp only [List.map_cons, List.sum_cons, List.length_append, List.length_cons]
        rw [c4 (by omega), Nat.mod_eq_of_lt (by omega)]
        omega

theorem Shape.dumpLevel_sum [Valuer V] {l : SkipList V} {ps : List Nat} (hs : Shape l ps)
    {i : Nat} (hi : i < l.level) :
    ∃ chain, l.dumpLevel i = some chain ∧
      chain.map Prod.fst = (l.head :: ps).filter (fun q => decide (i < l.heap.height q)) ∧
      (chain.map Prod.snd).sum % M32 = ps.length % M32 ∧
      (ps.length < M32 → (chain.map Prod.snd).sum = ps.length) := by
  have hh : i < l.heap.height l.head := by
    rw [hs.head_height]
    exact lt_of_lt_of_le hi hs.level_le
  have := hs.length_lt
  exact dumpLevel_spec l.heap i ps.length l.head ps (l.alloc + 1) (le_refl _) (hs.links i hi) hh
    (by omega)

/-- A reachable list, of either type, satisfies the representation invariant, and its
field `length` counts its nodes when there are fewer than 2^32 of them. -/
theorem reachable_inv [ReValuer V] [Inhabited V] {l : SkipList V}
    (hr : SkipList.Reachable l ∨ Set.Reachable l) :
    ∃ ps, Inv l ps ∧ (ps.length < M32 → l.length = ps.length) := by
  rcases hr with hr | hr
  · obtain ⟨ps, hi, hlen⟩ := hr.inv
    exact ⟨ps, hi, fun _ => hlen⟩
  · obtain ⟨ps, hi, hb0, hb1⟩ := Set_reachable_inv hr
    refine ⟨ps, hi, fun hlt => ?_⟩
    have := hi.length_mod
    unfold M32 at *
    omega

/-- C19 (amended): on every reachable list, of either type, and at every level
`i` below the current level, the spans of the nodes on the forward chain from
the head sentinel, the head and the last node included, add up to `Length()`
(not to `Length() + 1`) when the list holds fewer than 2^32 elements; in
general the sum is congruent to `Length()` modulo 2^32, spans being `uint32`. -/
theorem span_sum [ReValuer V] [Inhabited V] (l : SkipList V)
    (hr : SkipList.Reachable l ∨ Set.Reachable l) (ts : List V) (hts : l.traversal = some ts)
    (i : Nat) (hi : i < l.Level) :
    ∃ chain, l.dumpLevel i = some chain ∧ chain.head?.map Prod.fst = some l.head ∧
      ((chain.map Prod.snd).sum : Int) % (M32 : Int) = l.Length % (M32 : Int) ∧
      (ts.length < M32 → ((chain.map Prod.snd).sum : Int) = l.Length) := by
  obtain ⟨ps, hinv, hlen⟩ := reachable_inv hr
  have htr : l.traversal = some (ps.map l.heap.val) := hinv.toShape.traversal_eq
  rw [htr] at hts
  cases hts
  obtain ⟨chain, c1, c2, c3, c4⟩ := hinv.toShape.dumpLevel_sum hi
  have hh : i < l.heap.height l.head := by
    rw [hinv.head_height]
    exact lt_of_lt_of_le hi hinv.level_le
  refine ⟨chain, c1, ?_, ?_, ?_⟩
  · have : (chain.map Prod.fst).head? = some l.head := by
      rw [c2]; simp [List.filter_cons, hh]
    simpa using this
  · have := hinv.length_mod
    show _ = l.length % (M32 : Int)
    rw [this]
    have e : ((chain.map Prod.snd).sum : Int) % (M32 : Int) =
        (((chain.map Prod.snd).sum % M32 : Nat) : Int) := by push_cast; rfl
    rw [e, c3]
    push_cast
    rfl
  · intro hlt
    rw [List.length_map] at hlt
    show _ = l.length
    rw [hlen hlt, c4 hlt]

set_option maxRecDepth 100000 in
/-- Witness of C19: level 1 of the four-element list. -/
theorem span_sum_witness :
    SkipList.Reachable sampleList ∧
      sampleList.traversal = some [⟨3, 8⟩, ⟨1, 10⟩, ⟨2, 10⟩, ⟨4, 11⟩] ∧
      ∃ chain, sampleList.dumpLevel 1 = some chain ∧
        chain.head?.map Prod.fst = some sampleList.head ∧
        ((chain.map Prod.snd).sum : Int) % (M32 : Int) = sampleList.Length % (M32 : Int) ∧
        ((4 : Nat) < M32 → ((chain.map Prod.snd).sum : Int) = sampleList.Length) := by
  have h1 : sampleList.traversal = some [⟨3, 8⟩, ⟨1, 10⟩, ⟨2, 10⟩, ⟨4, 11⟩] := by decide
  exact ⟨sampleList_reachable, h1,
    span_sum sampleList (Or.inl sampleList_reachable) _ h1 1 (by decide)⟩

set_option maxRecDepth 100000 in
/-- C19, as stated, fails: on the four-element list of the tests (`Length()` 4,
current level 3) the spans of each of the three levels add up to 4, not to 5;
on the empty list the only span is 0, not 1. -/
theorem span_sum_counterexample :
    SkipList.Reachable sampleList ∧ sampleList.Length = 4 ∧ sampleList.Level = 3 ∧
      sampleList.dumpLevel 0 = some [(0, 1), (3, 1), (1, 1), (2, 1), (4, 0)] ∧
      sampleList.dumpLevel 1 = some [(0, 1), (3, 1), (1, 2)] ∧
      sampleList.dumpLevel 2 = some [(0, 1), (3, 3)] ∧
      (NewSkipList (cmp value)).Length = 0 ∧
      (NewSkipList (cmp value)).dumpLevel 0 = some [(0, 0)] ∧
      ¬ (∀ (l : SkipList value), SkipList.Reachable l → ∀ (i : Nat), i < l.Level →
          ∃ chain, l.dumpLevel i = some chain ∧
            ((chain.map Prod.snd).sum : Int) = l.Length + 1) := by
  have h0 : sampleList.dumpLevel 0 = some [(0, 1), (3, 1), (1, 1), (2, 1), (4, 0)] := by decide
  refine ⟨sampleList_reachable, by decide, by decide, h0, by decide, by decide, by decide,
    by decide, fun h => ?_⟩
  obtain ⟨chain, e1, e2⟩ := h sampleList sampleList_reachable 0 (by decide)
  rw [h0] at e1
  cases e1
  have hl : sampleList.Length = 4 := by decide
  rw [hl] at e2
  exact absurd e2 (by decide)

theorem indexOf_mid {pre rest : List Nat} {x : Nat} (hnd : (pre ++ x :: rest).Nodup) :
    (pre ++ x :: rest).indexOf x = pre.length := by
  have hx : x ∉ pre := by
    rw [List.nodup_middle, List.nodup_cons] at hnd
    exact fun h => hnd.1 (List.mem_append_left _ h)
  rw [List.indexOf_append_of_not_mem hx, List.indexOf_cons_self]
  rfl

theorem Shape.dumpLevel_zero [Valuer V] {l : SkipList V} {ps : List Nat} (hs : Shape l ps) :
    ∃ c0, l.dumpLevel 0 = some c0 ∧ c0.map Prod.fst = l.head :: ps := by
  obtain ⟨c0, h1, h2, _, _⟩ := hs.dumpLevel_sum hs.level_pos
  refine ⟨c0, h1, ?_⟩
  rw [h2, List.filter_eq_self]
  intro q hq
  simp only [decide_eq_true_eq]
  rcases List.mem_cons.1 hq with rfl | hq
  · rw [hs.head_height]; decide
  · exact hs.height_pos q hq

/-- The span of a forward link is the distance between the positions of its two
ends on the level-0 chain, as a `uint32`. -/
theorem Shape.span_eq [Valuer V] {l : SkipList V} {ps : List Nat} (hs : Shape l ps)
    {i x y : Nat} (hi : i < l.level) (hx : x ∈ l.head :: ps)
    (hn : l.heap.Next x i = some (some y)) :
    y ∈ l.head :: ps ∧ (l.head :: ps).indexOf x < (l.head :: ps).indexOf y ∧
      l.heap.Span x i =
        some (((l.head :: ps).indexOf y - (l.head :: ps).indexOf x) % M32) := by
  obtain ⟨pre, rest, hL⟩ := List.append_of_mem hx
  have hnd := hs.nodup
  have hl := hs.links i hi
  rw [hL] at hnd hl ⊢
  obtain ⟨lv, hlv, hfw⟩ : ∃ lv, (l.heap x).lvl i = some lv ∧ lv.forward = some y := by
    unfold Heap.Next Node.Next at hn
    cases hlv : (l.heap x).lvl i with
    | none => rw [hlv] at hn; cases hn
    | some lv =>
      rw [hlv] at hn
      simp only [Option.map_some', Option.some.injEq] at hn
      exact ⟨lv, rfl, hn⟩
  have hht := height_of_lvl hlv
  have he := (Links_suffix pre hl).1 hht
  rw [hlv] at he
  simp only [Option.some.injEq] at he
  rw [he] at hfw
  simp only at hfw
  obtain ⟨a, b, rfl, ha, hy⟩ := nextAt_some hfw
  have hgap := @gap_append_high l.heap.height i a y b ha hy
  have e1 : pre ++ x :: (a ++ y :: b) = (pre ++ x :: a) ++ y :: b := by simp
  have hix := indexOf_mid hnd
  have hiy : (pre ++ x :: (a ++ y :: b)).indexOf y = (pre ++ x :: a).length := by
    rw [e1] at hnd ⊢
    exact indexOf_mid hnd
  rw [hix, hiy]
  simp only [List.length_append, List.length_cons]
  refine ⟨by simp, by omega, ?_⟩
  rw [Heap.Span_eq hlv, he]
  simp only [hgap]
  congr 2
  omega

/-- The rank that a search accumulates is the position of the node it ends on,
as a `uint32`. -/
theorem Shape.search_rank [Valuer V] {l : SkipList V} {ps : List Nat} (hs : Shape l ps)
    (cond : Nat → V → Bool) :
    ∃ x upd rk,
      search l.heap cond l.alloc l.level l.head 0 (fun _ => none) (fun _ => 0) =
        some (x, upd, rk) ∧
      x ∈ l.head :: ps ∧ rk 0 = (l.head :: ps).indexOf x % M32 := by
  obtain ⟨A, B, x, upd, rk, e1, e2, e3, _, _, _, _, _, e9⟩ := search_shape hs cond
  subst e1
  refine ⟨x, upd, rk, e2, ?_, ?_⟩
  · rcases lastOr_head_cases e3 with ⟨_, rfl⟩ | ⟨A1, rfl⟩
    · simp
    · simp
  · rw [e9]
    congr 1
    rcases lastOr_head_cases e3 with ⟨rfl, rfl⟩ | ⟨A1, rfl⟩
    · simp
    · have hnd := hs.nodup
      have e : l.head :: (A1 ++ [x] ++ B) = (l.head :: A1) ++ x :: B := by simp
      rw [e] at hnd ⊢
      rw [indexOf_mid hnd]
      simp

/-- C20 (amended): on every reachable list, of either type, let the level-0
chain from the head sentinel give each node its rank (the head has rank 0).
At every level `i` below the current level, a node `x` of the chain whose
forward link at level `i` points to a node `y` has a span equal to
`rank(y) - rank(x)`, the number of level-0 steps from `x` to `y`, modulo 2^32
(the number itself when the list holds fewer than 2^32 elements); and the
rank accumulated by a level-descending search, whatever its loop condition, is
the rank of the node it ends on, modulo 2^32. -/
theorem span_integrity [ReValuer V] [Inhabited V] (l : SkipList V)
    (hr : SkipList.Reachable l ∨ Set.Reachable l) :
    ∃ c0, l.dumpLevel 0 = some c0 ∧ (c0.map Prod.fst).indexOf l.head = 0 ∧
      (∀ i x y, i < l.Level → x ∈ c0.map Prod.fst → l.heap.Next x i = some (some y) →
        y ∈ c0.map Prod.fst ∧
        (c0.map Prod.fst).indexOf x < (c0.map Prod.fst).indexOf y ∧
        l.heap.Span x i =
          some (((c0.map Prod.fst).indexOf y - (c0.map Prod.fst).indexOf x) % M32) ∧
        (c0.length ≤ M32 → l.heap.Span x i =
          some ((c0.map Prod.fst).indexOf y - (c0.map Prod.fst).indexOf x))) ∧
      (∀ cond : Nat → V → Bool, ∃ x upd rk,
        search l.heap cond l.alloc l.Level l.head 0 (fun _ => none) (fun _ => 0) =
          some (x, upd, rk) ∧
        x ∈ c0.map Prod.fst ∧ rk 0 = (c0.map Prod.fst).indexOf x % M32) := by
  obtain ⟨ps, hinv, _⟩ := reachable_inv hr
  have hs := hinv.toShape
  obtain ⟨c0, h1, h2⟩ := hs.dumpLevel_zero
  refine ⟨c0, h1, ?_, ?_, ?_⟩
  · rw [h2, List.indexOf_cons_self]
  · intro i x y hi hx hn
    rw [h2] at hx ⊢
    obtain ⟨g1, g2, g3⟩ := hs.span_eq hi hx hn
    refine ⟨g1, g2, g3, fun hlen => ?_⟩
    rw [g3]
    have hly : (l.head :: ps).indexOf y < (l.head :: ps).length := List.indexOf_lt_length.2 g1
    have hc : c0.length = (l.head :: ps).length := by rw [← h2, List.length_map]
    rw [Nat.mod_eq_of_lt (by omega)]
  · intro cond
    rw [h2]
    exact hs.search_rank cond

set_option maxRecDepth 100000 in
/-- Witness of C20: the four-element list of the tests. -/
theorem span_integrity_witness :
    SkipList.Reachable sampleList ∧
      ∃ c0, sampleList.dumpLevel 0 = some c0 ∧ (c0.map Prod.fst).indexOf sampleList.head = 0 ∧
        (∀ i x y, i < sampleList.Level → x ∈ c0.map Prod.fst →
          sampleList.heap.Next x i = some (some y) →
          y ∈ c0.map Prod.fst ∧
          (c0.map Prod.fst).indexOf x < (c0.map Prod.fst).indexOf y ∧
          sampleList.heap.Span x i =
            some (((c0.map Prod.fst).indexOf y - (c0.map Prod.fst).indexOf x) % M32) ∧
          (c0.length ≤ M32 → sampleList.heap.Span x i =
            some ((c0.map Prod.fst).indexOf y - (c0.map Prod.fst).indexOf x))) ∧
        (∀ cond : Nat → value → Bool, ∃ x upd rk,
          search sampleList.heap cond sampleList.alloc sampleList.Level sampleList.head 0
            (fun _ => none) (fun _ => 0) = some (x, upd, rk) ∧
          x ∈ c0.map Prod.fst ∧ rk 0 = (c0.map Prod.fst).indexOf x % M32) :=
  ⟨sampleList_reachable, span_integrity sampleList (Or.inl sampleList_reachable)⟩

/-! ## Ranges by rank: reverse order and deletion -/

theorem walkLoop_backward (h : Heap V) :
    ∀ (k : Nat) (A : List Nat) (x : Nat) (B : List Nat), Back h none (A ++ x :: B) →
      k ≤ A.length + 1 →
      walkLoop h true k (some x) = some (((A ++ [x]).reverse.take k).map h.val) := by
  intro k
  induction k with
  | zero => intro A x B _ _; rfl
  | succ k ih =>
    intro A x B hb hk
    have hbx : (h x).backward = lastOr none A := ((Back_append none A (x :: B)).1 hb).2.1
    rcases List.eq_nil_or_concat A with rfl | ⟨A1, y, rfl⟩
    · have hk0 : k = 0 := by simpa using hk
      subst hk0
      simp [walkLoop, hbx, lastOr, Heap.val]
    · simp only [List.concat_eq_append] at hb hk hbx ⊢
      rw [lastOr_append] at hbx
      have hb1 : Back h none (A1 ++ y :: (x :: B)) := by simpa using hb
      have := ih A1 y (x :: B) hb1 (by simp at hk; omega)
      simp [walkLoop, hbx, this, Heap.val]

/-- C11 (amended): on a reachable set whose ascending traversal is `e_1..e_n`
with `n = Length()` (that is, a set of fewer than 2^32 elements),
`GetRange(start, end, true)` treats `start = 0` as 1 and
`end = 0` as `n`, returns the empty sequence when `start > end` or `start > n`,
and otherwise clamps `end` to `n` and returns the positions `start..end` of the
descending order, `e_{n-start+1}, ..., e_{n-end+1}`; the walk along the backward
links never meets a missing node. -/
theorem GetRange_reverse [ReValuer V] [Inhabited V] (l : Set V) (hr : Set.Reachable l)
    (ts : List V) (hts : Set.Range l = some ts) (hn : ts.length = Set.Length l)
    (start stop : Nat) (h1 : start < M32) (h2 : stop < M32) :
    Set.GetRange l start stop true = some (
      if (if start = 0 then 1 else start) > (if stop = 0 then ts.length else stop) ∨
          (if start = 0 then 1 else start) > ts.length then []
      else (ts.reverse.drop ((if start = 0 then 1 else start) - 1)).take
        (min (if stop = 0 then ts.length else stop) ts.length -
          (if start = 0 then 1 else start) + 1)) := by
  obtain ⟨ps, hi, hb0, hb1⟩ := Set_reachable_inv hr
  have htr : Set.Range l = some (ps.map l.heap.val) := hi.toShape.traversal_eq
  rw [htr] at hts
  cases hts
  rw [Set.length_eq hi hb0 hb1, List.length_map] at hn
  have hlt : ps.length < M32 := by
    rw [hn]; exact Nat.mod_lt _ (by decide)
  have hlen : Set.Length l = ps.length := by
    rw [Set.length_eq hi hb0 hb1]; exact hn.symm
  simp only [Set.GetRange, hlen, List.length_map]
  generalize hs : (if start = 0 then 1 else start) = s
  generalize he : (if stop = 0 then ps.length else stop) = e
  have hs1 : 1 ≤ s := by rw [← hs]; split_ifs <;> omega
  have hs2 : s < M32 := by
    rw [← hs]; split_ifs
    · decide
    · exact h1
  have he2 : e < M32 := by
    rw [← he]; split_ifs
    · exact hlt
    · exact h2
  by_cases hc : s > e ∨ s > ps.length
  · simp only [hc, if_true]
  · simp only [hc, if_false]
    have hse : s ≤ e := by omega
    have hsn : s ≤ ps.length := by omega
    have hrk : add32 (sub32 ps.length s) 1 = ps.length - s + 1 := by
      unfold add32 sub32 M32 at *
      omega
    obtain ⟨A, x, B, hps, hA, hg⟩ :=
      (hi.toShape.getNodeByRank_exact hlt (ps.length - s + 1)).2.1 (by omega) (by omega)
    have hmin : (if e > ps.length then ps.length else e) = min e ps.length := by
      split_ifs <;> omega
    have hrl : add32 (sub32 (min e ps.length) s) 1 = min e ps.length - s + 1 := by
      unfold add32 sub32 M32 at *
      omega
    simp only [Set.GetNodeByRank, hrk, hg, hmin, hrl, Bool.true_eq_false, if_true]
    have hback : Back l.heap none (A ++ x :: B) := hps ▸ hi.back
    have hlenps := congrArg List.length hps
    simp only [List.length_append, List.length_cons] at hlenps
    rw [walkLoop_backward l.heap _ A x B hback (by omega)]
    have hdrop : (ps.map l.heap.val).reverse.drop (s - 1) = ((A ++ [x]).reverse).map l.heap.val := by
      have e1 : ps = (A ++ [x]) ++ B := by rw [hps]; simp
      rw [e1, List.map_append, List.reverse_append,
        List.drop_append_of_le_length (by simp; omega)]
      have : s - 1 = (B.map l.heap.val).reverse.length := by simp; omega
      rw [this, List.drop_length, List.nil_append, List.map_reverse]
    rw [hdrop, List.map_take]

set_option maxRecDepth 100000 in
/-- Witness of C11: `GetRange(2, 3, true)` on the four-element set returns the
second and the third element of the descending order. -/
theorem GetRange_reverse_witness :
    Set.Reachable sampleSet ∧
      Set.Range sampleSet = some [⟨3, 8⟩, ⟨1, 10⟩, ⟨2, 10⟩, ⟨4, 11⟩] ∧
      Set.GetRange sampleSet 2 3 true = some [⟨2, 10⟩, ⟨1, 10⟩] := by
  have h1 : Set.Range sampleSet = some [⟨3, 8⟩, ⟨1, 10⟩, ⟨2, 10⟩, ⟨4, 11⟩] := by decide
  have h2 := GetRange_reverse sampleSet sampleSet_reachable _ h1 (by decide) 2 3 (by decide)
    (by decide)
  exact ⟨sampleSet_reachable, h1, h2⟩

theorem Shape.keys_nodup_map [Valuer V] {l : SkipList V} {ps : List Nat} (hs : Shape l ps) :
    ((ps.map l.heap.val).map Valuer.Key).Nodup := by
  have := hs.keys_nodup
  rw [List.map_map]
  exact this

theorem find_key_none [Valuer V] {ts : List V} {k : Nat}
    (h : k ∉ ts.map Valuer.Key) : ts.find? (fun v => decide (Valuer.Key v = k)) = none := by
  rw [List.find?_eq_none]
  intro v hv
  simp only [decide_eq_true_eq]
  intro e
  exact h (e ▸ List.mem_map_of_mem _ hv)

theorem find_key_mem [Valuer V] {ts : List V} (hnd : (ts.map Valuer.Key).Nodup) {w : V}
    (hw : w ∈ ts) : ts.find? (fun v => decide (Valuer.Key v = Valuer.Key w)) = some w := by
  induction ts with
  | nil => cases hw
  | cons a t ih =>
    simp only [List.map_cons, List.nodup_cons] at hnd
    rcases List.mem_cons.1 hw with rfl | hw
    · simp
    · have hne : Valuer.Key a ≠ Valuer.Key w := fun e =>
        hnd.1 (e ▸ List.mem_map_of_mem _ hw)
      simp only [List.find?_cons, hne, decide_False]
      exact ih hnd.2 hw

theorem Inv.index_find [Valuer V] {l : SkipList V} {ps : List Nat} (hi : Inv l ps) (k : Nat) :
    l.index k = (ps.map l.heap.val).find? (fun v => decide (Valuer.Key v = k)) := by
  cases hk : l.index k with
  | none =>
    symm
    apply find_key_none
    intro hm
    obtain ⟨w, hw, e⟩ := List.mem_map.1 hm
    exact (hi.index_none_iff k).1 hk w hw e
  | some v =>
    obtain ⟨p, hp, e1, e2⟩ := (hi.index_iff k v).1 hk
    subst e2
    symm
    exact find_key_mem hi.toShape.keys_nodup_map (e1 ▸ List.mem_map_of_mem _ hp)

theorem find_key_remove [Valuer V] (A R C : List V) (hnd : ((A ++ R ++ C).map Valuer.Key).Nodup)
    (k : Nat) :
    (A ++ C).find? (fun v => decide (Valuer.Key v = k)) =
      if k ∈ R.map Valuer.Key then none
      else (A ++ R ++ C).find? (fun v => decide (Valuer.Key v = k)) := by
  by_cases hk : k ∈ R.map Valuer.Key
  · simp only [hk, if_true]
    apply find_key_none
    intro hm
    simp only [List.map_append, List.append_assoc] at hnd hm
    rcases List.mem_append.1 hm with h | h
    · exact (List.nodup_append.1 hnd).2.2 h (List.mem_append_left _ hk)
    · exact (List.nodup_append.1 (List.nodup_append.1 hnd).2.1).2.2 hk h
  · simp only [hk, if_false]
    rw [List.append_assoc, List.find?_append, List.find?_append, List.find?_append,
      find_key_none hk]
    simp

theorem removeRun_rank (stop : Nat) :
    ∀ (vs : List V) (t0 : Nat), t0 + vs.length ≤ M32 →
      removeRun (fun t _ => decide (t ≤ stop)) t0 vs = min vs.length (stop + 1 - t0) := by
  intro vs
  induction vs with
  | nil => intro t0 _; simp [removeRun]
  | cons v t ih =>
    intro t0 h
    simp only [List.length_cons] at h
    simp only [removeRun, List.length_cons]
    by_cases hc : t0 ≤ stop
    · simp only [hc, decide_True, if_true]
      cases t with
      | nil =>
        simp only [removeRun, List.length_nil]
        omega
      | cons w t1 =>
        have e : add32 t0 1 = t0 + 1 := by
          simp only [List.length_cons] at h
          unfold add32 M32 at *
          omega
        rw [e, ih (t0 + 1) (by omega)]
        omega
    · simp only [hc, decide_False, if_false, Bool.false_eq_true]
      omega

/-- The state after the search and the removal loop of a range deletion, in
terms of the traversal. -/
theorem Set.searchRemove_list [Valuer V] {l : Set V} {ps : List Nat} (hi : Inv l ps)
    (hb : 0 ≤ l.length ∧ l.length < (M32 : Int))
    (c1 c2 : Nat → V → Bool) (t : Nat → Nat) :
    ∃ A B x0 upd rk l1, ps = A ++ B ∧
      search l.heap c1 l.alloc l.level l.head 0 (fun _ => none) (fun _ => 0) = some (x0, upd, rk) ∧
      l.heap.Next x0 0 = some B.head? ∧ rk 0 = A.length % M32 ∧
      Barrier l.heap.height l.heap.val c1 0 (A.length + 1) B ∧
      (A = [] ∨ c1 (A.length % M32) (l.heap.val x0) = true) ∧
      lastOr (some l.head) A = some x0 ∧
      Set.removeLoop c2 upd l.alloc l B.head? (t (rk 0)) 0 =
        some (removeRun c2 (t (rk 0)) (B.map l.heap.val) % M32, l1) ∧
      Set.Range l1 = some ((A ++ B.drop (removeRun c2 (t (rk 0)) (B.map l.heap.val))).map
        l.heap.val) ∧
      (∀ k, Set.GetElement l1 k =
        if k ∈ ((B.take (removeRun c2 (t (rk 0)) (B.map l.heap.val))).map l.heap.val).map
            Valuer.Key then none
        else Set.GetElement l k) ∧
      Set.Length l1 =
        (ps.length - removeRun c2 (t (rk 0)) (B.map l.heap.val)) % M32 ∧
      removeRun c2 (t (rk 0)) (B.map l.heap.val) ≤ B.length := by
  obtain ⟨A, B, x0, upd, rk, l1, e1, e2, e3, e4, e5, e6, e7, e8, e9, e10, e11, e12⟩ :=
    Set.searchRemove_spec hi c1 c2 t
  have hle : removeRun c2 (t (rk 0)) (B.map l.heap.val) ≤ B.length := by
    have : ∀ (vs : List V) (t0 : Nat), removeRun c2 t0 vs ≤ vs.length := by
      intro vs
      induction vs with
      | nil => intro t0; simp [removeRun]
      | cons v t ih =>
        intro t0
        simp only [removeRun, List.length_cons]
        split_ifs
        · have := ih (add32 t0 1); omega
        · omega
    simpa using this (B.map l.heap.val) (t (rk 0))
  refine ⟨A, B, x0, upd, rk, l1, e1, e2, e3, e4, e5, e6, e7, e8, ?_, ?_, ?_, hle⟩
  · have := e9.toShape.traversal_eq
    rw [e10] at this
    exact this
  · intro k
    generalize removeRun c2 (t (rk 0)) (B.map l.heap.val) = run at *
    simp only [Set.GetElement]
    rw [e9.index_find, hi.index_find, e10]
    subst e1
    have hnd := hi.toShape.keys_nodup_map
    have hsplit : (A ++ B).map l.heap.val =
        A.map l.heap.val ++ (B.take run).map l.heap.val ++ (B.drop run).map l.heap.val := by
      rw [List.append_assoc, ← List.map_append, List.take_append_drop, List.map_append]
    rw [hsplit] at hnd ⊢
    rw [List.map_append]
    exact find_key_remove _ _ _ hnd k
  · generalize removeRun c2 (t (rk 0)) (B.map l.heap.val) = run at *
    have hb1 := e12 hb
    have hm := hi.length_mod
    subst e1
    simp only [List.length_append] at hm ⊢
    unfold Set.Length
    unfold M32 at *
    omega

/-- C12 (amended): on a reachable set whose ascending traversal is `e_1..e_n`
with `n = Length()` (that is, a set of fewer than 2^32 elements), for `start >= 1`, `DeleteRangeByRank(start, end)` returns the
number of ranks `r` with `start <= r <= min(end, n)` (0 when `start > n` or
`start > end`), removes exactly `e_start..e_min(end,n)` from the traversal and
from the key index, keeps the other elements in their order, and lowers
`Length()` by the count returned. -/
theorem DeleteRangeByRank_spec [ReValuer V] [Inhabited V] (l : Set V) (hr : Set.Reachable l)
    (ts : List V) (hts : Set.Range l = some ts) (hn : ts.length = Set.Length l)
    (start stop : Nat) (h0 : 1 ≤ start) :
    ∃ l1, Set.DeleteRangeByRank l start stop = some (min stop ts.length + 1 - start, l1) ∧
      Set.Range l1 = some (ts.take (start - 1) ++
        ts.drop (start - 1 + (min stop ts.length + 1 - start))) ∧
      (∀ k, Set.GetElement l1 k =
        if k ∈ ((ts.drop (start - 1)).take (min stop ts.length + 1 - start)).map Valuer.Key
        then none else Set.GetElement l k) ∧
      Set.Length l1 + (min stop ts.length + 1 - start) = Set.Length l := by
  obtain ⟨ps, hi, hb0, hb1⟩ := Set_reachable_inv hr
  have htr : Set.Range l = some (ps.map l.heap.val) := hi.toShape.traversal_eq
  rw [htr] at hts
  cases hts
  rw [Set.length_eq hi hb0 hb1, List.length_map] at hn
  have hlt : ps.length < M32 := by
    rw [hn]; exact Nat.mod_lt _ (by decide)
  have hlen : Set.Length l = ps.length := by
    rw [Set.length_eq hi hb0 hb1]; exact hn.symm
  obtain ⟨A, B, x0, upd, rk, l1, e1, e2, e3, e4, e5, e6, _, e8, e9, e10, e11, e12⟩ :=
    Set.searchRemove_list hi ⟨hb0, hb1⟩ (fun t _ => decide (t < start))
      (fun t _ => decide (t ≤ stop)) (fun r => add32 r 1)
  have hps := congrArg List.length e1
  simp only [List.length_append] at hps
  have hAlt : A.length % M32 = A.length := Nat.mod_eq_of_lt (by omega)
  -- where the search stops
  have hA : ps.take (start - 1) = A ∧ ps.drop (start - 1) = B ∧
      removeRun (fun t (_ : V) => decide (t ≤ stop)) (add32 (rk 0) 1) (B.map l.heap.val) =
        min stop ps.length + 1 - start := by
    cases B with
    | nil =>
      simp only [List.append_nil] at e1
      subst e1
      have hst : ps.length < start := by
        rcases e6 with h | h
        · subst h; simpa using h0
        · simpa [hAlt] using h
      refine ⟨List.take_of_length_le (by omega), List.drop_of_length_le (by omega), ?_⟩
      simp only [List.map_nil, removeRun]
      omega
    | cons q B1 =>
      simp only [List.length_cons] at hps
      have h1 : start ≤ A.length + 1 := by
        rcases e5 with h | ⟨q1, t1, _, _, h⟩
        · cases h
        · rw [Nat.mod_eq_of_lt (by omega)] at h
          simpa using h
      have h2 : A.length < start := by
        rcases e6 with h | h
        · subst h; simpa using h0
        · simpa [hAlt] using h
      have hAl : A.length = start - 1 := by omega
      refine ⟨by rw [e1, ← hAl, List.take_left], by rw [e1, ← hAl, List.drop_left], ?_⟩
      have e : add32 (rk 0) 1 = start := by
        rw [e4, hAlt]
        unfold add32
        rw [Nat.mod_eq_of_lt (by omega)]
        omega
      rw [e, removeRun_rank stop _ start (by simp; omega)]
      simp only [List.length_map, List.length_cons]
      omega
  obtain ⟨hA1, hA2, hrun⟩ := hA
  rw [hrun] at e8 e9 e10 e11
  refine ⟨l1, ?_, ?_, ?_, ?_⟩
  · simp only [Set.DeleteRangeByRank, e2, Option.bind_eq_bind, Option.some_bind, e3,
      List.length_map]
    rw [e8, Nat.mod_eq_of_lt (by omega)]
  · rw [e9, List.length_map, List.map_append, ← List.map_take, ← List.map_drop, hA1,
      ← hA2, List.drop_drop, Nat.add_comm]
  · intro k
    rw [e10 k, List.length_map, ← hA2, ← List.map_drop, ← List.map_take]
  · rw [e11, hlen, List.length_map, Nat.mod_eq_of_lt (by omega)]
    omega

set_option maxRecDepth 100000 in
/-- Witness of C12: `DeleteRangeByRank(1, 3)` on the four-element set returns 3
and leaves the highest element. -/
theorem DeleteRangeByRank_spec_witness :
    Set.Reachable sampleSet ∧
      Set.Range sampleSet = some [⟨3, 8⟩, ⟨1, 10⟩, ⟨2, 10⟩, ⟨4, 11⟩] ∧
      ∃ l1, Set.DeleteRangeByRank sampleSet 1 3 = some (3, l1) ∧
        Set.Range l1 = some [⟨4, 11⟩] ∧
        (∀ k, Set.GetElement l1 k =
          if k ∈ [3, 1, 2] then none else Set.GetElement sampleSet k) ∧
        Set.Length l1 + 3 = Set.Length sampleSet := by
  have h1 : Set.Range sampleSet = some [⟨3, 8⟩, ⟨1, 10⟩, ⟨2, 10⟩, ⟨4, 11⟩] := by decide
  have h2 := DeleteRangeByRank_spec sampleSet sampleSet_reachable _ h1 (by decide) 1 3
    (by decide)
  exact ⟨sampleSet_reachable, h1, h2⟩

/-! ## Ranges of scores -/

theorem minCond_eq (rg : RangeSpec) (s : Nat) :
    ((rg.MinEx && decide (s ≤ rg.Min)) || (!rg.MinEx && decide (s < rg.Min))) =
      !ValueGteMin s rg := by
  unfold ValueGteMin
  cases rg.MinEx
  · by_cases h : s < rg.Min
    · have h1 : ¬ s ≥ rg.Min := by omega
      simp [h, h1]
    · have h1 : s ≥ rg.Min := by omega
      simp [h, h1]
  · by_cases h : s ≤ rg.Min
    · have h1 : ¬ s > rg.Min := by omega
      simp [h, h1]
    · have h1 : s > rg.Min := by omega
      simp [h, h1]

theorem maxCond_eq (rg : RangeSpec) (s : Nat) :
    ((rg.MaxEx && decide (s < rg.Max)) || (!rg.MaxEx && decide (s ≤ rg.Max))) =
      ValueLteMax s rg := by
  unfold ValueLteMax
  cases rg.MaxEx <;> simp

theorem ValueGteMin_mono {rg : RangeSpec} {s t : Nat} (h : s ≤ t)
    (hs : ValueGteMin s rg = true) : ValueGteMin t rg = true := by
  unfold ValueGteMin at *
  split_ifs at * <;> simp at * <;> omega

theorem ValueLteMax_anti {rg : RangeSpec} {s t : Nat} (h : s ≤ t)
    (ht : ValueLteMax t rg = true) : ValueLteMax s rg = true := by
  unfold ValueLteMax at *
  split_ifs at * <;> simp at * <;> omega

theorem Before.score_le [Valuer V] {a b : V} (h : Before a b) :
    Valuer.Score a ≤ Valuer.Score b := by
  rcases h with h | ⟨h, _⟩ <;> omega

/-- Where a search stops whose condition reads the value only and is closed
under going to smaller scores: it has passed exactly the nodes that satisfy the
condition. -/
theorem search_score_split [Valuer V] {l : SkipList V} {A B : List Nat} {x0 : Nat}
    (hs : Shape l (A ++ B)) (c : V → Bool)
    (hc : ∀ a b, Valuer.Score a ≤ Valuer.Score b → c b = true → c a = true)
    (hlast : lastOr (some l.head) A = some x0)
    (hbar : Barrier l.heap.height l.heap.val (fun _ v => c v) 0 (A.length + 1) B)
    (hent : A = [] ∨ c (l.heap.val x0) = true) :
    (∀ p ∈ A, c (l.heap.val p) = true) ∧ (∀ p ∈ B, c (l.heap.val p) = false) := by
  have hsorted := hs.sorted
  rw [List.map_append, List.pairwise_append] at hsorted
  obtain ⟨sA, sB, _⟩ := hsorted
  constructor
  · rcases hent with rfl | hent
    · simp
    · rcases lastOr_head_cases hlast with ⟨rfl, _⟩ | ⟨A1, rfl⟩
      · simp
      · intro p hp
        rcases List.mem_append.1 hp with hp | hp
        · rw [List.map_append, List.pairwise_append] at sA
          exact hc _ _ (sA.2.2 _ (List.mem_map_of_mem _ hp) _ (by simp)).score_le hent
        · rw [List.mem_singleton.1 hp]; exact hent
  · rcases hbar with rfl | ⟨q, t, rfl, _, hq⟩
    · simp
    · have hq1 : c (l.heap.val q) = false := hq
      intro p hp
      rcases List.mem_cons.1 hp with rfl | hp
      · exact hq1
      · rw [List.map_cons, List.pairwise_cons] at sB
        cases hcp : c (l.heap.val p) with
        | false => rfl
        | true =>
          have := hc _ _ (sB.1 _ (List.mem_map_of_mem _ hp)).score_le hcp
          rw [hq1] at this
          cases this

theorem removeRun_sorted [Valuer V] (c : V → Bool)
    (hc : ∀ a b, Valuer.Score a ≤ Valuer.Score b → c b = true → c a = true) :
    ∀ (vs : List V) (t : Nat), vs.Pairwise Before →
      vs.take (removeRun (fun _ v => c v) t vs) = vs.filter c ∧
        vs.drop (removeRun (fun _ v => c v) t vs) = vs.filter (fun v => !c v) := by
  intro vs
  induction vs with
  | nil => intro t _; simp [removeRun]
  | cons v vs ih =>
    intro t hp
    rw [List.pairwise_cons] at hp
    cases hcv : c v with
    | true =>
      obtain ⟨i1, i2⟩ := ih (add32 t 1) hp.2
      simp only [removeRun, hcv, if_true, List.take_succ_cons, List.drop_succ_cons, i1, i2,
        List.filter_cons, Bool.not_true, Bool.false_eq_true, if_false]
      exact ⟨trivial, trivial⟩
    | false =>
      have hall : ∀ w ∈ vs, c w = false := by
        intro w hw
        cases hcw : c w with
        | false => rfl
        | true =>
          have := hc _ _ (hp.1 w hw).score_le hcw
          rw [hcv] at this
          cases this
      have e1 : vs.filter c = [] := by
        rw [List.filter_eq_nil_iff]
        intro w hw
        rw [hall w hw]; simp
      have e2 : vs.filter (fun v => !c v) = vs := by
        rw [List.filter_eq_self]
        intro w hw
        rw [hall w hw]; rfl
      simp [removeRun, hcv, List.filter_cons, e1, e2]

theorem filter_all_true {c : V → Bool} {vs : List V} (h : ∀ v ∈ vs, c v = true) :
    vs.filter c = vs := List.filter_eq_self.2 h

theorem filter_all_false {c : V → Bool} {vs : List V} (h : ∀ v ∈ vs, c v = false) :
    vs.filter c = [] := by
  rw [List.filter_eq_nil_iff]
  intro v hv
  rw [h v hv]; simp

/-- `DeleteRangeByScore` on a well-formed set, in terms of its traversal. -/
theorem Set.DeleteRangeByScore_list [Valuer V] {l : Set V} {ps : List Nat} (hi : Inv l ps)
    (hb : 0 ≤ l.length ∧ l.length < (M32 : Int)) (rg : RangeSpec) :
    ∃ l1, Set.DeleteRangeByScore l rg =
        some (((ps.map l.heap.val).filter (InRange rg)).length % M32, l1) ∧
      Set.Range l1 = some ((ps.map l.heap.val).filter fun v => !InRange rg v) ∧
      (∀ k, Set.GetElement l1 k =
        if k ∈ ((ps.map l.heap.val).filter (InRange rg)).map Valuer.Key then none
        else Set.GetElement l k) ∧
      Set.Length l1 = (ps.length - ((ps.map l.heap.val).filter (InRange rg)).length) % M32 := by
  obtain ⟨A, B, x0, upd, rk, l1, e1, e2, e3, e4, e5, e6, e7, e8, e9, e10, e11, e12⟩ :=
    Set.searchRemove_list hi hb
      (fun _ next => (rg.MinEx && decide (Valuer.Score next ≤ rg.Min)) ||
        (!rg.MinEx && decide (Valuer.Score next < rg.Min)))
      (fun _ v => (rg.MaxEx && decide (Valuer.Score v < rg.Max)) ||
        (!rg.MaxEx && decide (Valuer.Score v ≤ rg.Max))) (fun _ => 0)
  subst e1
  simp only [minCond_eq, maxCond_eq] at e2 e5 e6 e8 e9 e10 e11 e12
  obtain ⟨hA, hB⟩ := search_score_split hi.toShape (fun v => !ValueGteMin (Valuer.Score v) rg)
    (by
      intro a b hab hcb
      cases hga : ValueGteMin (Valuer.Score a) rg with
      | false => simp [hga]
      | true =>
        simp only [ValueGteMin_mono hab hga] at hcb
        cases hcb) e7 e5 e6
  have hsorted := hi.sorted
  rw [List.map_append, List.pairwise_append] at hsorted
  obtain ⟨take_eq, drop_eq⟩ := removeRun_sorted (fun v : V => ValueLteMax (Valuer.Score v) rg)
    (fun a b hab hcb => ValueLteMax_anti hab hcb) (B.map l.heap.val) 0 hsorted.2.1
  generalize removeRun (fun _ (v : V) => ValueLteMax (Valuer.Score v) rg) 0 (B.map l.heap.val) =
    run at *
  -- the values of the two parts
  have hAf : (A.map l.heap.val).filter (InRange rg) = [] := by
    apply filter_all_false
    intro v hv
    obtain ⟨p, hp, rfl⟩ := List.mem_map.1 hv
    have := hA p hp
    simp only [Bool.not_eq_true'] at this
    simp [InRange, this]
  have hAn : (A.map l.heap.val).filter (fun v => !InRange rg v) = A.map l.heap.val := by
    apply filter_all_true
    intro v hv
    obtain ⟨p, hp, rfl⟩ := List.mem_map.1 hv
    have := hA p hp
    simp only [Bool.not_eq_true'] at this
    simp [InRange, this]
  have hBg : ∀ v ∈ B.map l.heap.val, InRange rg v = ValueLteMax (Valuer.Score v) rg := by
    intro v hv
    obtain ⟨p, hp, rfl⟩ := List.mem_map.1 hv
    have := hB p hp
    simp only [Bool.not_eq_false'] at this
    simp [InRange, this]
  have hBf : (B.map l.heap.val).filter (InRange rg) = (B.take run).map l.heap.val := by
    rw [List.map_take, take_eq]
    exact List.filter_congr hBg
  have hBn : (B.map l.heap.val).filter (fun v => !InRange rg v) = (B.drop run).map l.heap.val := by
    rw [List.map_drop, drop_eq]
    exact List.filter_congr fun v hv => by rw [hBg v hv]
  have hlen : ((A ++ B).map l.heap.val |>.filter (InRange rg)).length = run := by
    rw [List.map_append, List.filter_append, hAf, hBf]
    simp
    omega
  refine ⟨l1, ?_, ?_, ?_, ?_⟩
  · simp only [Set.DeleteRangeByScore, e2, minCond_eq, maxCond_eq, Option.bind_eq_bind,
      Option.some_bind, e3]
    rw [hlen]
    exact e8
  · rw [e9, List.map_append, List.map_append, List.filter_append, hAn, hBn]
  · intro k
    rw [e10 k, List.map_append, List.filter_append, hAf, hBf, List.nil_append]
  · rw [e11, hlen]

/-- C13 (amended): on every reachable set, `DeleteRangeByScore(rg)` removes from
the traversal and from the key index exactly the stored elements whose score
passes both bounds of `rg`, keeps every other element in its order, returns the
number of elements removed as a `uint32` (that is, modulo 2^32) and lowers
`Length()` by the count returned. -/
theorem DeleteRangeByScore_spec [ReValuer V] [Inhabited V] (l : Set V) (hr : Set.Reachable l)
    (ts : List V) (hts : Set.Range l = some ts) (rg : RangeSpec) :
    ∃ l1, Set.DeleteRangeByScore l rg = some ((ts.filter (InRange rg)).length % M32, l1) ∧
      Set.Range l1 = some (ts.filter fun v => !InRange rg v) ∧
      (∀ k, Set.GetElement l1 k =
        if k ∈ (ts.filter (InRange rg)).map Valuer.Key then none else Set.GetElement l k) ∧
      Set.Length l1 = sub32 (Set.Length l) ((ts.filter (InRange rg)).length % M32) := by
  obtain ⟨ps, hi, hb0, hb1⟩ := Set_reachable_inv hr
  have htr : Set.Range l = some (ps.map l.heap.val) := hi.toShape.traversal_eq
  rw [htr] at hts
  cases hts
  obtain ⟨l1, e1, e2, e3, e4⟩ := Set.DeleteRangeByScore_list hi ⟨hb0, hb1⟩ rg
  refine ⟨l1, e1, e2, e3, ?_⟩
  rw [e4, Set.length_eq hi hb0 hb1, sub32_mod]
  exact (List.length_filter_le _ _).trans (by simp)

set_option maxRecDepth 100000 in
/-- Witness of C13: on the four-element set, `DeleteRangeByScore` with
`Min = Max = 10`, both inclusive, returns 2 and leaves the elements of keys 3
and 4. -/
theorem DeleteRangeByScore_spec_witness :
    Set.Reachable sampleSet ∧
      Set.Range sampleSet = some [⟨3, 8⟩, ⟨1, 10⟩, ⟨2, 10⟩, ⟨4, 11⟩] ∧
      ∃ l1, Set.DeleteRangeByScore sampleSet ⟨false, false, 10, 10⟩ = some (2, l1) ∧
        Set.Range l1 = some [⟨3, 8⟩, ⟨4, 11⟩] ∧
        (∀ k, Set.GetElement l1 k =
          if k ∈ [1, 2] then none else Set.GetElement sampleSet k) ∧
        Set.Length l1 = 2 := by
  have h1 : Set.Range sampleSet = some [⟨3, 8⟩, ⟨1, 10⟩, ⟨2, 10⟩, ⟨4, 11⟩] := by decide
  obtain ⟨l1, e1, e2, e3, e4⟩ :=
    DeleteRangeByScore_spec sampleSet sampleSet_reachable _ h1 ⟨false, false, 10, 10⟩
  exact ⟨sampleSet_reachable, h1, l1, e1, e2, e3, by rw [e4]; decide⟩

theorem InRange_invalid [Valuer V] {rg : RangeSpec}
    (h : rg.Min > rg.Max ∨ (rg.Min = rg.Max ∧ (rg.MinEx || rg.MaxEx) = true)) (v : V) :
    InRange rg v = false := by
  unfold InRange ValueGteMin ValueLteMax
  rcases h with h | ⟨h1, h2⟩
  · cases rg.MinEx <;> cases rg.MaxEx <;> simp <;> omega
  · cases hm : rg.MinEx <;> cases hx : rg.MaxEx <;> simp [hm, hx] at h2 ⊢ <;> omega

theorem Shape.ne_head [Valuer V] {l : SkipList V} {ps : List Nat} (hs : Shape l ps) {p : Nat}
    (hp : p ∈ ps) : p ≠ l.head := fun e => (List.nodup_cons.1 hs.nodup).1 (e ▸ hp)

theorem Shape.score_mem [Valuer V] {l : SkipList V} {ps : List Nat} (hs : Shape l ps) {p : Nat}
    (hp : p ∈ ps) : Set.score l (some p) = some (Valuer.Score (l.heap.val p)) := by
  simp only [Set.score, hs.ne_head hp, if_false, Heap.val]

theorem Shape.First_eq [Valuer V] {l : SkipList V} {ps : List Nat} (hs : Shape l ps) :
    Set.First l = some ps.head? := by
  have := @Shape.next_last _ _ l [] ps l.head (by simpa using hs) rfl
  exact this

/-- The result of `IsInRange` on a well-formed set: when it is true, the set is
not empty, its last score passes the lower bound and its first score passes the
upper bound; when it is false, no stored score passes both bounds. -/
theorem Shape.IsInRange_spec [Valuer V] {l : SkipList V} {ps : List Nat} (hs : Shape l ps)
    (rg : RangeSpec) :
    ∃ b, Set.IsInRange l rg = some b ∧
      (b = true → ∃ pf pl rest init, ps = pf :: rest ∧ ps = init ++ [pl] ∧
        ValueGteMin (Valuer.Score (l.heap.val pl)) rg = true ∧
        ValueLteMax (Valuer.Score (l.heap.val pf)) rg = true) ∧
      (b = false → ∀ v ∈ ps.map l.heap.val, InRange rg v = false) := by
  have hsorted := hs.sorted
  by_cases hinv : rg.Min > rg.Max ∨ (rg.Min = rg.Max ∧ (rg.MinEx || rg.MaxEx) = true)
  · refine ⟨false, by simp only [Set.IsInRange, hinv, if_true], fun h => (by cases h),
      fun _ v _ => InRange_invalid hinv v⟩
  · rcases List.eq_nil_or_concat ps with rfl | ⟨init, pl, rfl⟩
    · refine ⟨false, ?_, fun h => (by cases h), fun _ v hv => by simp at hv⟩
      have ht : l.tail = none := hs.tail_eq
      unfold Set.IsInRange
      rw [if_neg hinv]
      simp only [Set.Tail, ht]
    · simp only [List.concat_eq_append] at hs hsorted ⊢
      have ht : l.tail = some pl := by rw [hs.tail_eq]; simp
      have hpl : pl ∈ init ++ [pl] := by simp
      cases hg : ValueGteMin (Valuer.Score (l.heap.val pl)) rg with
      | false =>
        refine ⟨false, ?_, fun h => (by cases h), ?_⟩
        · unfold Set.IsInRange
          rw [if_neg hinv]
          simp [Set.Tail, ht, hs.score_mem hpl, hg]
        · intro _ v hv
          rw [List.map_append, List.pairwise_append] at hsorted
          have hle : Valuer.Score v ≤ Valuer.Score (l.heap.val pl) := by
            rw [List.map_append] at hv
            rcases List.mem_append.1 hv with h | h
            · exact (hsorted.2.2 v h _ (by simp)).score_le
            · simp only [List.map_cons, List.map_nil, List.mem_singleton] at h
              rw [h]
          cases hgv : ValueGteMin (Valuer.Score v) rg with
          | false => simp [InRange, hgv]
          | true =>
            rw [ValueGteMin_mono hle hgv] at hg
            cases hg
      | true =>
        obtain ⟨pf, rest, hpr⟩ : ∃ pf rest, init ++ [pl] = pf :: rest := by
          cases init with
          | nil => exact ⟨pl, [], rfl⟩
          | cons a t => exact ⟨a, t ++ [pl], rfl⟩
        have hpf : pf ∈ init ++ [pl] := by rw [hpr]; simp
        have hfirst : Set.First l = some (some pf) := by rw [hs.First_eq, hpr]; rfl
        cases hm : ValueLteMax (Valuer.Score (l.heap.val pf)) rg with
        | false =>
          refine ⟨false, ?_, fun h => (by cases h), ?_⟩
          · unfold Set.IsInRange
            rw [if_neg hinv]
            simp [Set.Tail, ht, hs.score_mem hpl, hg, hfirst, hs.score_mem hpf, hm]
          · intro _ v hv
            rw [hpr, List.map_cons, List.pairwise_cons] at hsorted
            have hle : Valuer.Score (l.heap.val pf) ≤ Valuer.Score v := by
              rw [hpr, List.map_cons] at hv
              rcases List.mem_cons.1 hv with h | h
              · rw [h]
              · exact (hsorted.1 v h).score_le
            cases hmv : ValueLteMax (Valuer.Score v) rg with
            | false => simp [InRange, hmv]
            | true =>
              rw [ValueLteMax_anti hle hmv] at hm
              cases hm
        | true =>
          refine ⟨true, ?_, fun _ => ⟨pf, pl, rest, init, hpr, rfl, hg, hm⟩, fun h => (by cases h)⟩
          unfold Set.IsInRange
          rw [if_neg hinv]
          simp [Set.Tail, ht, hs.score_mem hpl, hg, hfirst, hs.score_mem hpf, hm]

theorem collectLoop_spec [Valuer V] (l : Set V) (rg : RangeSpec) :
    ∀ (B : List Nat) (fuel : Nat), Links l.heap 0 B → (∀ q ∈ B, 1 ≤ l.heap.height q) →
      (∀ q ∈ B, q ≠ l.head) → (B.map l.heap.val).Pairwise Before → B.length < fuel →
      Set.collectLoop l rg fuel B.head? =
        some ((B.map l.heap.val).filter fun v => ValueLteMax (Valuer.Score v) rg) := by
  intro B
  induction B with
  | nil =>
    intro fuel _ _ _ _ hf
    cases fuel with
    | zero => simp at hf
    | succ n => rfl
  | cons e t ih =>
    intro fuel hl hpos hne hsorted hf
    cases fuel with
    | zero => simp at hf
    | succ n =>
      have hpt : ∀ q ∈ t, 1 ≤ l.heap.height q := fun q hq => hpos q (List.mem_cons_of_mem _ hq)
      have he := hl.1 (hpos e (List.mem_cons_self _ _))
      rw [nextAt_zero hpt] at he
      have hn := Heap.Next_eq he
      simp only at hn
      rw [List.map_cons, List.pairwise_cons] at hsorted
      have hsc : Set.score l (some e) = some (Valuer.Score (l.heap.val e)) := by
        simp only [Set.score, hne e (List.mem_cons_self _ _), if_false, Heap.val]
      have := ih n hl.2 hpt (fun q hq => hne q (List.mem_cons_of_mem _ hq)) hsorted.2
        (by simp at hf; omega)
      cases hm : ValueLteMax (Valuer.Score (l.heap.val e)) rg with
      | true =>
        have hm1 : ValueLteMax (Valuer.Score (l.heap e).value) rg = true := hm
        simp [Set.collectLoop, hsc, hm, hm1, hn, this, List.filter_cons, Heap.val]
      | false =>
        have hall : (t.map l.heap.val).filter (fun v => ValueLteMax (Valuer.Score v) rg) = [] := by
          apply filter_all_false
          intro v hv
          cases hmv : ValueLteMax (Valuer.Score v) rg with
          | false => rfl
          | true =>
            rw [ValueLteMax_anti (hsorted.1 v hv).score_le hmv] at hm
            cases hm
        simp [Set.collectLoop, hsc, hm, List.filter_cons, hall]

theorem collectLoop_nil [Valuer V] (l : Set V) (rg : RangeSpec) {fuel : Nat} (hf : 0 < fuel) :
    Set.collectLoop l rg fuel none = some [] := by
  cases fuel with
  | zero => omega
  | succ n => rfl

theorem Shape.alloc_pos [Valuer V] {l : SkipList V} {ps : List Nat} (hs : Shape l ps) :
    0 < l.alloc := by
  have := hs.length_lt
  omega

/-- The search of `FirstInRange` and the node it ends before. -/
theorem Shape.FirstInRange_node [Valuer V] {l : SkipList V} {ps : List Nat} (hs : Shape l ps)
    (rg : RangeSpec) :
    (Set.FirstInRange l rg = some none ∧ (ps.map l.heap.val).filter (InRange rg) = []) ∨
    ∃ A q B, ps = A ++ q :: B ∧ Set.FirstInRange l rg = some (some q) ∧
      (ps.map l.heap.val).filter (InRange rg) =
        ((q :: B).map l.heap.val).filter fun v => ValueLteMax (Valuer.Score v) rg := by
  obtain ⟨b, hb, ht, hf⟩ := hs.IsInRange_spec rg
  cases b with
  | false =>
    left
    refine ⟨?_, filter_all_false (hf rfl)⟩
    simp [Set.FirstInRange, hb]
  | true =>
    obtain ⟨pf, pl, rest, init, _, hpl, hg, _⟩ := ht rfl
    obtain ⟨A, B, x0, upd, rk, e1, e2, e3, _, _, e6, e7, _, _⟩ :=
      search_shape hs (fun _ next => !ValueGteMin (Valuer.Score next) rg)
    subst e1
    obtain ⟨hA, hB⟩ := search_score_split hs (fun v => !ValueGteMin (Valuer.Score v) rg)
      (by
        intro a b hab hcb
        cases hga : ValueGteMin (Valuer.Score a) rg with
        | false => simp [hga]
        | true =>
          simp only [ValueGteMin_mono hab hga] at hcb
          cases hcb) e3 e6 e7
    have hplB : pl ∈ B := by
      have hm : pl ∈ A ++ B := by rw [hpl]; simp
      rcases List.mem_append.1 hm with h | h
      · have := hA pl h
        simp only [hg] at this
        cases this
      · exact h
    obtain ⟨q, B1, rfl⟩ : ∃ q B1, B = q :: B1 := by
      cases B with
      | nil => cases hplB
      | cons q B1 => exact ⟨q, B1, rfl⟩
    have hnx : l.heap.Next x0 0 = some (some q) := hs.next_last e3
    have hq : q ∈ A ++ q :: B1 := by simp
    have hAf : (A.map l.heap.val).filter (InRange rg) = [] := by
      apply filter_all_false
      intro v hv
      obtain ⟨p, hp, rfl⟩ := List.mem_map.1 hv
      have := hA p hp
      simp only [Bool.not_eq_true'] at this
      simp [InRange, this]
    have hBg : ∀ v ∈ (q :: B1).map l.heap.val,
        InRange rg v = ValueLteMax (Valuer.Score v) rg := by
      intro v hv
      obtain ⟨p, hp, rfl⟩ := List.mem_map.1 hv
      have := hB p hp
      simp only [Bool.not_eq_false'] at this
      simp [InRange, this]
    have hfil : ((A ++ q :: B1).map l.heap.val).filter (InRange rg) =
        ((q :: B1).map l.heap.val).filter fun v => ValueLteMax (Valuer.Score v) rg := by
      rw [List.map_append, List.filter_append, hAf, List.nil_append]
      exact List.filter_congr hBg
    have e2' : search l.heap (fun _ next => !ValueGteMin (Valuer.Score next) rg) l.alloc
        (SkipList.Level l) (Set.Head l) 0 (fun _ => none) (fun _ => 0) = some (x0, upd, rk) := e2
    cases hm : ValueLteMax (Valuer.Score (l.heap.val q)) rg with
    | false =>
      left
      constructor
      · simp [Set.FirstInRange, hb, e2', hnx, hs.score_mem hq, hm]
      · rw [hfil]
        have hsorted := hs.sorted
        rw [List.map_append, List.pairwise_append, List.map_cons, List.pairwise_cons] at hsorted
        apply filter_all_false
        intro v hv
        have hle : Valuer.Score (l.heap.val q) ≤ Valuer.Score v := by
          rw [List.map_cons] at hv
          rcases List.mem_cons.1 hv with h | h
          · rw [h]
          · exact (hsorted.2.1.1 v h).score_le
        cases hmv : ValueLteMax (Valuer.Score v) rg with
        | false => rfl
        | true =>
          rw [ValueLteMax_anti hle hmv] at hm
          cases hm
    | true =>
      right
      refine ⟨A, q, B1, rfl, ?_, hfil⟩
      simp [Set.FirstInRange, hb, e2', hnx, hs.score_mem hq, hm]

theorem Shape.GetRangeByScore_eq [Valuer V] {l : SkipList V} {ps : List Nat} (hs : Shape l ps)
    (rg : RangeSpec) :
    Set.GetRangeByScore l rg = some ((ps.map l.heap.val).filter (InRange rg)) := by
  rcases hs.FirstInRange_node rg with ⟨h1, h2⟩ | ⟨A, q, B, rfl, h1, h2⟩
  · simp only [Set.GetRangeByScore, h1, Option.bind_eq_bind, Option.some_bind, h2]
    exact collectLoop_nil l rg hs.alloc_pos
  · simp only [Set.GetRangeByScore, h1, Option.bind_eq_bind, Option.some_bind, h2]
    have hl0 := hs.links 0 hs.level_pos
    have hL : l.head :: (A ++ q :: B) = (l.head :: A) ++ q :: B := by simp
    rw [hL] at hl0
    have hsorted := hs.sorted
    rw [List.map_append, List.pairwise_append] at hsorted
    have := collectLoop_spec l rg (q :: B) l.alloc (Links_suffix _ hl0)
      (fun p hp => hs.height_pos p (List.mem_append_right _ hp))
      (fun p hp => hs.ne_head (List.mem_append_right _ hp)) hsorted.2.1
      (by have := hs.length_lt; simp at this ⊢; omega)
    simpa using this

/-- The search of `LastInRange` and the node it ends on. -/
theorem Shape.LastInRange_node [Valuer V] {l : SkipList V} {ps : List Nat} (hs : Shape l ps)
    (rg : RangeSpec) :
    ∃ res, Set.LastInRange l rg = some res ∧
      res.map l.heap.val = ((ps.map l.heap.val).filter (InRange rg)).getLast? ∧
      ∀ x, res = some x → x ∈ ps := by
  obtain ⟨b, hb, ht, hf⟩ := hs.IsInRange_spec rg
  cases b with
  | false =>
    refine ⟨none, ?_, ?_, fun x hx => (by cases hx)⟩
    · simp [Set.LastInRange, hb]
    · rw [filter_all_false (hf rfl)]; rfl
  | true =>
    obtain ⟨pf, pl, rest, init, hpf, _, _, hm⟩ := ht rfl
    obtain ⟨A, B, x0, upd, rk, e1, e2, e3, _, _, e6, e7, _, _⟩ :=
      search_shape hs (fun _ next => ValueLteMax (Valuer.Score next) rg)
    subst e1
    obtain ⟨hA, hB⟩ := search_score_split hs (fun v => ValueLteMax (Valuer.Score v) rg)
      (fun a b hab hcb => ValueLteMax_anti hab hcb) e3 e6 e7
    have hpfA : pf ∈ A := by
      have hmem : pf ∈ A ++ B := by rw [hpf]; simp
      rcases List.mem_append.1 hmem with h | h
      · exact h
      · have := hB pf h
        simp only [hm] at this
        cases this
    obtain ⟨A1, rfl⟩ : ∃ A1, A = A1 ++ [x0] := by
      rcases lastOr_head_cases e3 with ⟨rfl, _⟩ | h
      · cases hpfA
      · exact h
    have hx0 : x0 ∈ A1 ++ [x0] ++ B := by simp
    have hBf : (B.map l.heap.val).filter (InRange rg) = [] := by
      apply filter_all_false
      intro v hv
      obtain ⟨p, hp, rfl⟩ := List.mem_map.1 hv
      have := hB p hp
      simp only at this
      simp [InRange, this]
    have e2' : search l.heap (fun _ next => ValueLteMax (Valuer.Score next) rg) l.alloc
        (SkipList.Level l) (Set.Head l) 0 (fun _ => none) (fun _ => 0) = some (x0, upd, rk) := e2
    have hmx : ValueLteMax (Valuer.Score (l.heap.val x0)) rg = true := hA x0 (by simp)
    cases hg : ValueGteMin (Valuer.Score (l.heap.val x0)) rg with
    | false =>
      refine ⟨none, ?_, ?_, fun x hx => (by cases hx)⟩
      · simp [Set.LastInRange, hb, e2', hs.score_mem hx0, hg]
      · have hsorted := hs.sorted
        rw [List.map_append, List.pairwise_append, List.map_append, List.pairwise_append]
          at hsorted
        have : ((A1 ++ [x0] ++ B).map l.heap.val).filter (InRange rg) = [] := by
          rw [List.map_append, List.filter_append, hBf, List.append_nil]
          apply filter_all_false
          intro v hv
          have hle : Valuer.Score v ≤ Valuer.Score (l.heap.val x0) := by
            rw [List.map_append] at hv
            rcases List.mem_append.1 hv with h | h
            · exact (hsorted.1.2.2 v h _ (by simp)).score_le
            · simp only [List.map_cons, List.map_nil, List.mem_singleton] at h
              rw [h]
          cases hgv : ValueGteMin (Valuer.Score v) rg with
          | false => simp [InRange, hgv]
          | true =>
            rw [ValueGteMin_mono hle hgv] at hg
            cases hg
        rw [this]; rfl
    | true =>
      refine ⟨some x0, ?_, ?_, fun x hx => ?_⟩
      · simp [Set.LastInRange, hb, e2', hs.score_mem hx0, hg]
      · have hin : InRange rg (l.heap.val x0) = true := by simp [InRange, hg, hmx]
        rw [List.map_append, List.filter_append, hBf, List.append_nil, List.map_append,
          List.filter_append]
        simp [List.filter_cons, hin]
      · cases hx
        exact hx0

/-- C14: on every reachable set, `GetRangeByScore(rg)` returns, in the order of
the ascending traversal, exactly the stored elements whose score passes both
`ValueGteMin` and `ValueLteMax` (the empty sequence when there is none, as on
the empty set); the call only reads the set. -/
theorem GetRangeByScore_spec [ReValuer V] [Inhabited V] (l : Set V) (hr : Set.Reachable l)
    (ts : List V) (hts : Set.Range l = some ts) (rg : RangeSpec) :
    Set.GetRangeByScore l rg = some (ts.filter (InRange rg)) := by
  obtain ⟨ps, hi, _, _⟩ := Set_reachable_inv hr
  have htr : Set.Range l = some (ps.map l.heap.val) := hi.toShape.traversal_eq
  rw [htr] at hts
  cases hts
  exact hi.toShape.GetRangeByScore_eq rg

set_option maxRecDepth 100000 in
/-- Witness of C14: the scores from 10 (inclusive) to 11 (exclusive) on the
four-element set, and any range on the empty set. -/
theorem GetRangeByScore_spec_witness :
    Set.Reachable sampleSet ∧
      Set.Range sampleSet = some [⟨3, 8⟩, ⟨1, 10⟩, ⟨2, 10⟩, ⟨4, 11⟩] ∧
      Set.GetRangeByScore sampleSet ⟨false, true, 10, 11⟩ = some [⟨1, 10⟩, ⟨2, 10⟩] ∧
      Set.GetRangeByScore (NewSet (cmp value)) ⟨false, false, 0, 100⟩ = some [] := by
  have h1 : Set.Range sampleSet = some [⟨3, 8⟩, ⟨1, 10⟩, ⟨2, 10⟩, ⟨4, 11⟩] := by decide
  have h0 : Set.Range (NewSet (cmp value)) = some [] := by decide
  exact ⟨sampleSet_reachable, h1,
    GetRangeByScore_spec sampleSet sampleSet_reachable _ h1 ⟨false, true, 10, 11⟩,
    GetRangeByScore_spec (NewSet (cmp value)) Set.Reachable.new _ h0 ⟨false, false, 0, 100⟩⟩

/-- C15: on every reachable set, `LastInRange(rg)` returns without a panic; it
returns the node of the level-0 chain that holds the last element of the
ascending traversal whose score passes both bounds of `rg`, and nil exactly when
no stored element passes them; the node returned is never the head sentinel. -/
theorem LastInRange_spec [ReValuer V] [Inhabited V] (l : Set V) (hr : Set.Reachable l)
    (ts : List V) (hts : Set.Range l = some ts) (rg : RangeSpec) :
    ∃ res c0, Set.LastInRange l rg = some res ∧ SkipList.dumpLevel l 0 = some c0 ∧
      res.map (fun x => (l.heap x).value) = (ts.filter (InRange rg)).getLast? ∧
      (res = none ↔ ∀ v ∈ ts, InRange rg v = false) ∧
      ∀ x, res = some x → x ∈ c0.map Prod.fst ∧ x ≠ Set.Head l := by
  obtain ⟨ps, hi, _, _⟩ := Set_reachable_inv hr
  have htr : Set.Range l = some (ps.map l.heap.val) := hi.toShape.traversal_eq
  rw [htr] at hts
  cases hts
  obtain ⟨res, h1, h2, h3⟩ := hi.toShape.LastInRange_node rg
  obtain ⟨c0, d1, d2⟩ := hi.toShape.dumpLevel_zero
  refine ⟨res, c0, h1, d1, h2, ?_, fun x hx =>
    ⟨by rw [d2]; exact List.mem_cons_of_mem _ (h3 x hx), hi.toShape.ne_head (h3 x hx)⟩⟩
  have h2' : res.map l.heap.val = ((ps.map l.heap.val).filter (InRange rg)).getLast? := h2
  constructor
  · intro hn
    rw [hn] at h2'
    have : (ps.map l.heap.val).filter (InRange rg) = [] := by
      cases hfl : (ps.map l.heap.val).filter (InRange rg) with
      | nil => rfl
      | cons a t =>
        rw [hfl] at h2'
        have := List.getLast?_eq_none_iff.1 h2'.symm
        cases this
    intro v hv
    have := List.filter_eq_nil_iff.1 this v hv
    simpa using this
  · intro hall
    rw [filter_all_false hall] at h2'
    cases res with
    | none => rfl
    | some x => cases h2'

set_option maxRecDepth 100000 in
/-- Witness of C15: the last element with a score from 8 to 10 on the
four-element set is the one of key 2. -/
theorem LastInRange_spec_witness :
    Set.Reachable sampleSet ∧
      Set.Range sampleSet = some [⟨3, 8⟩, ⟨1, 10⟩, ⟨2, 10⟩, ⟨4, 11⟩] ∧
      ∃ res c0, Set.LastInRange sampleSet ⟨false, false, 8, 10⟩ = some res ∧
        SkipList.dumpLevel sampleSet 0 = some c0 ∧
        res.map (fun x => (sampleSet.heap x).value) = some ⟨2, 10⟩ ∧
        (res = none ↔ ∀ v ∈ ([⟨3, 8⟩, ⟨1, 10⟩, ⟨2, 10⟩, ⟨4, 11⟩] : List value),
          InRange ⟨false, false, 8, 10⟩ v = false) ∧
        ∀ x, res = some x → x ∈ c0.map Prod.fst ∧ x ≠ Set.Head sampleSet := by
  have h1 : Set.Range sampleSet = some [⟨3, 8⟩, ⟨1, 10⟩, ⟨2, 10⟩, ⟨4, 11⟩] := by decide
  exact ⟨sampleSet_reachable, h1,
    LastInRange_spec sampleSet sampleSet_reachable _ h1 ⟨false, false, 8, 10⟩⟩

/-- C16: on every reachable set and for every invalid range (`Min > Max`, or
`Min == Max` with `MinEx` or `MaxEx` set), no score-range operation fails:
`IsInRange` returns false, `FirstInRange` and `LastInRange` return nil,
`GetRangeByScore` returns the empty sequence, and `DeleteRangeByScore` returns 0
and leaves the set as it was. -/
theorem invalid_range_empty [ReValuer V] [Inhabited V] (l : Set V) (hr : Set.Reachable l)
    (rg : RangeSpec)
    (hinv : rg.Min > rg.Max ∨ (rg.Min = rg.Max ∧ (rg.MinEx = true ∨ rg.MaxEx = true))) :
    Set.IsInRange l rg = some false ∧ Set.FirstInRange l rg = some none ∧
      Set.LastInRange l rg = some none ∧ Set.GetRangeByScore l rg = some [] ∧
      Set.DeleteRangeByScore l rg = some (0, l) := by
  obtain ⟨ps, hi, _, _⟩ := Set_reachable_inv hr
  have hs := hi.toShape
  have hinv' : rg.Min > rg.Max ∨ (rg.Min = rg.Max ∧ (rg.MinEx || rg.MaxEx) = true) := by
    rcases hinv with h | ⟨h1, h2⟩
    · exact Or.inl h
    · exact Or.inr ⟨h1, by simpa using h2⟩
  have h1 : Set.IsInRange l rg = some false := by
    simp only [Set.IsInRange, hinv', if_true]
  have halloc : ∃ n, l.alloc = n + 1 := ⟨l.alloc - 1, by have := hs.alloc_pos; omega⟩
  obtain ⟨n, hn⟩ := halloc
  refine ⟨h1, by simp [Set.FirstInRange, h1], by simp [Set.LastInRange, h1], ?_, ?_⟩
  · simp [Set.GetRangeByScore, Set.FirstInRange, h1, hn, Set.collectLoop]
  · obtain ⟨A, B, x0, upd, rk, e1, e2, e3, _, _, e6, e7, _, _⟩ :=
      search_shape hs (fun _ next => (rg.MinEx && decide (Valuer.Score next ≤ rg.Min)) ||
        (!rg.MinEx && decide (Valuer.Score next < rg.Min)))
    subst e1
    have hnx := hs.next_last e3
    simp only [Set.DeleteRangeByScore, e2, Option.bind_eq_bind, Option.some_bind, hnx]
    rw [hn]
    cases B with
    | nil => rfl
    | cons q B1 =>
      have hq : ValueGteMin (Valuer.Score (l.heap.val q)) rg = true := by
        rcases e6 with h | ⟨q1, t1, h, _, hc⟩
        · cases h
        · simp only [List.cons.injEq] at h
          simp only [minCond_eq] at hc
          rw [h.1]
          simpa using hc
      have hin := InRange_invalid hinv' (l.heap.val q)
      have hm : ValueLteMax (Valuer.Score (l.heap q).value) rg = false := by
        simpa [InRange, hq] using hin
      simp only [List.head?_cons, Set.removeLoop, maxCond_eq, hm, Bool.false_eq_true, if_false]

set_option maxRecDepth 100000 in
/-- Witness of C16: the range from 11 down to 10, and the range `(10, 10]`, on
the four-element set. -/
theorem invalid_range_empty_witness :
    Set.Reachable sampleSet ∧
      (Set.IsInRange sampleSet ⟨false, false, 11, 10⟩ = some false ∧
        Set.FirstInRange sampleSet ⟨false, false, 11, 10⟩ = some none ∧
        Set.LastInRange sampleSet ⟨false, false, 11, 10⟩ = some none ∧
        Set.GetRangeByScore sampleSet ⟨false, false, 11, 10⟩ = some [] ∧
        Set.DeleteRangeByScore sampleSet ⟨false, false, 11, 10⟩ = some (0, sampleSet)) ∧
      Set.DeleteRangeByScore sampleSet ⟨true, false, 10, 10⟩ = some (0, sampleSet) :=
  ⟨sampleSet_reachable,
    invalid_range_empty sampleSet sampleSet_reachable ⟨false, false, 11, 10⟩
      (Or.inl (by decide)),
    (invalid_range_empty sampleSet sampleSet_reachable ⟨true, false, 10, 10⟩
      (Or.inr ⟨rfl, Or.inl rfl⟩)).2.2.2.2⟩

/-! ## Insertion into a `Set` -/

theorem filter_key_absent [Valuer V] {ts : List V} {k : Nat} (h : ∀ w ∈ ts, Valuer.Key w ≠ k) :
    ts.filter (fun w => decide (Valuer.Key w ≠ k)) = ts := by
  rw [List.filter_eq_self]
  intro w hw
  simpa using h w hw

theorem filter_key_present [Valuer V] {A B : List V} {w : V}
    (hnd : ((A ++ w :: B).map Valuer.Key).Nodup) :
    (A ++ w :: B).filter (fun u => decide (Valuer.Key u ≠ Valuer.Key w)) = A ++ B := by
  rw [List.map_append, List.map_cons, List.nodup_middle, List.nodup_cons] at hnd
  have hne : ∀ u ∈ A ++ B, Valuer.Key u ≠ Valuer.Key w := by
    intro u hu e
    apply hnd.1
    rw [← List.map_append, ← e]
    exact List.mem_map_of_mem _ hu
  rw [List.filter_append, List.filter_cons]
  simp only [ne_eq, not_true_eq_false, decide_False, Bool.false_eq_true, if_false]
  rw [← List.filter_append]
  exact filter_key_absent hne

/-- C17 (amended): on every reachable set, `Insert(v)` removes the element stored under
the key of `v` if there is one, recomputes the score of `v` once, and inserts
the recomputed `v` at its sorted place: afterwards the traversal is the old one
without the element of that key, with `v` at the position that keeps it
ascending by (score, key); no other element has the key, `GetElement` of the key
returns `v`, and `Length()` is the old length if the key was present and the old
length plus one modulo 2^32 otherwise (the old length plus one whenever the old
length is below 2^32 - 1). -/
theorem Set_Insert_replaces [ReValuer V] [Inhabited V] (l : Set V) (hr : Set.Reachable l)
    (ts : List V) (hts : Set.Range l = some ts) (v : V) (rand : Nat → Nat) :
    ∃ l2 A B, Set.Insert l v rand = some l2 ∧
      ts.filter (fun w => decide (Valuer.Key w ≠ Valuer.Key v)) = A ++ B ∧
      Set.Range l2 = some (A ++ ReValuer.ReCalcScore v :: B) ∧
      (∀ a ∈ A, Before a (ReValuer.ReCalcScore v)) ∧
      (∀ b ∈ B, Before (ReValuer.ReCalcScore v) b) ∧
      (∀ w ∈ A ++ B, Valuer.Key w ≠ Valuer.Key v) ∧
      Set.GetElement l2 (Valuer.Key v) = some (ReValuer.ReCalcScore v) ∧
      Set.Length l2 =
        if (Set.GetElement l (Valuer.Key v)).isSome then Set.Length l
        else (Set.Length l + 1) % M32 := by
  obtain ⟨ps, hi, hb0, hb1⟩ := Set_reachable_inv hr
  have htr : Set.Range l = some (ps.map l.heap.val) := hi.toShape.traversal_eq
  rw [htr] at hts
  cases hts
  obtain ⟨ps0, A, B, l2, e1, e2, e3, e4, e5, e6, e7, e8, e9, e10⟩ := Set.Insert_spec hi v rand
  subst e1
  have hfil : (ps.map l.heap.val).filter (fun w => decide (Valuer.Key w ≠ Valuer.Key v)) =
      (A ++ B).map l.heap.val := by
    rcases e2 with ⟨hk, hps⟩ | ⟨A0, p, B0, hps, hk, hps0⟩
    · rw [hps]
      exact filter_key_absent ((hi.index_none_iff _).1 hk)
    · have hkey : Valuer.Key (l.heap.val p) = Valuer.Key v := by
        obtain ⟨q, _, h1, h2⟩ := (hi.index_iff _ _).1 hk
        exact h2
      have hnd := hi.toShape.keys_nodup_map
      rw [hps, List.map_append, List.map_cons] at hnd ⊢
      rw [hps0, ← hkey, filter_key_present hnd, List.map_append]
  have hr2 : Set.Range l2 = some ((A ++ l.alloc :: B).map l2.heap.val) := e4.toShape.traversal_eq
  have hvA : A.map l2.heap.val = A.map l.heap.val :=
    List.map_congr_left fun p hp => e6 p (List.mem_append_left _ hp)
  have hvB : B.map l2.heap.val = B.map l.heap.val :=
    List.map_congr_left fun p hp => e6 p (List.mem_append_right _ hp)
  refine ⟨l2, A.map l.heap.val, B.map l.heap.val, e3, ?_, ?_, ?_, ?_, ?_, ?_, ?_⟩
  · rw [hfil, List.map_append]
  · rw [hr2, List.map_append, List.map_cons, hvA, hvB, e5]
  · intro a ha
    obtain ⟨p, hp, rfl⟩ := List.mem_map.1 ha
    exact e7 p hp
  · intro b hb
    obtain ⟨p, hp, rfl⟩ := List.mem_map.1 hb
    exact e8 p hp
  · intro w hw
    rw [← List.map_append, ← hfil] at hw
    simpa using (List.mem_filter.1 hw).2
  · exact (e4.index_iff _ _).2 ⟨l.alloc, by simp, e5, ReValuer.Key_ReCalcScore v⟩
  · rw [Set.length_eq e4 e9 e10, Set.length_eq hi hb0 hb1]
    simp only [List.length_append, List.length_cons]
    rcases e2 with ⟨hk, hps⟩ | ⟨A0, p, B0, hps, hk, hps0⟩
    · have hl := congrArg List.length hps
      simp only [List.length_append] at hl
      simp only [Set.GetElement, hk, Option.isSome_none, Bool.false_eq_true, if_false]
      unfold M32
      omega
    · have hl := congrArg List.length hps
      have hl0 := congrArg List.length hps0
      simp only [List.length_append, List.length_cons] at hl hl0
      simp only [Set.GetElement, hk, Option.isSome_some, if_true]
      congr 1
      omega

set_option maxRecDepth 100000 in
/-- Witness of C17: inserting key 1 with the new score 12 into the four-element
set moves the element of key 1 to the end; the length stays 4. -/
theorem Set_Insert_replaces_witness :
    Set.Reachable sampleSet ∧
      Set.Range sampleSet = some [⟨3, 8⟩, ⟨1, 10⟩, ⟨2, 10⟩, ⟨4, 11⟩] ∧
      ∃ l2 A B, Set.Insert sampleSet ⟨1, 12⟩ (drawsFor 1) = some l2 ∧
        ([⟨3, 8⟩, ⟨2, 10⟩, ⟨4, 11⟩] : List value) = A ++ B ∧
        Set.Range l2 = some (A ++ ⟨1, 12⟩ :: B) ∧
        Set.GetElement l2 1 = some ⟨1, 12⟩ ∧ Set.Length l2 = 4 := by
  have h1 : Set.Range sampleSet = some [⟨3, 8⟩, ⟨1, 10⟩, ⟨2, 10⟩, ⟨4, 11⟩] := by decide
  obtain ⟨l2, A, B, e1, e2, e3, _, _, _, e7, e8⟩ :=
    Set_Insert_replaces sampleSet sampleSet_reachable _ h1 ⟨1, 12⟩ (drawsFor 1)
  have hf : ([⟨3, 8⟩, ⟨1, 10⟩, ⟨2, 10⟩, ⟨4, 11⟩] : List value).filter
      (fun w => decide (Valuer.Key w ≠ Valuer.Key (⟨1, 12⟩ : value))) =
      [⟨3, 8⟩, ⟨2, 10⟩, ⟨4, 11⟩] := by decide
  exact ⟨sampleSet_reachable, h1, l2, A, B, e1, hf.symm.trans e2, e3, e7, by rw [e8]; decide⟩

/-! ## The index and the length of a `Set` -/

/-- C18 (amended): on every set reachable from `NewSet` by `Insert`, `Delete`,
`DeleteElement`, `DeleteRangeByRank` and `DeleteRangeByScore`, the key index
holds exactly the elements of the level-0 chain, each under its key; each key
occurs on one node only; the size of the index is the number of nodes of the
chain; and `Length()`, a `uint32`, is that number modulo 2^32, so that the three
are equal while the set holds fewer than 2^32 elements. -/
theorem index_agreement [ReValuer V] [Inhabited V] (l : Set V) (hr : Set.Reachable l) :
    ∃ ts, Set.Range l = some ts ∧
      (∀ k v, Set.GetElement l k = some v ↔ v ∈ ts ∧ Valuer.Key v = k) ∧
      (ts.map Valuer.Key).Nodup ∧
      (∃ ks : Finset Nat, (∀ k, k ∈ ks ↔ (Set.GetElement l k).isSome = true) ∧
        ks.card = ts.length) ∧
      Set.Length l = ts.length % M32 ∧ (ts.length < M32 → Set.Length l = ts.length) := by
  obtain ⟨ps, hi, hb0, hb1⟩ := Set_reachable_inv hr
  have hidx : ∀ k v, Set.GetElement l k = some v ↔ v ∈ ps.map l.heap.val ∧ Valuer.Key v = k := by
    intro k v
    show l.index k = some v ↔ _
    rw [hi.index_iff]
    constructor
    · rintro ⟨p, hp, rfl, e⟩
      exact ⟨List.mem_map_of_mem _ hp, e⟩
    · rintro ⟨hv, e⟩
      obtain ⟨p, hp, rfl⟩ := List.mem_map.1 hv
      exact ⟨p, hp, rfl, e⟩
  have hnd := hi.toShape.keys_nodup_map
  have hlen : Set.Length l = (ps.map l.heap.val).length % M32 := by
    rw [Set.length_eq hi hb0 hb1, List.length_map]
  refine ⟨ps.map l.heap.val, hi.toShape.traversal_eq, hidx, hnd,
    ⟨((ps.map l.heap.val).map Valuer.Key).toFinset, ?_, ?_⟩, hlen, fun hlt => ?_⟩
  · intro k
    rw [List.mem_toFinset, List.mem_map, Option.isSome_iff_exists]
    constructor
    · rintro ⟨v, hv, e⟩
      exact ⟨v, (hidx k v).2 ⟨hv, e⟩⟩
    · rintro ⟨v, hv⟩
      exact ⟨v, (hidx k v).1 hv⟩
  · rw [List.toFinset_card_of_nodup hnd, List.length_map]
  · rw [hlen, Nat.mod_eq_of_lt hlt]

set_option maxRecDepth 100000 in
/-- Witness of C18: the four-element set of the tests. -/
theorem index_agreement_witness :
    Set.Reachable sampleSet ∧ Set.Length sampleSet = 4 ∧
      ∃ ts, Set.Range sampleSet = some ts ∧
        (∀ k v, Set.GetElement sampleSet k = some v ↔ v ∈ ts ∧ Valuer.Key v = k) ∧
        (ts.map Valuer.Key).Nodup ∧
        (∃ ks : Finset Nat, (∀ k, k ∈ ks ↔ (Set.GetElement sampleSet k).isSome = true) ∧
          ks.card = ts.length) ∧
        Set.Length sampleSet = ts.length % M32 ∧
        (ts.length < M32 → Set.Length sampleSet = ts.length) :=
  ⟨sampleSet_reachable, by decide, index_agreement sampleSet sampleSet_reachable⟩

/-! ## The current level -/

/-- The current level is tight: above level 1, the head sentinel has a successor
at the topmost level in use. -/
theorem Shape.top_link [Valuer V] {l : SkipList V} {ps : List Nat} (hs : Shape l ps) :
    l.level = 1 ∨ ∃ y, l.heap.Next l.head (l.level - 1) = some (some y) := by
  rcases hs.tight with h | ⟨p, hp, hh⟩
  · exact Or.inl h
  · right
    have hlp := hs.level_pos
    have hll := hs.level_le
    have hl := hs.links (l.level - 1) (by omega)
    have hent := hl.1 (by rw [hs.head_height]; omega)
    cases hn : nextAt l.heap.height (l.level - 1) ps with
    | none =>
      have := nextAt_none hn p hp
      omega
    | some q =>
      rw [hn] at hent
      exact ⟨q, Heap.Next_eq hent⟩

/-- C21: `randomLevel` returns a height from 1 to 32, whatever the random draws;
on every reachable list, of either type (the lists returned by `Delete` and by
the range deletions among them), the current level `Level()` lies between 1 and
32 and is tight: it is 1, or the head sentinel has a successor at level
`Level() - 1`; and a list without elements has `Level() == 1`. -/
theorem height_invariant [ReValuer V] [Inhabited V] (l : SkipList V)
    (hr : SkipList.Reachable l ∨ Set.Reachable l) (rand : Nat → Nat) :
    (1 ≤ randomLevel rand ∧ randomLevel rand ≤ 32) ∧
      (1 ≤ l.Level ∧ l.Level ≤ 32) ∧
      (l.Level = 1 ∨ ∃ y, l.heap.Next l.head (l.Level - 1) = some (some y)) ∧
      (l.traversal = some [] → l.Level = 1) := by
  obtain ⟨ps, hinv, _⟩ := reachable_inv hr
  have hs := hinv.toShape
  refine ⟨randomLevel_bounds rand, ⟨hs.level_pos, hs.level_le⟩, hs.top_link, fun hem => ?_⟩
  rw [hs.traversal_eq] at hem
  simp only [Option.some.injEq, List.map_eq_nil_iff] at hem
  subst hem
  rcases hs.tight with h | ⟨p, hp, _⟩
  · exact h
  · cases hp

set_option maxRecDepth 100000 in
/-- Witness of C21: draws that stop `randomLevel` at once and draws that take it
to the cap; the four-element list (level 3); the list after `Delete(3)`,
which removes its only tower of height 3 (level 2); and the four-element set
after `DeleteRangeByRank(1, 3)`, which leaves a tower of height 1 (level 1). -/
theorem height_invariant_witness :
    (SkipList.Reachable sampleList ∧ sampleList.Level = 3 ∧
      randomLevel (drawsFor 1) = 1 ∧ randomLevel (drawsFor 40) = 32 ∧
      ((1 ≤ randomLevel (drawsFor 40) ∧ randomLevel (drawsFor 40) ≤ 32) ∧
        (1 ≤ sampleList.Level ∧ sampleList.Level ≤ 32) ∧
        (sampleList.Level = 1 ∨
          ∃ y, sampleList.heap.Next sampleList.head (sampleList.Level - 1) = some (some y)) ∧
        (sampleList.traversal = some [] → sampleList.Level = 1))) ∧
    (∃ r, sampleList.Delete 3 = some r ∧ r.2.Level = 2 ∧
      (r.2.Level = 1 ∨ ∃ y, r.2.heap.Next r.2.head (r.2.Level - 1) = some (some y))) ∧
    (∃ r, Set.DeleteRangeByRank sampleSet 1 3 = some r ∧ SkipList.Level sampleSet = 3 ∧
      SkipList.Level r.2 = 1) := by
  refine ⟨⟨sampleList_reachable, by decide, by decide, by decide,
    height_invariant sampleList (Or.inl sampleList_reachable) (drawsFor 40)⟩, ?_, ?_⟩
  · have hd : (sampleList.Delete 3).isSome = true := by decide
    obtain ⟨r, hr⟩ := Option.isSome_iff_exists.1 hd
    have hlv : (sampleList.Delete 3).map (fun r => r.2.Level) = some 2 := by decide
    rw [hr] at hlv
    simp only [Option.map_some', Option.some.injEq] at hlv
    exact ⟨r, hr, hlv, (height_invariant r.2
      (Or.inl (SkipList.Reachable.delete sampleList_reachable hr)) (drawsFor 1)).2.2.1⟩
  · have hd : (Set.DeleteRangeByRank sampleSet 1 3).isSome = true := by decide
    obtain ⟨r, hr⟩ := Option.isSome_iff_exists.1 hd
    have hlv : (Set.DeleteRangeByRank sampleSet 1 3).map (fun r => SkipList.Level r.2) =
        some 1 := by decide
    rw [hr] at hlv
    simp only [Option.map_some', Option.some.injEq] at hlv
    exact ⟨r, hr, by decide, hlv⟩

/-! ## The capacity of the `uint32` counters -/

/-! Reachable sets are not bounded in size, whereas the field `length` of a `Set`,
the spans and the counters of the range deletions are `uint32`. -/

theorem insertNode_height [Valuer V] {l : SkipList V} {ps : List Nat} (hs : Shape l ps) (v : V)
    {lvl : Nat} (hl1 : 1 ≤ lvl) (hl2 : lvl ≤ maxLevel)
    (hlen : l.length % (M32 : Int) = (ps.length : Int) % (M32 : Int)) {x : Nat}
    {l1 : SkipList V} (h : insertNode l v lvl = some (x, l1)) :
    ∀ p, p ≠ l.alloc → l1.heap.height p = l.heap.height p := by
  obtain ⟨A, B, x0, h4, _, _, _, _, c5, _, _, _, _, _, c11⟩ := insertNode_eq hs v hl1 hl2 hlen
  rw [c11] at h
  intro p hp
  cases hB : B.head? with
  | none =>
    rw [hB] at h
    simp only [Option.some.injEq, Prod.mk.injEq] at h
    obtain ⟨_, rfl⟩ := h
    show Heap.height (if x0 = l.head then _ else _) p = _
    split_ifs <;> simp [(c5 p hp).1]
  | some y =>
    rw [hB] at h
    simp only [Option.some.injEq, Prod.mk.injEq] at h
    obtain ⟨_, rfl⟩ := h
    show Heap.height (Heap.setBackward (if x0 = l.head then _ else _) y _) p = _
    split_ifs <;> simp [(c5 p hp).1]

/-- `Set.Insert` of a value whose key is not stored, with the level and the tower
heights of the result. -/
theorem Set_Insert_absent [ReValuer V] {l : Set V} {ps : List Nat} (hi : Inv l ps)
    (v : V) (rand : Nat → Nat) (hk : l.index (Valuer.Key v) = none) :
    ∃ A B l2, ps = A ++ B ∧ Set.Insert l v rand = some l2 ∧ Inv l2 (A ++ l.alloc :: B) ∧
      l2.heap.val l.alloc = ReValuer.ReCalcScore v ∧
      (∀ p ∈ ps, l2.heap.val p = l.heap.val p) ∧
      (∀ p ∈ A, Before (l.heap.val p) (ReValuer.ReCalcScore v)) ∧
      (∀ p ∈ B, Before (ReValuer.ReCalcScore v) (l.heap.val p)) ∧
      l2.level = max l.level (randomLevel rand) ∧
      l2.heap.height l.alloc = randomLevel rand ∧
      (∀ p ∈ ps, l2.heap.height p = l.heap.height p) ∧
      0 ≤ l2.length ∧ l2.length < (M32 : Int) := by
  have hkey : Valuer.Key (ReValuer.ReCalcScore v) = Valuer.Key v := ReValuer.Key_ReCalcScore v
  have hk1 : ∀ p ∈ ps, Valuer.Key (l.heap.val p) ≠ Valuer.Key (ReValuer.ReCalcScore v) := by
    rw [hkey]; exact hi.key_ne hk
  obtain ⟨A, B, l1, e1, e2, e3, e4, e5, e6, e7, e8, e9, e10, e11⟩ :=
    insertNode_shape hi.toShape (ReValuer.ReCalcScore v) hk1 (randomLevel_bounds rand).1
      (randomLevel_bounds rand).2 hi.length_mod
  have hht := insertNode_height hi.toShape (ReValuer.ReCalcScore v) (randomLevel_bounds rand).1
    (randomLevel_bounds rand).2 hi.length_mod e2
  subst e1
  refine ⟨A, B, { l1 with
      length := (l1.length + 1) % (M32 : Int)
      index := Function.update l1.index (Valuer.Key (ReValuer.ReCalcScore v))
        (some (ReValuer.ReCalcScore v)) }, rfl, ?_, ?_, e6, e7, e3, e4, e10, e11, ?_,
    (mod_bounds _).1, (mod_bounds _).2⟩
  · simp only [Set.Insert, Set_Delete_absent hk, Option.bind_eq_bind, Option.some_bind, e2]
  · have hk0 : l.index (Valuer.Key (ReValuer.ReCalcScore v)) = none := by rw [hkey]; exact hk
    have := @Inv.insert _ _ l l1 A B (ReValuer.ReCalcScore v) hi e5 hk0 e6 e7
      ((l1.length + 1) % (M32 : Int)) (by rw [e8]; unfold M32; omega)
    rw [← e9] at this
    exact this
  · intro p hp
    have hne : p ≠ l.alloc := by
      have := hi.lt_alloc p (List.mem_cons_of_mem _ hp)
      omega
    exact hht p hne

/-- Inserting the key `n` with score 0 after the keys `0, ..., n - 1` with score
0 appends a node to the level-0 chain. -/
theorem bigSet_push {l : Set value} {ps : List Nat} {n : Nat} (hi : Inv l ps)
    (hv : ps.map l.heap.val = (List.range n).map (fun k => (⟨k, 0⟩ : value)))
    (rand : Nat → Nat) :
    ∃ l2, Set.Insert l (⟨n, 0⟩ : value) rand = some l2 ∧ Inv l2 (ps ++ [l.alloc]) ∧
      (ps ++ [l.alloc]).map l2.heap.val = (List.range (n + 1)).map (fun k => (⟨k, 0⟩ : value)) ∧
      l2.level = max l.level (randomLevel rand) ∧
      l2.heap.height l.alloc = randomLevel rand ∧
      (∀ p ∈ ps, l2.heap.height p = l.heap.height p) ∧ l2.head = l.head ∧
      0 ≤ l2.length ∧ l2.length < (M32 : Int) := by
  have hmem : ∀ p ∈ ps, ∃ k, k < n ∧ l.heap.val p = ⟨k, 0⟩ := by
    intro p hp
    have : l.heap.val p ∈ (List.range n).map (fun k => (⟨k, 0⟩ : value)) := by
      rw [← hv]; exact List.mem_map_of_mem _ hp
    obtain ⟨k, hk, e⟩ := List.mem_map.1 this
    exact ⟨k, List.mem_range.1 hk, e.symm⟩
  have hk : l.index (Valuer.Key (⟨n, 0⟩ : value)) = none := by
    rw [hi.index_none_iff]
    intro w hw e
    obtain ⟨p, hp, rfl⟩ := List.mem_map.1 hw
    obtain ⟨k, hk, e1⟩ := hmem p hp
    rw [e1] at e
    have e2 : k = n := e
    omega
  obtain ⟨A, B, l2, e1, e2, e3, e4, e5, _, e7, e8, e9, e10, e11, e12⟩ :=
    Set_Insert_absent hi (⟨n, 0⟩ : value) rand hk
  have hB : B = [] := by
    cases B with
    | nil => rfl
    | cons q t =>
      exfalso
      have hq : q ∈ ps := by rw [e1]; simp
      obtain ⟨k, hk, e⟩ := hmem q hq
      have := e7 q (List.mem_cons_self _ _)
      rw [e] at this
      rcases this with h | ⟨_, h⟩
      · have h' : (0 : Nat) < 0 := h
        omega
      · have h' : n < k := h
        omega
  subst hB
  simp only [List.append_nil] at e1
  subst e1
  have hhead : l2.head = l.head := by
    simp only [Set.Insert, Set_Delete_absent hk, Option.bind_eq_bind, Option.some_bind] at e2
    cases hins : insertNode l (ReValuer.ReCalcScore (⟨n, 0⟩ : value)) (randomLevel rand) with
    | none => rw [hins] at e2; cases e2
    | some r =>
      rw [hins] at e2
      simp only [Option.some_bind, Option.some.injEq] at e2
      subst e2
      obtain ⟨x, l1⟩ := r
      unfold insertNode at hins
      simp only [Option.bind_eq_bind, Option.bind_eq_some] at hins
      obtain ⟨_, _, _, _, _, _, _, _, _, _, _, _, h⟩ := hins
      split at h <;> · cases h; rfl
  refine ⟨l2, e2, e3, ?_, e8, e9, e10, hhead, e11, e12⟩
  rw [List.map_append, List.range_succ, List.map_append, ← hv]
  congr 1
  · exact List.map_congr_left e5
  · simp only [List.map_cons, List.map_nil, e4]
    rfl

/-- For every `n` there is a reachable set of `n` elements, with the keys
`0, ..., n - 1`, the score 0 and towers of height 1. -/
theorem bigSet (n : Nat) :
    ∃ l : Set value, Set.Reachable l ∧ ∃ ps, Inv l ps ∧ 0 ≤ l.length ∧ l.length < (M32 : Int) ∧
      ps.map l.heap.val = (List.range n).map (fun k => (⟨k, 0⟩ : value)) ∧ l.level = 1 ∧
      ps.length = n := by
  induction n with
  | zero =>
    exact ⟨NewSet (cmp value), Set.Reachable.new, [], NewSkipList_inv.1, by decide, by decide,
      rfl, rfl, rfl⟩
  | succ n ih =>
    obtain ⟨l, hr, ps, hi, hb0, hb1, hv, hlv, hlen⟩ := ih
    obtain ⟨l2, e2, e3, e4, e5, _, _, _, e8, e9⟩ := bigSet_push hi hv (drawsFor 1)
    refine ⟨l2, Set.Reachable.insert hr e2, ps ++ [l.alloc], e3, e8, e9, e4, ?_, by simp [hlen]⟩
    rw [e5, hlv]
    decide

/-- C13, as stated, fails: there is a reachable set with 2^32 stored elements
whose score passes both bounds of the range `[0, 0]`, on which
`DeleteRangeByScore` returns 0, not their number (the `uint32` counter `removed`
has wrapped around). -/
theorem DeleteRangeByScore_count_counterexample :
    (∃ l : Set value, Set.Reachable l ∧ ∃ ts l1, Set.Range l = some ts ∧
      (ts.filter (InRange ⟨false, false, 0, 0⟩)).length = 4294967296 ∧
      Set.DeleteRangeByScore l ⟨false, false, 0, 0⟩ = some (0, l1)) ∧
    ¬ (∀ (l : Set value), Set.Reachable l → ∀ (ts : List value), Set.Range l = some ts →
        ∀ (rg : RangeSpec), ∃ l1,
          Set.DeleteRangeByScore l rg = some ((ts.filter (InRange rg)).length, l1)) := by
  obtain ⟨l, hr, ps, hi, hb0, hb1, hv, _, hlen⟩ := bigSet M32
  obtain ⟨l1, e1, _⟩ := Set.DeleteRangeByScore_list hi ⟨hb0, hb1⟩ ⟨false, false, 0, 0⟩
  have hall : (ps.map l.heap.val).filter (InRange ⟨false, false, 0, 0⟩) = ps.map l.heap.val := by
    apply filter_all_true
    intro v hv1
    rw [hv] at hv1
    obtain ⟨k, _, rfl⟩ := List.mem_map.1 hv1
    rfl
  have hcount : ((ps.map l.heap.val).filter (InRange ⟨false, false, 0, 0⟩)).length =
      4294967296 := by
    rw [hall, List.length_map, hlen]; rfl
  rw [hall, List.length_map, hlen, Nat.mod_self] at e1
  refine ⟨⟨l, hr, ps.map l.heap.val, l1, hi.toShape.traversal_eq, hcount, e1⟩, fun h => ?_⟩
  obtain ⟨l2, e2⟩ := h l hr _ hi.toShape.traversal_eq ⟨false, false, 0, 0⟩
  rw [e1, hcount] at e2
  simp only [Option.some.injEq, Prod.mk.injEq] at e2
  exact absurd e2.1 (by decide)

/-- C18, as stated, fails: there is a reachable set whose level-0 chain holds
2^32 nodes and whose `Length()` is 0 (the `uint32` field `length` has wrapped
around). -/
theorem Length_wraps_counterexample :
    (∃ l : Set value, Set.Reachable l ∧ ∃ ts, Set.Range l = some ts ∧
      ts.length = 4294967296 ∧ Set.Length l = 0) ∧
    ¬ (∀ (l : Set value), Set.Reachable l → ∀ (ts : List value), Set.Range l = some ts →
        Set.Length l = ts.length) := by
  obtain ⟨l, hr, ps, hi, hb0, hb1, _, _, hlen⟩ := bigSet M32
  have h1 : (ps.map l.heap.val).length = 4294967296 := by
    rw [List.length_map, hlen]; rfl
  have h2 : Set.Length l = 0 := by
    rw [Set.length_eq hi hb0 hb1, hlen, Nat.mod_self]
  refine ⟨⟨l, hr, ps.map l.heap.val, hi.toShape.traversal_eq, h1, h2⟩, fun h => ?_⟩
  have := h l hr _ hi.toShape.traversal_eq
  rw [h1, h2] at this
  exact absurd this (by decide)

/-- C20, as stated, fails: there is a reachable set in which the forward link of
the head sentinel at level 1 points to the node of rank 2^32 + 1, over
2^32 + 1 level-0 steps, with the span 1 (the `uint32` span has wrapped
around). -/
theorem span_wraps_counterexample :
    (∃ l : Set value, Set.Reachable l ∧ ∃ c0 y, SkipList.dumpLevel l 0 = some c0 ∧
      1 < SkipList.Level l ∧ l.head ∈ c0.map Prod.fst ∧
      l.heap.Next l.head 1 = some (some y) ∧
      (c0.map Prod.fst).indexOf l.head = 0 ∧ (c0.map Prod.fst).indexOf y = 4294967297 ∧
      l.heap.Span l.head 1 = some 1) ∧
    ¬ (∀ (l : Set value), Set.Reachable l → ∀ c0, SkipList.dumpLevel l 0 = some c0 →
        ∀ (i x y : Nat), i < SkipList.Level l → x ∈ c0.map Prod.fst →
          l.heap.Next x i = some (some y) →
          l.heap.Span x i =
            some ((c0.map Prod.fst).indexOf y - (c0.map Prod.fst).indexOf x)) := by
  have hex : ∃ l : Set value, Set.Reachable l ∧ ∃ c0 y, SkipList.dumpLevel l 0 = some c0 ∧
      1 < SkipList.Level l ∧ l.head ∈ c0.map Prod.fst ∧
      l.heap.Next l.head 1 = some (some y) ∧
      (c0.map Prod.fst).indexOf l.head = 0 ∧ (c0.map Prod.fst).indexOf y = 4294967297 ∧
      l.heap.Span l.head 1 = some 1 := by
    obtain ⟨l, hr, ps, hi, hb0, hb1, hv, hlv, hlen⟩ := bigSet M32
    obtain ⟨l2, e2, e3, _, e5, e6, e7, _, _, _⟩ := bigSet_push hi hv (drawsFor 2)
    have hr2 : randomLevel (drawsFor 2) = 2 := by decide
    rw [hr2] at e5 e6
    rw [hlv] at e5
    have hlow : ∀ p ∈ ps, l2.heap.height p ≤ 1 := by
      intro p hp
      rw [e7 p hp]
      have := hi.height_le p hp
      rw [hlv] at this
      exact this
    have hlev : l2.level = 2 := e5
    have hs2 := e3.toShape
    obtain ⟨c0, d1, d2⟩ := hs2.dumpLevel_zero
    have hl1 := hs2.links 1 (by rw [hlev]; decide)
    have hent := hl1.1 (by rw [hs2.head_height]; decide)
    rw [nextAt_append_high [] hlow (by rw [e6]; decide),
      gap_append_high [] hlow (by rw [e6]; decide), hlen] at hent
    have hnd := hs2.nodup
    have e : l2.head :: (ps ++ [l.alloc]) = (l2.head :: ps) ++ l.alloc :: [] := by simp
    refine ⟨l2, Set.Reachable.insert hr e2, c0, l.alloc, d1, by
      show 1 < l2.level
      rw [hlev]; decide, by rw [d2]; simp, Heap.Next_eq hent,
      by rw [d2, List.indexOf_cons_self], ?_, ?_⟩
    · rw [d2, e]
      rw [e] at hnd
      rw [indexOf_mid hnd, List.length_cons, hlen]
      rfl
    · rw [Heap.Span_eq hent]
      rfl
  refine ⟨hex, fun h => ?_⟩
  obtain ⟨l, hr, c0, y, d1, d2, d3, d4, d5, d6, d7⟩ := hex
  have := h l hr c0 d1 1 l.head y d2 d3 d4
  rw [d7, d5, d6] at this
  simp only [Option.some.injEq] at this
  exact absurd this (by decide)

/-- C17, as stated, fails: there is a reachable set with `Length()` 2^32 - 1 that
does not hold the key 2^32 - 1, and after `Insert` of an element with that key
`Length()` is 0, not 2^32 (the `uint32` field `length` has wrapped around). -/
theorem Set_Insert_length_counterexample :
    (∃ l : Set value, Set.Reachable l ∧ Set.Length l = 4294967295 ∧
      Set.GetElement l 4294967295 = none ∧
      ∃ l2, Set.Insert l ⟨4294967295, 0⟩ (drawsFor 1) = some l2 ∧ Set.Length l2 = 0) ∧
    ¬ (∀ (l : Set value), Set.Reachable l → ∀ (v : value) (rand : Nat → Nat),
        Set.GetElement l (Valuer.Key v) = none →
        ∃ l2, Set.Insert l v rand = some l2 ∧ Set.Length l2 = Set.Length l + 1) := by
  obtain ⟨l, hr, ps, hi, hb0, hb1, hv, _, hlen⟩ := bigSet 4294967295
  have hL : Set.Length l = 4294967295 := by
    rw [Set.length_eq hi hb0 hb1, hlen]; rfl
  have hk : Set.GetElement l 4294967295 = none := by
    show l.index 4294967295 = none
    rw [hi.index_none_iff]
    intro w hw e
    rw [hv] at hw
    obtain ⟨k, hk, rfl⟩ := List.mem_map.1 hw
    have hk' := List.mem_range.1 hk
    have e' : k = 4294967295 := e
    omega
  obtain ⟨l2, e2, e3, _, _, _, _, _, e8, e9⟩ := bigSet_push hi hv (drawsFor 1)
  have hL2 : Set.Length l2 = 0 := by
    rw [Set.length_eq e3 e8 e9, List.length_append, hlen, List.length_singleton]; rfl
  refine ⟨⟨l, hr, hL, hk, l2, e2, hL2⟩, fun h => ?_⟩
  obtain ⟨l3, f1, f2⟩ := h l hr ⟨4294967295, 0⟩ (drawsFor 1) hk
  rw [e2] at f1
  cases f1
  rw [hL2, hL] at f2
  exact absurd f2 (by decide)

/-- C11, as stated, fails: on a reachable set of 2^32 elements `Length()` is 0,
and `GetRange(1, 1, true)` returns the empty sequence, not the last element. -/
theorem GetRange_wraps_counterexample :
    (∃ l : Set value, Set.Reachable l ∧ ∃ ts, Set.Range l = some ts ∧
      ts.length = 4294967296 ∧ Set.Length l = 0 ∧ Set.GetRange l 1 1 true = some []) ∧
    ¬ (∀ (l : Set value), Set.Reachable l → ∀ (ts : List value), Set.Range l = some ts →
        ∀ (start stop : Nat), start < M32 → stop < M32 →
          (if start = 0 then 1 else start) ≤ min (if stop = 0 then ts.length else stop) ts.length →
          (if start = 0 then 1 else start) ≤ ts.length →
          Set.GetRange l start stop true = some
            ((ts.reverse.drop ((if start = 0 then 1 else start) - 1)).take
              (min (if stop = 0 then ts.length else stop) ts.length -
                (if start = 0 then 1 else start) + 1))) := by
  obtain ⟨l, hr, ps, hi, hb0, hb1, _, _, hlen⟩ := bigSet M32
  have h1 : (ps.map l.heap.val).length = 4294967296 := by
    rw [List.length_map, hlen]; rfl
  have h2 : Set.Length l = 0 := by
    rw [Set.length_eq hi hb0 hb1, hlen, Nat.mod_self]
  have h3 : Set.GetRange l 1 1 true = some [] := by
    simp [Set.GetRange, h2]
  refine ⟨⟨l, hr, ps.map l.heap.val, hi.toShape.traversal_eq, h1, h2, h3⟩, fun h => ?_⟩
  have := h l hr _ hi.toShape.traversal_eq 1 1 (by decide) (by decide)
    (by rw [h1]; decide) (by rw [h1]; decide)
  rw [h3, h1] at this
  have hl := congrArg (fun o => o.map List.length) this
  simp only [Option.map_some', List.length_nil, List.length_take, List.length_drop,
    List.length_reverse, h1, Option.some.injEq] at hl
  exact absurd hl (by decide)

theorem removeRun_all (cond : Nat → V → Bool) (hc : ∀ t v, t < M32 → cond t v = true) :
    ∀ (vs : List V) (t0 : Nat), t0 < M32 → removeRun cond t0 vs = vs.length := by
  intro vs
  induction vs with
  | nil => intro t0 _; rfl
  | cons v t ih =>
    intro t0 h
    simp only [removeRun, hc t0 v h, if_true, List.length_cons]
    rw [ih (add32 t0 1) (Nat.mod_lt _ (by decide))]

/-- C12, as stated, fails: on a reachable set of 2^32 elements,
`DeleteRangeByRank(1, 2^32 - 1)` removes every element and returns 0 (the
`uint32` counters `traversed` and `removed` wrap around), where the claim has
it return 2^32 - 1 and leave the last element. -/
theorem DeleteRangeByRank_wraps_counterexample :
    (∃ l : Set value, Set.Reachable l ∧ ∃ ts l1, Set.Range l = some ts ∧
      ts.length = 4294967296 ∧
      Set.DeleteRangeByRank l 1 4294967295 = some (0, l1) ∧ Set.Range l1 = some []) ∧
    ¬ (∀ (l : Set value), Set.Reachable l → ∀ (ts : List value), Set.Range l = some ts →
        ∀ (start stop : Nat), 1 ≤ start → start < M32 → stop < M32 →
          ∃ l1, Set.DeleteRangeByRank l start stop =
              some (min stop ts.length + 1 - start, l1) ∧
            Set.Range l1 = some (ts.take (start - 1) ++
              ts.drop (start - 1 + (min stop ts.length + 1 - start))) ∧
            (∀ k, Set.GetElement l1 k =
              if k ∈ ((ts.drop (start - 1)).take (min stop ts.length + 1 - start)).map
                Valuer.Key then none else Set.GetElement l k) ∧
            Set.Length l1 + (min stop ts.length + 1 - start) = Set.Length l) := by
  obtain ⟨l, hr, ps, hi, hb0, hb1, _, hlv, hlen⟩ := bigSet M32
  have hs := hi.toShape
  have h1 : (ps.map l.heap.val).length = 4294967296 := by
    rw [List.length_map, hlen]; rfl
  obtain ⟨A, B, x0, upd, rk, l1, e1, e2, e3, e4, _, _, e7, e8, e9, _, _, _⟩ :=
    Set.searchRemove_list hi ⟨hb0, hb1⟩ (fun t (_ : value) => decide (t < 1))
      (fun t (_ : value) => decide (t ≤ 4294967295)) (fun r => add32 r 1)
  -- the search stops on the head sentinel
  obtain ⟨q, rest, hps⟩ : ∃ q rest, ps = q :: rest := by
    cases ps with
    | nil => simp [M32] at hlen
    | cons q rest => exact ⟨q, rest, rfl⟩
  have hent := (hs.links 0 hs.level_pos).1 (by rw [hs.head_height]; decide)
  rw [nextAt_zero hs.height_pos] at hent
  have hgap : gap l.heap.height 0 ps = 1 := by
    rw [hps]
    have := hs.height_pos q (by rw [hps]; simp)
    simp only [gap]
    rw [if_pos (by omega)]
  rw [hgap, hps] at hent
  obtain ⟨f, hf⟩ : ∃ f, l.alloc = f + 1 := ⟨l.alloc - 1, by have := hs.alloc_pos; omega⟩
  have hadv : advance l.heap (fun t (_ : value) => decide (t < 1)) 0 l.alloc l.head 0 =
      some (l.head, 0) := by
    rw [hf]
    exact advance_stop hent f (by decide)
  have hx0 : x0 = l.head := by
    have hls : l.level = 0 + 1 := hlv
    rw [hls] at e2
    simp only [search, hadv, Option.some.injEq, Prod.mk.injEq] at e2
    exact e2.1.symm
  have hA : A = [] := by
    rcases lastOr_head_cases e7 with ⟨h, _⟩ | ⟨A1, h⟩
    · exact h
    · exfalso
      have : x0 ∈ ps := by rw [e1, h]; simp
      exact hs.ne_head this hx0
  subst hA
  simp only [List.nil_append] at e1
  subst e1
  have hrun : removeRun (fun t (_ : value) => decide (t ≤ 4294967295)) (add32 (rk 0) 1)
      (ps.map l.heap.val) = 4294967296 := by
    have hlt : add32 (rk 0) 1 < M32 := Nat.mod_lt _ (by decide)
    rw [removeRun_all (fun t (_ : value) => decide (t ≤ 4294967295)) (fun t v ht => by
      simp only [decide_eq_true_eq]; unfold M32 at ht; omega) (ps.map l.heap.val)
      (add32 (rk 0) 1) hlt, h1]
  rw [hrun] at e8 e9
  have hdel : Set.DeleteRangeByRank l 1 4294967295 = some (0, l1) := by
    simp only [Set.DeleteRangeByRank, e2, Option.bind_eq_bind, Option.some_bind, e3]
    exact e8
  have hrange : Set.Range l1 = some [] := by
    rw [e9, List.nil_append, List.drop_of_length_le (by rw [hlen]; decide)]
    rfl
  refine ⟨⟨l, hr, ps.map l.heap.val, l1, hs.traversal_eq, h1, hdel, hrange⟩, fun h => ?_⟩
  obtain ⟨l2, f1, _⟩ := h l hr _ hs.traversal_eq 1 4294967295 (by decide) (by decide)
    (by decide)
  rw [hdel, h1] at f1
  simp only [Option.some.injEq, Prod.mk.injEq] at f1
  exact absurd f1.1 (by decide)

end skiplist
